import Mathlib

/-! # A shallow embedding of `malloc.c`

The allocator keeps two intrusive singly linked lists of chunk headers
(`freep`, `usedp`).  A chunk header `struct chunkinfo { memsize_t size;
chunkinfo_t *next; }` lives at an address; the payload follows the header.

Modelling decisions (x86-64 Linux, the `__linux__` branch of the source):

* addresses and `memsize_t` values are natural numbers below `WORD = 2^64`;
  every arithmetic operation of the source is followed by `% WORD`;
* `sizeof(chunkinfo_t)` is `header_size = 16`;
* the heap is read and written one header field at a time: `size a` and
  `next a` are the two fields of the header at address `a` (headers at
  different addresses are different records);
* `mmap` is the environment: the address it answers is a parameter of the
  function that calls `create_chunk`, and the mapping it hands out is
  zero-filled;
* loops take a fuel argument and answer `none` when it runs out, because the
  lists they walk may be cyclic.
-/

namespace Malloc

/-- Number of values of `memsize_t` (and of a pointer): `2^64`. -/
def WORD : Nat := 18446744073709551616

/-- The macro `CHUNK_DEFAULT_SIZE` of `malloc.c` (`32*1024`). -/
def CHUNK_DEFAULT_SIZE : Nat := 32768

/-- The macro `ALLOCATION_ALIGNMENT` of `malloc.c`. -/
def ALLOCATION_ALIGNMENT : Nat := 4

/-- The value of `sizeof(chunkinfo_t)`: an `unsigned long` and a pointer. -/
def header_size : Nat := 16

/-- The allocator state: the two header fields of every address, and the two
global list heads `freep` and `usedp` (`0` is the null pointer). -/
structure Heap where
  size : Nat → Nat
  next : Nat → Nat
  freep : Nat
  usedp : Nat

/-- The state at program start: both lists empty, memory zero-filled. -/
def init : Heap := ⟨fun _ => 0, fun _ => 0, 0, 0⟩

/-- The assignment `a->size = v`. -/
def setSize (h : Heap) (a v : Nat) : Heap :=
  { h with size := fun x => if x = a then v else h.size x }

/-- The assignment `a->next = v`. -/
def setNext (h : Heap) (a v : Nat) : Heap :=
  { h with next := fun x => if x = a then v else h.next x }

/-- The assignment `freep = v`. -/
def setFreep (h : Heap) (v : Nat) : Heap := { h with freep := v }

/-- The assignment `usedp = v`. -/
def setUsedp (h : Heap) (v : Nat) : Heap := { h with usedp := v }

/-- The effect of a fresh anonymous mapping of `len` bytes at `mm`: the
headers that lie in it read as zero. -/
def mmapZero (h : Heap) (mm len : Nat) : Heap :=
  { h with
    size := fun x => if mm ≤ x ∧ x < mm + len then 0 else h.size x
    next := fun x => if mm ≤ x ∧ x < mm + len then 0 else h.next x }

/-- The function `create_chunk` (Linux branch); `mm` is the address `mmap`
answers. -/
def create_chunk (h : Heap) (mm size : Nat) : Heap × Nat :=
  let chunk_size := if size > CHUNK_DEFAULT_SIZE then size else CHUNK_DEFAULT_SIZE
  let h0 := mmapZero h mm ((header_size + chunk_size) % WORD)
  let h1 := setSize h0 mm chunk_size
  let h2 := setNext h1 mm 0
  (h2, mm)

/-- The function `split_chunk`: the answer `0` is failure. -/
def split_chunk (h : Heap) (chunk size : Nat) : Heap × Nat :=
  let requested_size := (header_size + size) % WORD
  if chunk = 0 ∨ requested_size ≥ h.size chunk then (h, 0)
  else
    let result := (chunk + h.size chunk + (WORD - size % WORD)) % WORD
    let h1 := setSize h result size
    let h2 := setSize h1 chunk ((h1.size chunk + (WORD - requested_size)) % WORD)
    (h2, result)

/-- The function `add_to_used_chunks`. -/
def add_to_used_chunks (h : Heap) (chunk : Nat) : Heap :=
  let h1 := if h.usedp ≠ 0 then setNext h chunk h.usedp else h
  setUsedp h1 chunk

/-- The first loop of `add_to_free_chunks` (lines 117-132); the Boolean is
`new_chunk_added`. -/
def free_insert_loop : Nat → Heap → Nat → Nat → Nat → Option (Heap × Bool)
  | 0, _, _, _, _ => none
  | fuel + 1, h, chunk, curr_free, next_free =>
    if curr_free = 0 then some (h, false)
    else if chunk > curr_free then
      if next_free ≠ 0 ∧ chunk > next_free then
        free_insert_loop fuel h chunk next_free (h.next next_free)
      else
        some (setNext (setNext h curr_free chunk) chunk next_free, true)
    else
      free_insert_loop fuel h chunk next_free
        (if next_free ≠ 0 then h.next next_free else next_free)

/-- The second loop of `add_to_free_chunks` (lines 139-142): absorb the
successors that start where the chunk ends. -/
def coalesce_loop : Nat → Heap → Nat → Option Heap
  | 0, _, _ => none
  | fuel + 1, h, chunk =>
    if (chunk + header_size + h.size chunk) % WORD = h.next chunk then
      let h1 := setSize h chunk
        ((h.size chunk + (h.size (h.next chunk) + header_size) % WORD) % WORD)
      let h2 := setNext h1 chunk (h1.next (h1.next chunk))
      coalesce_loop fuel h2 chunk
    else some h

/-- The function `add_to_free_chunks`. -/
def add_to_free_chunks (fuel : Nat) (h : Heap) (chunk : Nat) : Option Heap :=
  if h.freep = 0 then some (setFreep h chunk)
  else
    match free_insert_loop fuel h chunk h.freep (h.next h.freep) with
    | none => none
    | some (h1, new_chunk_added) =>
      let h2 := if new_chunk_added then h1
        else setFreep (setNext h1 chunk h1.freep) chunk
      coalesce_loop fuel h2 chunk

/-- The size normalisation of `memalloc` (lines 156-157). -/
def normalized_size (size : Nat) : Nat :=
  let size1 := if size < ALLOCATION_ALIGNMENT then ALLOCATION_ALIGNMENT else size
  (size1 + ALLOCATION_ALIGNMENT - size1 % ALLOCATION_ALIGNMENT) % WORD

/-- The scan loop of `memalloc` (lines 159-178): `some (some (h, p))` is a
`return p`, `some none` is leaving the loop at the end of the list. -/
def memalloc_scan : Nat → Heap → Nat → Nat → Nat → Option (Option (Heap × Nat))
  | 0, _, _, _, _ => none
  | fuel + 1, h, size, prev_free, curr_free =>
    if curr_free = 0 then some none
    else if h.size curr_free > (size + header_size) % WORD then
      if (split_chunk h curr_free size).2 = 0 then
        memalloc_scan fuel (split_chunk h curr_free size).1 size prev_free curr_free
      else
        some (some (add_to_used_chunks (split_chunk h curr_free size).1
          (split_chunk h curr_free size).2,
          ((split_chunk h curr_free size).2 + header_size) % WORD))
    else if h.size curr_free = size then
      let h1 := if prev_free ≠ 0 then setNext h prev_free (h.next curr_free)
        else setFreep h (h.next curr_free)
      some (some (add_to_used_chunks h1 curr_free, (curr_free + header_size) % WORD))
    else
      memalloc_scan fuel h size (h.next curr_free) (h.next curr_free)

/-- The part of `memalloc` after the scan loop (lines 180-195); `mm` is the
address `mmap` answers. -/
def memalloc_grow (h : Heap) (mm size : Nat) : Heap × Nat :=
  let h1 := (create_chunk h mm size).1
  let new_chunk := (create_chunk h mm size).2
  if new_chunk ≠ 0 then
    if h1.size new_chunk = size then
      (add_to_used_chunks h1 new_chunk, (new_chunk + header_size) % WORD)
    else
      let h3 := setFreep (setNext h1 new_chunk h1.freep) new_chunk
      let h4 := (split_chunk h3 new_chunk size).1
      let result := (split_chunk h3 new_chunk size).2
      if result = 0 then (h4, 0)
      else (add_to_used_chunks h4 result, (result + header_size) % WORD)
  else (h1, 0)

/-- The function `memalloc`; `mm1` and `mm2` are the addresses `mmap` answers
to the first and to the second call of `create_chunk` (when they happen). -/
def memalloc (fuel : Nat) (h : Heap) (mm1 mm2 size : Nat) : Option (Heap × Nat) :=
  let h0 := if h.freep = 0 then
      setFreep (create_chunk h mm1 size).1 (create_chunk h mm1 size).2
    else h
  let size1 := normalized_size size
  match memalloc_scan fuel h0 size1 0 h0.freep with
  | none => none
  | some (some r) => some r
  | some none => some (memalloc_grow h0 mm2 size1)

/-- The header address the pointer `ptr` stands for: `(chunkinfo_t *)ptr - 1`. -/
def header_of (ptr : Nat) : Nat := (ptr + (WORD - header_size)) % WORD

/-- The loop of `memfree` (lines 204-218); `fuel0` is the fuel handed to
`add_to_free_chunks`. -/
def memfree_loop (fuel0 : Nat) : Nat → Heap → Nat → Nat → Nat → Option Heap
  | 0, _, _, _, _ => none
  | fuel + 1, h, chunk, prev_used, curr_used =>
    if curr_used = 0 then some h
    else if curr_used = chunk then
      let curr_used_next := h.next curr_used
      match add_to_free_chunks fuel0 (setNext h curr_used 0) curr_used with
      | none => none
      | some h2 =>
        if prev_used ≠ 0 then some (setNext h2 prev_used curr_used_next)
        else some (setUsedp h2 curr_used_next)
    else memfree_loop fuel0 fuel h chunk curr_used (h.next curr_used)

/-- The function `memfree`. -/
def memfree (fuel : Nat) (h : Heap) (ptr : Nat) : Option Heap :=
  memfree_loop fuel fuel h (header_of ptr) 0 h.usedp

/-- The result of the program `main` of `main.c`: the four pointers, the heap
after the four calls of `memalloc` and the heap at the end. -/
structure MainRun where
  a : Nat
  b : Nat
  c : Nat
  d : Nat
  allocated : Heap
  final : Heap

/-- The function `main` of `main.c`; `mm i` is the address `mmap` answers to
the `i`-th possible call of `create_chunk` (two for each `memalloc`). -/
def main (fuel : Nat) (mm : Nat → Nat) : Option MainRun := do
  let r1 ← memalloc fuel init (mm 0) (mm 1) 64
  let r2 ← memalloc fuel r1.1 (mm 2) (mm 3) 64
  let r3 ← memalloc fuel r2.1 (mm 4) (mm 5) 64
  let r4 ← memalloc fuel r3.1 (mm 6) (mm 7) 16
  let h5 ← memfree fuel r4.1 r1.2
  let h6 ← memfree fuel h5 r2.2
  let h7 ← memfree fuel h6 r3.2
  let h8 ← memfree fuel h7 r4.2
  pure ⟨r1.2, r2.2, r3.2, r4.2, r4.1, h8⟩

/-! ## Linked lists in the heap, and well-formed states -/

/-- The chain of `next` links from `p` to `q` visits exactly the chunks of the
list, each of them non-null. -/
def IsSeg (next : Nat → Nat) : Nat → Nat → List Nat → Prop
  | p, q, [] => p = q
  | p, q, c :: cs => p = c ∧ c ≠ 0 ∧ IsSeg next (next c) q cs

instance IsSeg.instDecidable (next : Nat → Nat) :
    (p q : Nat) → (l : List Nat) → Decidable (IsSeg next p q l)
  | p, q, [] => inferInstanceAs (Decidable (p = q))
  | p, q, c :: cs =>
    have := IsSeg.instDecidable next (next c) q cs
    inferInstanceAs (Decidable (p = c ∧ c ≠ 0 ∧ IsSeg next (next c) q cs))

/-- The list that starts at `p` is finite, ends in null and has the chunks
`l`, in order. -/
def IsList (next : Nat → Nat) (p : Nat) (l : List Nat) : Prop := IsSeg next p 0 l

instance IsList.instDecidable (next : Nat → Nat) (p : Nat) (l : List Nat) :
    Decidable (IsList next p l) :=
  inferInstanceAs (Decidable (IsSeg next p 0 l))

/-- The chunks met from `p` along `next`, at most `fuel` of them. -/
def walk (next : Nat → Nat) : Nat → Nat → List Nat
  | 0, _ => []
  | fuel + 1, p => if p = 0 then [] else p :: walk next fuel (next p)

/-- Every value stored in the heap is a machine word. -/
def WordHeap (h : Heap) : Prop :=
  (∀ a, h.size a < WORD) ∧ (∀ a, h.next a < WORD) ∧ h.freep < WORD ∧ h.usedp < WORD

/-- The payload of the chunk at `c` lies inside the address space. -/
def InSpace (h : Heap) (c : Nat) : Prop := c + header_size + h.size c < WORD

instance InSpace.instDecidable (h : Heap) (c : Nat) : Decidable (InSpace h c) :=
  inferInstanceAs (Decidable (c + header_size + h.size c < WORD))

/-- The two lists are finite, share no chunk, and their chunks lie in the
address space. -/
def WellFormed (h : Heap) (used free : List Nat) : Prop :=
  IsList h.next h.usedp used ∧ IsList h.next h.freep free ∧
    (∀ a ∈ free, a ∉ used) ∧ (∀ f ∈ used, InSpace h f) ∧ (∀ f ∈ free, InSpace h f)

/-- The payloads `[p, p + s)` of the list are pairwise disjoint. -/
def PairwiseDisjoint (ranges : List (Nat × Nat)) : Prop :=
  ranges.Pairwise (fun x y => x.1 + x.2 ≤ y.1 ∨ y.1 + y.2 ≤ x.1)

/-! ## What `add_to_free_chunks`, `memfree` and `split_chunk` do, on lists and sizes -/

/-- The place the first loop of `add_to_free_chunks` finds: right after the
first chunk `x` with `chunk > x` whose successor is null or not below `chunk`;
`none` when there is no such chunk (`new_chunk_added` stays `0`). -/
def insert_after (chunk : Nat) : List Nat → Option (List Nat)
  | [] => none
  | [x] => if chunk > x then some [x, chunk] else none
  | x :: n :: rest =>
    if chunk > x ∧ ¬ chunk > n then some (x :: chunk :: n :: rest)
    else (insert_after chunk (n :: rest)).map (fun l => x :: l)

/-- The free list once the chunk is linked in: after the place found, or at
the head. -/
def insert_chunk (chunk : Nat) (free : List Nat) : List Nat :=
  match insert_after chunk free with
  | some l => l
  | none => chunk :: free

/-- The second loop of `add_to_free_chunks` on the successors of the chunk
`c`, whose size is `csize` so far: the final size and the successors left. -/
def absorb (size : Nat → Nat) (c : Nat) : Nat → List Nat → Nat × List Nat
  | csize, [] => (csize, [])
  | csize, n :: rest =>
    if (c + header_size + csize) % WORD = n then
      absorb size c ((csize + (size n + header_size) % WORD) % WORD) rest
    else (csize, n :: rest)

/-- The list after the chunk `c` of it has absorbed its adjacent successors. -/
def coalesce_at (size : Nat → Nat) (c : Nat) : List Nat → List Nat
  | [] => []
  | x :: rest =>
    if x = c then x :: (absorb size c (size c) rest).2
    else x :: coalesce_at size c rest

/-- The size of the chunk `c` of the list after it has absorbed its adjacent
successors. -/
def size_at (size : Nat → Nat) (c : Nat) : List Nat → Nat
  | [] => size c
  | x :: rest =>
    if x = c then (absorb size c (size c) rest).1
    else size_at size c rest

/-- The value of `prev_used` once the loop of `memfree` has walked the chunks
`l`, starting with `prev_used = prev`. -/
def last_or (prev : Nat) : List Nat → Nat
  | [] => prev
  | x :: rest => last_or x rest

/-- The heap after `split_chunk(chunk, size)` succeeded, when nothing wraps. -/
def split_heap (h : Heap) (chunk size : Nat) : Heap :=
  setSize (setSize h (chunk + h.size chunk - size) size) chunk
    (h.size chunk - (size + header_size))

/-! ## Two concrete states -/

/-- The heap and the pointer after `memalloc(64)` in the initial state, the
region being mapped at `65536`. -/
def one_alloc : Heap × Nat := (memalloc 2 init 65536 0 64).getD (init, 0)

/-- The heap and the pointer after a second `memalloc(64)`. -/
def two_allocs : Heap × Nat := (memalloc 2 one_alloc.1 0 0 64).getD (init, 0)

/-! ## Runs of `memalloc` without `memfree` -/

/-- The chunks at `a` and `b`, header and payload, do not overlap. -/
def Apart (h : Heap) (a b : Nat) : Prop :=
  a + header_size + h.size a ≤ b ∨ b + header_size + h.size b ≤ a

instance Apart.instDecidable (h : Heap) (a b : Nat) : Decidable (Apart h a b) :=
  inferInstanceAs (Decidable (_ ∨ _))

/-- The invariant of a run of allocations: the free list is a finite list, and
the chunks handed out (`live`) and the free chunks are distinct non-null
chunks inside the address space, no two of which overlap. -/
def Tiled (h : Heap) (live free : List Nat) : Prop :=
  IsList h.next h.freep free ∧ live.Nodup ∧ (∀ a ∈ live, a ∉ free) ∧
    (∀ c ∈ live ++ free, c ≠ 0 ∧ InSpace h c) ∧
    (∀ a ∈ live ++ free, ∀ b ∈ live ++ free, a ≠ b → Apart h a b)

/-- The size of the region `create_chunk(size)` asks for. -/
def region_size (size : Nat) : Nat :=
  if size > CHUNK_DEFAULT_SIZE then size else CHUNK_DEFAULT_SIZE

/-- A region of `size` payload bytes at `mm` is a fresh mapping: non-null,
inside the address space and disjoint from the chunks listed. -/
def Fresh (h : Heap) (chunks : List Nat) (mm size : Nat) : Prop :=
  mm ≠ 0 ∧ mm + header_size + size < WORD ∧
    ∀ c ∈ chunks, c + header_size + h.size c ≤ mm ∨ mm + header_size + size ≤ c

instance Fresh.instDecidable (h : Heap) (chunks : List Nat) (mm size : Nat) :
    Decidable (Fresh h chunks mm size) :=
  inferInstanceAs (Decidable (_ ∧ _ ∧ _))

/-- The chunk the scan loop of `memalloc` stops at, for the normalized size
`s` (with `s + header_size` not wrapping): the first chunk that is large enough
to split (`false`) or has exactly the size `s` (`true`). -/
def first_fit (size : Nat → Nat) (s : Nat) : List Nat → Option (Nat × Bool)
  | [] => none
  | c :: rest =>
    if size c > s + header_size then some (c, false)
    else if size c = s then some (c, true)
    else first_fit size s rest

/-- The scan does not stop at an exact-size chunk behind the head of the
free list. -/
def ExactFitAtHead (h : Heap) (s : Nat) (free : List Nat) : Prop :=
  match first_fit h.size s free with
  | some (c, true) => h.freep = c
  | _ => True

instance ExactFitAtHead.instDecidable (h : Heap) (s : Nat) (free : List Nat) :
    Decidable (ExactFitAtHead h s free) := by
  unfold ExactFitAtHead
  split <;> infer_instance

/-- What a call `memalloc(n)` of a run is assumed to meet, `ps` being the
pointers returned so far: the request is far from `2^64`, the fuel exceeds the
length of the free list, the two regions `mmap` would answer are fresh and
apart from each other, and the scan does not stop at an exact-size chunk
behind the head of the free list. -/
def StepOk (fuel : Nat) (h : Heap) (ps : List Nat) (mm1 mm2 n : Nat) : Prop :=
  n + 20 < WORD ∧ (walk h.next fuel h.freep).length + 1 < fuel ∧
    Fresh h (ps.map header_of ++ walk h.next fuel h.freep) mm1 (region_size n) ∧
    Fresh h (ps.map header_of ++ walk h.next fuel h.freep) mm2
      (region_size (normalized_size n)) ∧
    (mm1 + header_size + region_size n ≤ mm2 ∨
      mm2 + header_size + region_size (normalized_size n) ≤ mm1) ∧
    ExactFitAtHead h (normalized_size n) (walk h.next fuel h.freep)

instance StepOk.instDecidable (fuel : Nat) (h : Heap) (ps : List Nat) (mm1 mm2 n : Nat) :
    Decidable (StepOk fuel h ps mm1 mm2 n) :=
  inferInstanceAs (Decidable (_ ∧ _ ∧ _ ∧ _ ∧ _ ∧ _))

/-- A run of `memalloc` calls, each with the addresses `mmap` would answer:
the final heap and the pointers returned, the last one first. -/
def alloc_seq (fuel : Nat) : Heap → List Nat → List (Nat × Nat × Nat) → Option (Heap × List Nat)
  | h, ps, [] => some (h, ps)
  | h, ps, (mm1, mm2, n) :: rest =>
    match memalloc fuel h mm1 mm2 n with
    | some (h1, p) => alloc_seq fuel h1 (p :: ps) rest
    | none => none

/-- Every call of the run meets `StepOk` and returns a non-null pointer. -/
def RunOk (fuel : Nat) : Heap → List Nat → List (Nat × Nat × Nat) → Prop
  | _, _, [] => True
  | h, ps, (mm1, mm2, n) :: rest =>
    StepOk fuel h ps mm1 mm2 n ∧
      match memalloc fuel h mm1 mm2 n with
      | some (h1, p) => p ≠ 0 ∧ RunOk fuel h1 (p :: ps) rest
      | none => False

instance RunOk.instDecidable (fuel : Nat) :
    ∀ (h : Heap) (ps : List Nat) (reqs : List (Nat × Nat × Nat)),
      Decidable (RunOk fuel h ps reqs)
  | _, _, [] => isTrue trivial
  | h, ps, (mm1, mm2, n) :: rest =>
    match hm : memalloc fuel h mm1 mm2 n with
    | none => isFalse (fun hr => by simp [RunOk, hm] at hr)
    | some (h1, p) =>
      have := RunOk.instDecidable fuel h1 (p :: ps) rest
      decidable_of_iff (StepOk fuel h ps mm1 mm2 n ∧ p ≠ 0 ∧ RunOk fuel h1 (p :: ps) rest)
        (by simp [RunOk, hm])

/-! ## Address order and adjacency in the free list -/

/-- The addresses of the list strictly increase. -/
def Ascending (l : List Nat) : Prop := l.Pairwise (fun a b => a < b)

instance Ascending.instDecidable (l : List Nat) : Decidable (Ascending l) :=
  inferInstanceAs (Decidable (l.Pairwise (fun a b => a < b)))

/-- No chunk of the list ends where another chunk of the list begins. -/
def NoAdjacent (h : Heap) (l : List Nat) : Prop :=
  ∀ x ∈ l, ∀ y ∈ l, x + header_size + h.size x ≠ y

instance NoAdjacent.instDecidable (h : Heap) (l : List Nat) : Decidable (NoAdjacent h l) :=
  inferInstanceAs (Decidable (∀ x ∈ l, ∀ y ∈ l, x + header_size + h.size x ≠ y))

/-- A call of the allocator: `memalloc(n)`, with the addresses `mmap` would
answer to its two possible calls of `create_chunk`, or `memfree(p)`. -/
inductive Op where
  | alloc (mm1 mm2 n : Nat)
  | free (p : Nat)

/-- A run of calls from the heap `h`, `ps` being the live pointers (returned
by `memalloc`, not yet released): the final heap and the live pointers, the
most recent first. A null answer of `memalloc` is not a pointer. -/
def exec (fuel : Nat) : Heap → List Nat → List Op → Option (Heap × List Nat)
  | h, ps, [] => some (h, ps)
  | h, ps, Op.alloc mm1 mm2 n :: rest =>
    match memalloc fuel h mm1 mm2 n with
    | some (h1, p) => exec fuel h1 (if p = 0 then ps else p :: ps) rest
    | none => none
  | h, ps, Op.free p :: rest =>
    match memfree fuel h p with
    | some h1 => exec fuel h1 (ps.erase p) rest
    | none => none

/-- The heap the scan loop of `memalloc` starts in: the heap of the call, or,
when the free list is empty, that heap with a first region created at `mm1` as
the free list (lines 153-155). -/
def first_region (h : Heap) (mm1 size : Nat) : Heap :=
  if h.freep = 0 then setFreep (create_chunk h mm1 size).1 (create_chunk h mm1 size).2
  else h

/-- The scan loop of the call `memalloc(n)` leaves at the end of the free
list, so that the call reserves a region at `mm2`. -/
def ScanMisses (fuel : Nat) (h : Heap) (mm1 n : Nat) : Prop :=
  match memalloc_scan fuel (first_region h mm1 n) (normalized_size n) 0
      (first_region h mm1 n).freep with
  | some none => True
  | _ => False

instance ScanMisses.instDecidable (fuel : Nat) (h : Heap) (mm1 n : Nat) :
    Decidable (ScanMisses fuel h mm1 n) := by
  unfold ScanMisses
  split <;> infer_instance

/-- What a call `memalloc(n)` of a run is assumed to meet, `ps` being the
live pointers: the request is far from `2^64`, each region the call reserves
(at `mm1` when the free list is empty, at `mm2` when the scan misses) is fresh,
and the scan does not stop at an exact-size chunk behind the head of the free
list. -/
def AllocOk (fuel : Nat) (h : Heap) (ps : List Nat) (mm1 mm2 n : Nat) : Prop :=
  n + 20 < WORD ∧
    (h.freep = 0 → Fresh h (ps.map header_of) mm1 (region_size n)) ∧
    (ScanMisses fuel h mm1 n →
      Fresh (first_region h mm1 n)
        (ps.map header_of ++
          walk (first_region h mm1 n).next fuel (first_region h mm1 n).freep)
        mm2 (region_size (normalized_size n))) ∧
    ExactFitAtHead (first_region h mm1 n) (normalized_size n)
      (walk (first_region h mm1 n).next fuel (first_region h mm1 n).freep)

instance AllocOk.instDecidable (fuel : Nat) (h : Heap) (ps : List Nat) (mm1 mm2 n : Nat) :
    Decidable (AllocOk fuel h ps mm1 mm2 n) :=
  inferInstanceAs (Decidable (_ ∧ _ ∧ _ ∧ _))

/-- The region the call `memalloc(n)` reserves when its scan misses lies below
every free chunk. -/
def RegionsBelow (fuel : Nat) (h : Heap) (mm1 mm2 n : Nat) : Prop :=
  ScanMisses fuel h mm1 n →
    ∀ c ∈ walk (first_region h mm1 n).next fuel (first_region h mm1 n).freep, mm2 < c

instance RegionsBelow.instDecidable (fuel : Nat) (h : Heap) (mm1 mm2 n : Nat) :
    Decidable (RegionsBelow fuel h mm1 mm2 n) :=
  inferInstanceAs (Decidable (_ → _))

/-- The calls of the run are as assumed: every `memalloc` meets `AllocOk`
(and, when `ordered` is set, `RegionsBelow`), the chunk it hands out while
the used list is empty has a null link, and every `memfree` is called on a
live pointer. -/
def OpsOk (ordered : Bool) (fuel : Nat) : Heap → List Nat → List Op → Prop
  | _, _, [] => True
  | h, ps, Op.alloc mm1 mm2 n :: rest =>
    AllocOk fuel h ps mm1 mm2 n ∧ (ordered = true → RegionsBelow fuel h mm1 mm2 n) ∧
      match memalloc fuel h mm1 mm2 n with
      | some (h1, p) =>
        (h.usedp = 0 → p ≠ 0 → h1.next (header_of p) = 0) ∧
          OpsOk ordered fuel h1 (if p = 0 then ps else p :: ps) rest
      | none => True
  | h, ps, Op.free p :: rest =>
    p ∈ ps ∧
      match memfree fuel h p with
      | some h1 => OpsOk ordered fuel h1 (ps.erase p) rest
      | none => True

instance OpsOk.instDecidable (ordered : Bool) (fuel : Nat) :
    ∀ (h : Heap) (ps : List Nat) (ops : List Op), Decidable (OpsOk ordered fuel h ps ops)
  | _, _, [] => isTrue trivial
  | h, ps, Op.alloc mm1 mm2 n :: rest =>
    match hm : memalloc fuel h mm1 mm2 n with
    | none =>
      decidable_of_iff (AllocOk fuel h ps mm1 mm2 n ∧
        (ordered = true → RegionsBelow fuel h mm1 mm2 n)) (by simp [OpsOk, hm])
    | some (h1, p) =>
      have := OpsOk.instDecidable ordered fuel h1 (if p = 0 then ps else p :: ps) rest
      decidable_of_iff (AllocOk fuel h ps mm1 mm2 n ∧
        (ordered = true → RegionsBelow fuel h mm1 mm2 n) ∧
        (h.usedp = 0 → p ≠ 0 → h1.next (header_of p) = 0) ∧
        OpsOk ordered fuel h1 (if p = 0 then ps else p :: ps) rest) (by simp [OpsOk, hm])
  | h, ps, Op.free p :: rest =>
    match hm : memfree fuel h p with
    | none => decidable_of_iff (p ∈ ps) (by simp [OpsOk, hm])
    | some h1 =>
      have := OpsOk.instDecidable ordered fuel h1 (ps.erase p) rest
      decidable_of_iff (p ∈ ps ∧ OpsOk ordered fuel h1 (ps.erase p) rest)
        (by simp [OpsOk, hm])

/-- A run that ends with an empty used list and a stale header inside a free
chunk: five allocations from one region mapped at `65536` (the chunks `65968`,
`65884`, `65800`, `65716`, `65632`, from the top down), released in the order
second, fourth, fifth, third, first. The chunk `65716` is absorbed by `65632`
while its link still points to `65884`. -/
def stale_link_run : List Op :=
  [Op.alloc 65536 4096 32332, Op.alloc 200000 4096 64, Op.alloc 200000 4096 64,
    Op.alloc 200000 4096 64, Op.alloc 200000 4096 64,
    Op.free 65900, Op.free 65732, Op.free 65648, Op.free 65816, Op.free 65984]

/-! ## Runs with the content of recycled memory made explicit -/

/-! The heap model keeps one `size` and one `next` per header address, and no
bytes: what is written through one header address is not seen through another
address that overlaps it. Along a run this matters at one place. The chunks of
the two lists never overlap (`Tiled`), the code reads fields of chunks of the
two lists only, and each of these fields was written after the chunk was
created (by `create_chunk`, `split_chunk`, `add_to_free_chunks` or `memfree`),
with one exception: `add_to_used_chunks` writes no link when `usedp` is null
(lines 101-103), and `memfree` later reads that link. What it reads is what
the memory holds there: null in a region the call reserved (`mmap` zero-fills
it), the free-list link when a chunk of the free list is handed out whole, and,
when the chunk was split from a chunk of the free list as it stood, whatever
the place of the new header held before: part of a stale header, or bytes the
caller stored in a payload. The first two are in the model; the third is not,
so a run takes it as an input of the call (`junk`). The theorem
`unwritten_link` shows that these are the three cases. -/

/-- A call of the allocator, as `Op`, where `memalloc(n)` also carries the
value `junk` that the memory of the program holds in the link field of the
chunk handed out, for the calls that leave that field as they find it in
recycled memory (see `ReadsRecycledLink`). The heap model keeps two fields per
header address and no bytes: what such a field holds (part of an older header
at another address, or what the caller stored in a payload) is not in the
model, so it comes with the call. -/
inductive Call where
  | alloc (mm1 mm2 n junk : Nat)
  | free (p : Nat)

/-- The call `memalloc(n)` that returned `p` left the link field of the chunk
it handed out as the memory holds it, in recycled memory: `usedp` was null, so
`add_to_used_chunks` wrote no link (lines 101-103), and the chunk was split
from a chunk of the free list as it stood (it is no chunk of that list, and no
region was reserved by the call, whose memory would be zero-filled). -/
def ReadsRecycledLink (fuel : Nat) (h : Heap) (mm1 n p : Nat) : Prop :=
  h.usedp = 0 ∧ h.freep ≠ 0 ∧ p ≠ 0 ∧ ¬ ScanMisses fuel h mm1 n ∧
    header_of p ∉ walk h.next fuel h.freep

instance ReadsRecycledLink.instDecidable (fuel : Nat) (h : Heap) (mm1 n p : Nat) :
    Decidable (ReadsRecycledLink fuel h mm1 n p) :=
  inferInstanceAs (Decidable (_ ∧ _ ∧ _ ∧ _ ∧ _))

/-- The heap after the call `memalloc(n)` returned `(h1, p)`: the link field
the call left as found in recycled memory holds `junk`. -/
def with_recycled_link (fuel : Nat) (h : Heap) (mm1 n junk : Nat) (h1 : Heap) (p : Nat) :
    Heap :=
  if ReadsRecycledLink fuel h mm1 n p then setNext h1 (header_of p) junk else h1

/-- A run of calls from the heap `h`, `ps` being the live pointers: the final
heap and the live pointers, the most recent first. -/
def run (fuel : Nat) : Heap → List Nat → List Call → Option (Heap × List Nat)
  | h, ps, [] => some (h, ps)
  | h, ps, Call.alloc mm1 mm2 n junk :: rest =>
    match memalloc fuel h mm1 mm2 n with
    | some (h1, p) =>
      run fuel (with_recycled_link fuel h mm1 n junk h1 p) (if p = 0 then ps else p :: ps) rest
    | none => none
  | h, ps, Call.free p :: rest =>
    match memfree fuel h p with
    | some h1 => run fuel h1 (ps.erase p) rest
    | none => none

/-- The region the call `memalloc(n)` reserves when its scan misses and links
at the head of the free list (lines 185-187: the region is larger than the
normalized size, so it is not handed out whole) lies below every free
chunk. -/
def LinkedBelow (fuel : Nat) (h : Heap) (mm1 mm2 n : Nat) : Prop :=
  ScanMisses fuel h mm1 n → region_size (normalized_size n) ≠ normalized_size n →
    ∀ c ∈ walk (first_region h mm1 n).next fuel (first_region h mm1 n).freep, mm2 < c

instance LinkedBelow.instDecidable (fuel : Nat) (h : Heap) (mm1 mm2 n : Nat) :
    Decidable (LinkedBelow fuel h mm1 mm2 n) :=
  inferInstanceAs (Decidable (_ → _ → _))

/-- The calls of the run are as assumed: every `memalloc` meets `AllocOk`,
and `LinkedBelow` when `ordered` is set; every `memfree` is called on a live
pointer. When `linked` is set, moreover, the chunk a `memalloc` hands out
while `usedp` is null has a null link in memory: `add_to_used_chunks` does not
write that link (lines 101-103), so it holds what the memory held, which is
null in a freshly mapped region, the free-list link of the chunk when a chunk
of the free list is handed out whole, and `junk` in recycled memory. -/
def CallsOk (ordered linked : Bool) (fuel : Nat) : Heap → List Nat → List Call → Prop
  | _, _, [] => True
  | h, ps, Call.alloc mm1 mm2 n junk :: rest =>
    AllocOk fuel h ps mm1 mm2 n ∧ (ordered = true → LinkedBelow fuel h mm1 mm2 n) ∧
      match memalloc fuel h mm1 mm2 n with
      | some (h1, p) =>
        (linked = true → h.usedp = 0 → p ≠ 0 →
          (with_recycled_link fuel h mm1 n junk h1 p).next (header_of p) = 0) ∧
        CallsOk ordered linked fuel (with_recycled_link fuel h mm1 n junk h1 p)
          (if p = 0 then ps else p :: ps) rest
      | none => True
  | h, ps, Call.free p :: rest =>
    p ∈ ps ∧
      match memfree fuel h p with
      | some h1 => CallsOk ordered linked fuel h1 (ps.erase p) rest
      | none => True

instance CallsOk.instDecidable (ordered linked : Bool) (fuel : Nat) :
    ∀ (h : Heap) (ps : List Nat) (calls : List Call),
      Decidable (CallsOk ordered linked fuel h ps calls)
  | _, _, [] => isTrue trivial
  | h, ps, Call.alloc mm1 mm2 n junk :: rest =>
    match hm : memalloc fuel h mm1 mm2 n with
    | none =>
      decidable_of_iff (AllocOk fuel h ps mm1 mm2 n ∧
        (ordered = true → LinkedBelow fuel h mm1 mm2 n)) (by simp [CallsOk, hm])
    | some (h1, p) =>
      have := CallsOk.instDecidable ordered linked fuel
        (with_recycled_link fuel h mm1 n junk h1 p) (if p = 0 then ps else p :: ps) rest
      decidable_of_iff (AllocOk fuel h ps mm1 mm2 n ∧
        (ordered = true → LinkedBelow fuel h mm1 mm2 n) ∧
        (linked = true → h.usedp = 0 → p ≠ 0 →
          (with_recycled_link fuel h mm1 n junk h1 p).next (header_of p) = 0) ∧
        CallsOk ordered linked fuel (with_recycled_link fuel h mm1 n junk h1 p)
          (if p = 0 then ps else p :: ps) rest) (by simp [CallsOk, hm])
  | h, ps, Call.free p :: rest =>
    match hm : memfree fuel h p with
    | none => decidable_of_iff (p ∈ ps) (by simp [CallsOk, hm])
    | some h1 =>
      have := CallsOk.instDecidable ordered linked fuel h1 (ps.erase p) rest
      decidable_of_iff (p ∈ ps ∧ CallsOk ordered linked fuel h1 (ps.erase p) rest)
        (by simp [CallsOk, hm])

/-- The invariant of a run with explicit recycled links: the heap is tiled by
the live chunks `used` and the free list, the chain of links from `usedp`
visits the live chunks, in order, and then reaches `g` (null, or what a link
left as found holds), and the live chunks are the headers of the live
pointers. -/
def Tracked (h : Heap) (ps used free : List Nat) (g : Nat) : Prop :=
  Tiled h used free ∧ IsSeg h.next h.usedp g used ∧ used = ps.map header_of ∧
    ∀ p ∈ ps, p = header_of p + header_size

/-- A run that hands out a chunk whose link is left as found in recycled
memory. Three allocations from one region mapped at `65536` give the chunks
`65704`, `65620` and `65592`; they are released in the order second, third,
first, so that `65592` absorbs `65620`, whose header stays in its payload with
the size `68`. Then `memalloc(72)`, called with a null `usedp`, splits `65592`
and puts the new header at `65612`: its link field is the eight bytes at
`65620`, which hold `68`. -/
def recycled_link_run : List Call :=
  [Call.alloc 65536 4096 32596 0, Call.alloc 0 4096 64 0, Call.alloc 0 4096 8 0,
    Call.free 65636, Call.free 65608, Call.free 65720, Call.alloc 0 4096 72 68]

/-- A run whose last call takes the head of the free list whole while `usedp`
is null and the free list goes on: `memalloc(64)` from a region mapped at
`65536`, its release, which leaves the free list `65536`, `98236`, and
`memalloc(32680)`, whose normalized size is the size of `65536`. -/
def head_taken_run : List Call :=
  [Call.alloc 65536 4096 64 0, Call.free 98252, Call.alloc 0 4096 32680 0]

/-- A run whose last call is a request that wraps: `memalloc(32000)`,
`memalloc(300)` and `memalloc(100)` from one region mapped at `65536` give the
chunks `66300`, `65980` and `65860`; the first is released and `memalloc(1000)`
splits the chunk `97300` from it; the third is released; then
`memalloc(2^64 - 20)` is called, with the used list `97300`, `65980`. -/
def wrapped_order_run : List Call :=
  [Call.alloc 65536 4096 32000 0, Call.alloc 0 4096 300 0, Call.alloc 0 4096 100 0,
    Call.free 66316, Call.alloc 0 4096 1000 0, Call.free 65876,
    Call.alloc 0 4096 18446744073709551596 0]

/-- A run whose last call stops at an exact-size chunk behind the head of the
free list: three allocations from one region mapped at `65536` give the chunks
`65696`, `65616` and `65592` and leave `40` bytes in `65536`; the second is
released, and `memalloc(60)` finds it behind `65536`. -/
def behind_head_run : List Call :=
  [Call.alloc 65536 4096 32604 0, Call.alloc 0 4096 60 0, Call.alloc 0 4096 4 0,
    Call.free 65632, Call.alloc 0 4096 60 0]

/-! # Properties of the embedding -/

/-! ## Reading a heap after a write -/

@[simp] theorem size_setSize (h : Heap) (a v x : Nat) :
    (setSize h a v).size x = if x = a then v else h.size x := rfl
@[simp] theorem next_setSize (h : Heap) (a v : Nat) : (setSize h a v).next = h.next := rfl
@[simp] theorem freep_setSize (h : Heap) (a v : Nat) : (setSize h a v).freep = h.freep := rfl
@[simp] theorem usedp_setSize (h : Heap) (a v : Nat) : (setSize h a v).usedp = h.usedp := rfl
@[simp] theorem next_setNext (h : Heap) (a v x : Nat) :
    (setNext h a v).next x = if x = a then v else h.next x := rfl
@[simp] theorem size_setNext (h : Heap) (a v : Nat) : (setNext h a v).size = h.size := rfl
@[simp] theorem freep_setNext (h : Heap) (a v : Nat) : (setNext h a v).freep = h.freep := rfl
@[simp] theorem usedp_setNext (h : Heap) (a v : Nat) : (setNext h a v).usedp = h.usedp := rfl
@[simp] theorem size_setFreep (h : Heap) (v : Nat) : (setFreep h v).size = h.size := rfl
@[simp] theorem next_setFreep (h : Heap) (v : Nat) : (setFreep h v).next = h.next := rfl
@[simp] theorem freep_setFreep (h : Heap) (v : Nat) : (setFreep h v).freep = v := rfl
@[simp] theorem usedp_setFreep (h : Heap) (v : Nat) : (setFreep h v).usedp = h.usedp := rfl
@[simp] theorem size_setUsedp (h : Heap) (v : Nat) : (setUsedp h v).size = h.size := rfl
@[simp] theorem next_setUsedp (h : Heap) (v : Nat) : (setUsedp h v).next = h.next := rfl
@[simp] theorem freep_setUsedp (h : Heap) (v : Nat) : (setUsedp h v).freep = h.freep := rfl
@[simp] theorem usedp_setUsedp (h : Heap) (v : Nat) : (setUsedp h v).usedp = v := rfl

/-! ## List segments -/

theorem IsSeg_nil (next : Nat → Nat) (p q : Nat) : IsSeg next p q [] ↔ p = q := Iff.rfl

theorem IsSeg_cons (next : Nat → Nat) (p q c : Nat) (cs : List Nat) :
    IsSeg next p q (c :: cs) ↔ p = c ∧ c ≠ 0 ∧ IsSeg next (next c) q cs := Iff.rfl

theorem IsSeg_ne_zero {next : Nat → Nat} {l : List Nat} {p q : Nat}
    (hl : IsSeg next p q l) : ∀ a ∈ l, a ≠ 0 := by
  induction l generalizing p with
  | nil => simp
  | cons c cs ih =>
    obtain ⟨-, hc, hcs⟩ := hl
    intro a ha
    rcases List.mem_cons.mp ha with rfl | ha
    · exact hc
    · exact ih hcs a ha

/-- A segment only depends on the links of its own chunks. -/
theorem IsSeg_congr {next next' : Nat → Nat} {l : List Nat} {p q : Nat}
    (hn : ∀ a ∈ l, next' a = next a) (hl : IsSeg next p q l) : IsSeg next' p q l := by
  induction l generalizing p with
  | nil => exact hl
  | cons c cs ih =>
    obtain ⟨hp, hc, hcs⟩ := hl
    refine ⟨hp, hc, ?_⟩
    rw [hn c (List.mem_cons_self _ _)]
    exact ih (fun a ha => hn a (List.mem_cons_of_mem _ ha)) hcs

theorem IsSeg_append {next : Nat → Nat} {l1 l2 : List Nat} {p q : Nat} :
    IsSeg next p q (l1 ++ l2) ↔ ∃ m, IsSeg next p m l1 ∧ IsSeg next m q l2 := by
  induction l1 generalizing p with
  | nil =>
    constructor
    · intro hl
      exact ⟨p, rfl, hl⟩
    · rintro ⟨m, hm, hl⟩
      have : p = m := hm
      subst this
      exact hl
  | cons c cs ih =>
    constructor
    · rintro ⟨hp, hc, hcs⟩
      obtain ⟨m, h1, h2⟩ := ih.mp hcs
      exact ⟨m, ⟨hp, hc, h1⟩, h2⟩
    · rintro ⟨m, ⟨hp, hc, h1⟩, h2⟩
      exact ⟨hp, hc, ih.mpr ⟨m, h1, h2⟩⟩

/-- A null-terminated list is determined by its head. -/
theorem IsList_unique {next : Nat → Nat} {l l' : List Nat} {p : Nat}
    (hl : IsList next p l) (hl' : IsList next p l') : l = l' := by
  induction l generalizing p l' with
  | nil =>
    cases l' with
    | nil => rfl
    | cons c cs =>
      have h0 : p = 0 := hl
      obtain ⟨hp, hc, -⟩ := hl'
      exact absurd (hp ▸ h0) hc
  | cons c cs ih =>
    obtain ⟨hp, hc, hcs⟩ := hl
    cases l' with
    | nil =>
      have h0 : p = 0 := hl'
      exact absurd (hp ▸ h0) hc
    | cons c' cs' =>
      obtain ⟨hp', -, hcs'⟩ := hl'
      have hcc : c = c' := hp.symm.trans hp'
      subst hcc
      rw [ih hcs hcs']

/-- A null-terminated list visits no chunk twice. -/
theorem IsList_nodup {next : Nat → Nat} {l : List Nat} {p : Nat}
    (hl : IsList next p l) : l.Nodup := by
  induction l generalizing p with
  | nil => exact List.nodup_nil
  | cons c cs ih =>
    obtain ⟨hp, hc, hcs⟩ := hl
    refine List.nodup_cons.mpr ⟨?_, ih hcs⟩
    intro hmem
    obtain ⟨a, b, rfl⟩ := List.append_of_mem hmem
    obtain ⟨m, -, hm⟩ := IsSeg_append.mp hcs
    obtain ⟨hmc, -, hb⟩ := hm
    have := IsList_unique hb hcs
    have hlen := congrArg List.length this
    simp at hlen
    omega

/-! ## `memfree` of a pointer that is not in the used list -/

theorem memfree_loop_not_found (fuel0 : Nat) (h : Heap) (chunk : Nat) :
    ∀ (l : List Nat) (fuel prev curr : Nat), IsList h.next curr l → chunk ∉ l →
      l.length < fuel → memfree_loop fuel0 fuel h chunk prev curr = some h := by
  intro l
  induction l with
  | nil =>
    intro fuel prev curr hl _ hf
    have h0 : curr = 0 := hl
    obtain ⟨k, rfl⟩ : ∃ k, fuel = k + 1 := ⟨fuel - 1, by simp at hf; omega⟩
    simp [memfree_loop, h0]
  | cons c cs ih =>
    intro fuel prev curr hl hmem hf
    obtain ⟨hp, hc, hcs⟩ := hl
    obtain ⟨k, rfl⟩ : ∃ k, fuel = k + 1 := ⟨fuel - 1, by simp at hf; omega⟩
    subst hp
    have hne : curr ≠ chunk := fun e => hmem (e ▸ List.mem_cons_self _ _)
    simp only [memfree_loop, if_neg hc, if_neg hne]
    exact ih k curr (h.next curr) hcs (fun hm => hmem (List.mem_cons_of_mem _ hm))
      (by simp at hf; omega)

/-! ## The first loop of `add_to_free_chunks` -/

theorem IsList_zero {next : Nat → Nat} {l : List Nat} (hl : IsList next 0 l) : l = [] := by
  cases l with
  | nil => rfl
  | cons c cs =>
    obtain ⟨hp, hc, -⟩ := hl
    exact absurd hp.symm hc

theorem IsList_head {next : Nat → Nat} {l : List Nat} {p : Nat} (hl : IsList next p l)
    (hp : p ≠ 0) : ∃ cs, l = p :: cs ∧ IsList next (next p) cs := by
  cases l with
  | nil => exact absurd hl hp
  | cons c cs =>
    obtain ⟨hpc, -, hcs⟩ := hl
    subst hpc
    exact ⟨cs, rfl, hcs⟩

theorem free_insert_loop_spec (h : Heap) (chunk : Nat) :
    ∀ (l : List Nat) (fuel curr : Nat), IsList h.next curr l → chunk ∉ l →
      l.length < fuel →
      ∃ h', free_insert_loop fuel h chunk curr (if curr = 0 then 0 else h.next curr)
          = some (h', (insert_after chunk l).isSome) ∧
        h'.size = h.size ∧ h'.freep = h.freep ∧ h'.usedp = h.usedp ∧
        (∀ a, a ∉ l → a ≠ chunk → h'.next a = h.next a) ∧
        (insert_after chunk l = none → h' = h) ∧
        (∀ l', insert_after chunk l = some l' → IsList h'.next curr l') := by
  intro l
  induction l with
  | nil =>
    intro fuel curr hl _ hf
    have h0 : curr = 0 := hl
    obtain ⟨k, rfl⟩ : ∃ k, fuel = k + 1 := ⟨fuel - 1, by simp at hf; omega⟩
    refine ⟨h, by simp [free_insert_loop, h0, insert_after], rfl, rfl, rfl, fun _ _ _ => rfl,
      fun _ => rfl, ?_⟩
    intro l' hl'
    simp [insert_after] at hl'
  | cons x rest ih =>
    intro fuel curr hl hmem hf
    have hnd : (x :: rest).Nodup := IsList_nodup hl
    obtain ⟨hp, hx, hrest⟩ := hl
    subst hp
    obtain ⟨k, rfl⟩ : ∃ k, fuel = k + 1 := ⟨fuel - 1, by simp at hf; omega⟩
    have hk : rest.length < k := by simp at hf; omega
    have hcx : chunk ≠ curr := fun e => hmem (e ▸ List.mem_cons_self _ _)
    have hcr : chunk ∉ rest := fun hm => hmem (List.mem_cons_of_mem _ hm)
    have hxr : curr ∉ rest := (List.nodup_cons.mp hnd).1
    have hrec := ih k (h.next curr) hrest hcr hk
    -- the recursive call, in the two shapes the loop writes it
    have hshape : (if h.next curr ≠ 0 then h.next (h.next curr) else h.next curr)
        = (if h.next curr = 0 then 0 else h.next (h.next curr)) := by
      by_cases hz : h.next curr = 0 <;> simp [hz]
    -- what the recursion gives for the whole list
    have lift : insert_after chunk (curr :: rest)
          = (insert_after chunk rest).map (fun l => curr :: l) →
        ∀ h', free_insert_loop k h chunk (h.next curr)
            (if h.next curr = 0 then 0 else h.next (h.next curr))
            = some (h', (insert_after chunk rest).isSome) →
          h'.size = h.size → h'.freep = h.freep → h'.usedp = h.usedp →
          (∀ a, a ∉ rest → a ≠ chunk → h'.next a = h.next a) →
          (insert_after chunk rest = none → h' = h) →
          (∀ l', insert_after chunk rest = some l' → IsList h'.next (h.next curr) l') →
          (∃ h'', some (h', (insert_after chunk rest).isSome)
              = some (h'', (insert_after chunk (curr :: rest)).isSome) ∧
            h''.size = h.size ∧ h''.freep = h.freep ∧ h''.usedp = h.usedp ∧
            (∀ a, a ∉ curr :: rest → a ≠ chunk → h''.next a = h.next a) ∧
            (insert_after chunk (curr :: rest) = none → h'' = h) ∧
            (∀ l', insert_after chunk (curr :: rest) = some l' → IsList h''.next curr l')) := by
      intro hia h' _ e1 e2 e3 e4 e5 e6
      refine ⟨h', by rw [hia]; simp, e1, e2, e3, ?_, ?_, ?_⟩
      · intro a ha hac
        exact e4 a (fun hm => ha (List.mem_cons_of_mem _ hm)) hac
      · intro hn
        rw [hia] at hn
        exact e5 (by simpa using hn)
      · intro l' hl'
        rw [hia] at hl'
        obtain ⟨l'', hl'', rfl⟩ := Option.map_eq_some'.mp hl'
        refine ⟨rfl, hx, ?_⟩
        rw [e4 curr hxr hcx.symm]
        exact e6 l'' hl''
    by_cases hgt : chunk > curr
    · by_cases hnx : h.next curr ≠ 0 ∧ chunk > h.next curr
      · -- advance: the successor is also below the chunk
        obtain ⟨cs, rfl, -⟩ := IsList_head hrest hnx.1
        have hia : insert_after chunk (curr :: h.next curr :: cs)
            = (insert_after chunk (h.next curr :: cs)).map (fun l => curr :: l) := by
          simp [insert_after, hnx.2]
        obtain ⟨h', e0, e1, e2, e3, e4, e5, e6⟩ := hrec
        have := lift hia h' e0 e1 e2 e3 e4 e5 e6
        simp only [free_insert_loop, if_neg hx, if_pos hgt, if_pos hnx, if_neg hnx.1]
        rw [if_neg hnx.1] at e0
        rw [e0]
        exact this
      · -- splice the chunk in after `curr`
        have hia : insert_after chunk (curr :: rest) = some (curr :: chunk :: rest) := by
          cases rest with
          | nil => simp [insert_after, hgt]
          | cons n cs =>
            obtain ⟨hn, hn0, -⟩ := hrest
            have : ¬ chunk > n := by
              intro hgn
              exact hnx ⟨hn ▸ hn0, hn ▸ hgn⟩
            simp [insert_after, hgt, this]
        refine ⟨setNext (setNext h curr chunk) chunk (h.next curr), ?_, rfl, rfl, rfl, ?_, ?_, ?_⟩
        · simp only [free_insert_loop, if_neg hx, if_pos hgt, if_neg hnx, hia]
          rfl
        · intro a ha hac
          have hax : a ≠ curr := fun e => ha (e ▸ List.mem_cons_self _ _)
          simp [hac, hax]
        · intro hn
          rw [hia] at hn
          cases hn
        · intro l' hl'
          rw [hia] at hl'
          cases hl'
          refine ⟨rfl, hx, ?_⟩
          have hc0 : chunk ≠ 0 := by omega
          refine ⟨by simp [hcx.symm], hc0, ?_⟩
          simp only [next_setNext, if_pos rfl]
          refine IsSeg_congr ?_ hrest
          intro a ha
          have h1 : a ≠ chunk := fun e => hcr (e ▸ ha)
          have h2 : a ≠ curr := fun e => hxr (e ▸ ha)
          simp [h1, h2]
    · -- the chunk is not above `curr`: go on
      have hia : insert_after chunk (curr :: rest)
          = (insert_after chunk rest).map (fun l => curr :: l) := by
        cases rest with
        | nil => simp [insert_after, hgt]
        | cons n cs => simp [insert_after, hgt]
      obtain ⟨h', e0, e1, e2, e3, e4, e5, e6⟩ := hrec
      have := lift hia h' e0 e1 e2 e3 e4 e5 e6
      simp only [free_insert_loop, if_neg hx, if_neg hgt, hshape]
      rw [e0]
      exact this

/-! ## The second loop of `add_to_free_chunks` -/

theorem absorb_congr {size size' : Nat → Nat} (c : Nat) :
    ∀ (rest : List Nat) (csize : Nat), (∀ a ∈ rest, size' a = size a) →
      absorb size' c csize rest = absorb size c csize rest := by
  intro rest
  induction rest with
  | nil => intro csize _; rfl
  | cons n rest ih =>
    intro csize hs
    simp only [absorb]
    rw [hs n (List.mem_cons_self _ _),
      ih _ (fun a ha => hs a (List.mem_cons_of_mem _ ha))]

theorem coalesce_loop_spec (c : Nat) :
    ∀ (rest : List Nat) (fuel : Nat) (h : Heap), IsList h.next c (c :: rest) →
      (∀ f ∈ c :: rest, InSpace h f) → rest.length < fuel →
      ∃ h', coalesce_loop fuel h c = some h' ∧
        IsList h'.next c (c :: (absorb h.size c (h.size c) rest).2) ∧
        h'.size c = (absorb h.size c (h.size c) rest).1 ∧
        (∀ a, a ≠ c → h'.size a = h.size a) ∧
        (∀ a, a ≠ c → h'.next a = h.next a) ∧
        h'.freep = h.freep ∧ h'.usedp = h.usedp ∧ InSpace h' c := by
  intro rest
  induction rest with
  | nil =>
    intro fuel h hl hsp hf
    obtain ⟨k, rfl⟩ : ∃ k, fuel = k + 1 := ⟨fuel - 1, by simp at hf; omega⟩
    obtain ⟨-, hc, hn⟩ := hl
    have hn0 : h.next c = 0 := hn
    have hspc : InSpace h c := hsp c (List.mem_cons_self _ _)
    have hne : ¬ (c + header_size + h.size c) % WORD = h.next c := by
      unfold InSpace at hspc
      rw [hn0, Nat.mod_eq_of_lt hspc]
      omega
    refine ⟨h, by simp only [coalesce_loop, if_neg hne], ⟨rfl, hc, hn⟩, rfl,
      fun _ _ => rfl, fun _ _ => rfl, rfl, rfl, hspc⟩
  | cons n rest ih =>
    intro fuel h hl hsp hf
    obtain ⟨k, rfl⟩ : ∃ k, fuel = k + 1 := ⟨fuel - 1, by simp at hf; omega⟩
    have hk : rest.length < k := by simp at hf; omega
    have hnd : (c :: n :: rest).Nodup := IsList_nodup hl
    have hspc : InSpace h c := hsp c (List.mem_cons_self _ _)
    have hspn : InSpace h n := hsp n (by simp)
    obtain ⟨-, hc, hn, hn0, hrest⟩ := hl
    subst hn
    have hcr : c ∉ rest := fun hm => (List.nodup_cons.mp hnd).1 (List.mem_cons_of_mem _ hm)
    by_cases hadj : (c + header_size + h.size c) % WORD = h.next c
    · -- absorb the successor
      have hadj' : c + header_size + h.size c = h.next c := by
        unfold InSpace at hspc
        rw [Nat.mod_eq_of_lt hspc] at hadj
        exact hadj
      have hsz : (h.size c + (h.size (h.next c) + header_size) % WORD) % WORD
          = h.size c + h.size (h.next c) + header_size := by
        unfold InSpace at hspn hspc
        simp only [header_size, WORD] at *
        omega
      have hl2 : IsList (setNext (setSize h c (h.size c + h.size (h.next c) + header_size)) c
          (h.next (h.next c))).next c (c :: rest) := by
        refine ⟨rfl, hc, ?_⟩
        simp only [next_setNext, next_setSize, if_pos rfl]
        refine IsSeg_congr ?_ hrest
        intro a ha
        have : a ≠ c := fun e => hcr (e ▸ ha)
        simp [this]
      have hsp2 : ∀ f ∈ c :: rest, InSpace
          (setNext (setSize h c (h.size c + h.size (h.next c) + header_size)) c
            (h.next (h.next c))) f := by
        intro f hf
        rcases List.mem_cons.mp hf with e | hf
        · subst e
          unfold InSpace at hspn ⊢
          simp only [size_setNext, size_setSize, ↓reduceIte]
          omega
        · have hfc : f ≠ c := fun e => hcr (e ▸ hf)
          have := hsp f (by simp [hf])
          unfold InSpace at this ⊢
          simpa [hfc] using this
      obtain ⟨h', e0, e1, e2, e3, e4, e5, e6, e7⟩ := ih k _ hl2 hsp2 hk
      have hab : absorb h.size c (h.size c) (h.next c :: rest)
          = absorb h.size c (h.size c + h.size (h.next c) + header_size) rest := by
        simp only [absorb]
        rw [if_pos hadj, hsz]
      have hcong : ∀ s, absorb (setNext (setSize h c (h.size c + h.size (h.next c) + header_size))
          c (h.next (h.next c))).size c s rest = absorb h.size c s rest := fun s =>
        absorb_congr c rest s (by
          intro a ha
          have : a ≠ c := fun e => hcr (e ▸ ha)
          simp [this])
      rw [hcong] at e1 e2
      simp only [size_setNext, size_setSize, if_pos rfl] at e1 e2
      refine ⟨h', ?_, ?_, ?_, ?_, ?_, ?_, ?_, e7⟩
      · simp only [coalesce_loop, if_pos hadj, next_setSize, hsz]
        exact e0
      · rw [hab]; exact e1
      · rw [hab]; exact e2
      · intro a ha
        rw [e3 a ha]
        simp [ha]
      · intro a ha
        rw [e4 a ha]
        simp [ha]
      · rw [e5]; rfl
      · rw [e6]; rfl
    · -- the successor is not adjacent: stop
      have hab : absorb h.size c (h.size c) (h.next c :: rest) = (h.size c, h.next c :: rest) := by
        simp only [absorb]
        rw [if_neg hadj]
      refine ⟨h, by simp only [coalesce_loop, if_neg hadj], ?_, ?_,
        fun _ _ => rfl, fun _ _ => rfl, rfl, rfl, hspc⟩
      · rw [hab]
        exact ⟨rfl, hc, rfl, hn0, hrest⟩
      · rw [hab]

theorem coalesce_in_list (c : Nat) :
    ∀ (L : List Nat) (fuel p : Nat) (h : Heap), IsList h.next p L → c ∈ L →
      (∀ f ∈ L, InSpace h f) → L.length ≤ fuel →
      ∃ h', coalesce_loop fuel h c = some h' ∧
        IsList h'.next p (coalesce_at h.size c L) ∧
        h'.size c = size_at h.size c L ∧
        (∀ a, a ≠ c → h'.size a = h.size a) ∧
        (∀ a, a ≠ c → h'.next a = h.next a) ∧
        h'.freep = h.freep ∧ h'.usedp = h.usedp ∧ InSpace h' c := by
  intro L
  induction L with
  | nil => intro fuel p h _ hc; cases hc
  | cons x rest ih =>
    intro fuel p h hl hc hsp hf
    by_cases hxc : x = c
    · subst hxc
      have hp : p = x := hl.1
      subst hp
      obtain ⟨h', e0, e1, e2, e3, e4, e5, e6, e7⟩ :=
        coalesce_loop_spec p rest fuel h hl hsp (by simpa using hf)
      refine ⟨h', e0, ?_, ?_, e3, e4, e5, e6, e7⟩
      · simpa [coalesce_at] using e1
      · simpa [size_at] using e2
    · have hcr : c ∈ rest := by
        rcases List.mem_cons.mp hc with e | hm
        · exact absurd e.symm hxc
        · exact hm
      obtain ⟨hp, hx, hrest⟩ := hl
      obtain ⟨h', e0, e1, e2, e3, e4, e5, e6, e7⟩ :=
        ih fuel (h.next x) h hrest hcr (fun f hf => hsp f (List.mem_cons_of_mem _ hf))
          (by simp at hf; omega)
      refine ⟨h', e0, ?_, ?_, e3, e4, e5, e6, e7⟩
      · simp only [coalesce_at, if_neg hxc]
        refine ⟨hp, hx, ?_⟩
        rw [e4 x hxc]
        exact e1
      · simpa [size_at, hxc] using e2

theorem insert_after_mem (chunk : Nat) :
    ∀ (l l' : List Nat), insert_after chunk l = some l' →
      chunk ∈ l' ∧ l'.length = l.length + 1 ∧ ∀ a, a ∈ l' ↔ a = chunk ∨ a ∈ l := by
  intro l
  induction l with
  | nil => intro l' h; simp [insert_after] at h
  | cons x rest ih =>
    intro l' h
    cases rest with
    | nil =>
      simp only [insert_after] at h
      split at h
      · cases h
        refine ⟨by simp, by simp, ?_⟩
        intro a; simp [or_comm]
      · cases h
    | cons n cs =>
      simp only [insert_after] at h
      split at h
      · cases h
        refine ⟨by simp, by simp, ?_⟩
        intro a
        simp only [List.mem_cons]
        tauto
      · obtain ⟨l'', hl'', rfl⟩ := Option.map_eq_some'.mp h
        obtain ⟨i1, i2, i3⟩ := ih l'' hl''
        refine ⟨List.mem_cons_of_mem _ i1, by simp [i2], ?_⟩
        intro a
        simp only [List.mem_cons, i3]
        tauto

theorem insert_chunk_mem (chunk : Nat) (l : List Nat) :
    chunk ∈ insert_chunk chunk l ∧ (insert_chunk chunk l).length = l.length + 1 ∧
      ∀ a, a ∈ insert_chunk chunk l ↔ a = chunk ∨ a ∈ l := by
  unfold insert_chunk
  cases h : insert_after chunk l with
  | none => simp
  | some l' => exact insert_after_mem chunk l l' h

/-- What `add_to_free_chunks` does to a well-formed free list. -/
theorem add_to_free_chunks_spec (h : Heap) (c : Nat) (free : List Nat) (fuel : Nat)
    (hl : IsList h.next h.freep free) (hc : c ∉ free) (hc0 : c ≠ 0) (hcn : h.next c = 0)
    (hsp : ∀ f ∈ c :: free, InSpace h f) (hf : free.length < fuel) :
    ∃ h', add_to_free_chunks fuel h c = some h' ∧
      IsList h'.next h'.freep (coalesce_at h.size c (insert_chunk c free)) ∧
      h'.size c = size_at h.size c (insert_chunk c free) ∧
      (∀ a, a ≠ c → h'.size a = h.size a) ∧
      (∀ a, a ∉ free → a ≠ c → h'.next a = h.next a) ∧
      h'.usedp = h.usedp ∧ InSpace h' c := by
  by_cases hfp : h.freep = 0
  · rw [hfp] at hl
    have := IsList_zero hl
    subst this
    refine ⟨setFreep h c, by simp [add_to_free_chunks, hfp], ?_, ?_, fun _ _ => rfl,
      fun _ _ _ => rfl, rfl, hsp c (List.mem_cons_self _ _)⟩
    · simp only [insert_chunk, insert_after, coalesce_at, absorb, if_pos rfl]
      exact ⟨rfl, hc0, hcn⟩
    · simp [insert_chunk, insert_after, size_at, absorb]
  · obtain ⟨h1, e0, e1, e2, e3, e4, e5, e6⟩ :=
      free_insert_loop_spec h c free fuel h.freep hl hc hf
    rw [if_neg hfp] at e0
    obtain ⟨m1, m2, m3⟩ := insert_chunk_mem c free
    -- the heap once the chunk is linked in, and its list
    have key : ∃ h2, (if (insert_after c free).isSome then h1
          else setFreep (setNext h1 c h1.freep) c) = h2 ∧
        IsList h2.next h2.freep (insert_chunk c free) ∧ h2.size = h.size ∧
        h2.usedp = h.usedp ∧ (∀ a, a ∉ free → a ≠ c → h2.next a = h.next a) := by
      cases hia : insert_after c free with
      | some l' =>
        refine ⟨h1, by simp, ?_, e1, e3, e4⟩
        simp only [insert_chunk, hia]
        rw [e2]
        exact e6 l' hia
      | none =>
        have := e5 hia
        subst this
        refine ⟨setFreep (setNext h1 c h1.freep) c, by simp, ?_, rfl, rfl, ?_⟩
        · simp only [insert_chunk, hia]
          refine ⟨rfl, hc0, ?_⟩
          simp only [next_setFreep, next_setNext, if_pos rfl]
          refine IsSeg_congr ?_ hl
          intro a ha
          have : a ≠ c := fun e => hc (e ▸ ha)
          simp [this]
        · intro a _ hac
          simp [hac]
    obtain ⟨h2, k0, k1, k2, k3, k4⟩ := key
    have hsp2 : ∀ f ∈ insert_chunk c free, InSpace h2 f := by
      intro f hf
      have := hsp f (by
        rcases (m3 f).mp hf with e | hm
        · simp [e]
        · simp [hm])
      unfold InSpace at this ⊢
      rw [k2]
      exact this
    obtain ⟨h', c0, c1, c2, c3, c4, c5, c6, c7⟩ :=
      coalesce_in_list c (insert_chunk c free) fuel h2.freep h2 k1 m1 hsp2 (by omega)
    refine ⟨h', ?_, ?_, ?_, ?_, ?_, ?_, c7⟩
    · simp only [add_to_free_chunks, if_neg hfp, e0]
      rw [k0]
      exact c0
    · rw [c5, ← k2]
      exact c1
    · rw [← k2]
      exact c2
    · intro a ha
      rw [c3 a ha, k2]
    · intro a ha hac
      rw [c4 a hac, k4 a ha hac]
    · rw [c6, k3]

/-! ## `memfree` of a chunk of the used list -/

theorem absorb_sublist (size : Nat → Nat) (c : Nat) :
    ∀ (rest : List Nat) (csize : Nat), ∀ a ∈ (absorb size c csize rest).2, a ∈ rest := by
  intro rest
  induction rest with
  | nil => intro csize a ha; simp [absorb] at ha
  | cons n rest ih =>
    intro csize a ha
    simp only [absorb] at ha
    split at ha
    · exact List.mem_cons_of_mem _ (ih _ a ha)
    · exact ha

theorem coalesce_at_subset (size : Nat → Nat) (c : Nat) :
    ∀ (L : List Nat), ∀ a ∈ coalesce_at size c L, a ∈ L := by
  intro L
  induction L with
  | nil => intro a ha; simp [coalesce_at] at ha
  | cons x rest ih =>
    intro a ha
    simp only [coalesce_at] at ha
    split at ha
    · rcases List.mem_cons.mp ha with e | hm
      · exact e ▸ List.mem_cons_self _ _
      · exact List.mem_cons_of_mem _ (absorb_sublist size c rest _ a hm)
    · rcases List.mem_cons.mp ha with e | hm
      · exact e ▸ List.mem_cons_self _ _
      · exact List.mem_cons_of_mem _ (ih a hm)

theorem coalesce_at_mem (size : Nat → Nat) (c : Nat) :
    ∀ (L : List Nat), c ∈ L → c ∈ coalesce_at size c L := by
  intro L
  induction L with
  | nil => intro h; cases h
  | cons x rest ih =>
    intro h
    simp only [coalesce_at]
    split
    · rename_i hx
      exact hx ▸ List.mem_cons_self _ _
    · rename_i hx
      rcases List.mem_cons.mp h with e | hm
      · exact absurd e.symm hx
      · exact List.mem_cons_of_mem _ (ih hm)

theorem last_or_concat (prev q : Nat) : ∀ l : List Nat, last_or prev (l ++ [q]) = q := by
  intro l
  induction l generalizing prev with
  | nil => rfl
  | cons x rest ih => exact ih x

theorem memfree_loop_found (fuel0 : Nat) (h : Heap) (c : Nat) (hc0 : c ≠ 0) :
    ∀ (l1 : List Nat) (fuel prev curr : Nat), IsSeg h.next curr c l1 → c ∉ l1 →
      l1.length < fuel →
      memfree_loop fuel0 fuel h c prev curr =
        match add_to_free_chunks fuel0 (setNext h c 0) c with
        | none => none
        | some h2 =>
          if last_or prev l1 ≠ 0 then
            some (setNext h2 (last_or prev l1) (h.next c))
          else some (setUsedp h2 (h.next c)) := by
  intro l1
  induction l1 with
  | nil =>
    intro fuel prev curr hl _ hf
    have e : curr = c := hl
    subst e
    obtain ⟨k, rfl⟩ : ∃ k, fuel = k + 1 := ⟨fuel - 1, by simp at hf; omega⟩
    simp only [memfree_loop, if_neg hc0, ↓reduceIte, last_or]
  | cons x rest ih =>
    intro fuel prev curr hl hmem hf
    obtain ⟨hp, hx, hrest⟩ := hl
    subst hp
    obtain ⟨k, rfl⟩ : ∃ k, fuel = k + 1 := ⟨fuel - 1, by simp at hf; omega⟩
    have hne : curr ≠ c := fun e => hmem (e ▸ List.mem_cons_self _ _)
    simp only [memfree_loop, if_neg hx, if_neg hne]
    rw [ih k curr (h.next curr) hrest (fun hm => hmem (List.mem_cons_of_mem _ hm))
      (by simp at hf; omega)]
    rfl

/-- The release of a chunk of the used list when the chain of links from
`usedp` visits the used chunks and then reaches `g`, null or not: as
`memfree_spec`, and the chain still reaches `g`. -/
theorem memfree_spec_seg (h : Heap) (c g : Nat) (used free : List Nat) (fuel : Nat)
    (hu : IsSeg h.next h.usedp g used) (hnd : used.Nodup) (hcu : c ∈ used)
    (hfr : IsList h.next h.freep free) (hcf : c ∉ free)
    (hdisj : ∀ a ∈ free, a ∉ used)
    (hsp : ∀ f ∈ c :: free, InSpace h f)
    (hfuel : used.length + free.length < fuel) :
    ∃ h', memfree_loop fuel fuel h c 0 h.usedp = some h' ∧
      IsSeg h'.next h'.usedp g (used.erase c) ∧
      IsList h'.next h'.freep (coalesce_at h.size c (insert_chunk c free)) ∧
      h'.size c = size_at h.size c (insert_chunk c free) ∧
      (∀ a, a ≠ c → h'.size a = h.size a) ∧
      (∀ a, a ∉ free → a ∉ used → h'.next a = h.next a) ∧ InSpace h' c := by
  have hc0 : c ≠ 0 := IsSeg_ne_zero hu c hcu
  obtain ⟨l1, l2, rfl⟩ := List.append_of_mem hcu
  have hcl1 : c ∉ l1 := by
    intro hm
    have := List.nodup_append.mp hnd
    exact this.2.2 hm (List.mem_cons_self _ _) 
  have hcl2 : c ∉ l2 := by
    have := (List.nodup_append.mp hnd).2.1
    exact (List.nodup_cons.mp this).1
  obtain ⟨m, hseg1, hseg2⟩ := IsSeg_append.mp hu
  obtain ⟨hm, -, hl2⟩ := hseg2
  subst hm
  -- the free list does not see the write `curr_used->next = 0`
  have hfr1 : IsList (setNext h m 0).next (setNext h m 0).freep free := by
    refine IsSeg_congr ?_ hfr
    intro a ha
    have : a ≠ m := fun e => hcf (e ▸ ha)
    simp [this]
  obtain ⟨h2, a0, a1, a2, a3, a4, a5, a6⟩ :=
    add_to_free_chunks_spec (setNext h m 0) m free fuel hfr1 hcf hc0 (by simp)
      (fun f hf => by have := hsp f hf; unfold InSpace at this ⊢; simpa using this)
      (by omega)
  simp only [size_setNext] at a1 a2 a3
  have hfree' : ∀ a ∈ coalesce_at h.size m (insert_chunk m free), a = m ∨ a ∈ free :=
    fun a ha => ((insert_chunk_mem m free).2.2 a).mp (coalesce_at_subset _ _ _ a ha)
  have hloop := memfree_loop_found fuel h m hc0 l1 fuel 0 h.usedp hseg1 hcl1
    (by simp at hfuel; omega)
  rw [a0] at hloop
  -- links of the chunks that stay in the used list
  have hkeep : ∀ a, a ∈ l1 ++ l2 → h2.next a = h.next a := by
    intro a ha
    have ham : a ≠ m := by
      rintro rfl
      rcases List.mem_append.mp ha with h1 | h2
      · exact hcl1 h1
      · exact hcl2 h2
    have hau : a ∈ l1 ++ m :: l2 := by
      rcases List.mem_append.mp ha with h1 | h2
      · exact List.mem_append_left _ h1
      · exact List.mem_append_right _ (List.mem_cons_of_mem _ h2)
    have haf : a ∉ free := fun hf => hdisj a hf hau
    rw [a4 a haf ham]
    simp [ham]
  have herase : (l1 ++ m :: l2).erase m = l1 ++ l2 := by
    rw [List.erase_append_right _ hcl1, List.erase_cons_head]
  rw [herase]
  rcases List.eq_nil_or_concat l1 with e | ⟨l1', q, e⟩
  · -- the chunk is the head of the used list
    subst e
    have hup : h.usedp = m := hseg1
    simp only [last_or, ne_eq, not_true_eq_false, if_false] at hloop
    refine ⟨_, hloop, ?_, ?_, a2, a3, ?_, a6⟩
    · simp only [List.nil_append, usedp_setUsedp, next_setUsedp]
      exact IsSeg_congr (fun a ha => hkeep a (by simpa using ha)) hl2
    · simpa using a1
    · intro a haf hau
      have ham : a ≠ m := fun e => hau (by simp [e])
      simp only [next_setUsedp]
      rw [a4 a haf ham]
      simp [ham]
  · -- the chunk comes after `q`
    subst e
    rw [List.concat_eq_append] at hseg1 hloop hcl1 hkeep hnd ⊢
    obtain ⟨m', hs1, hs2⟩ := IsSeg_append.mp hseg1
    obtain ⟨hq, hq0, hqn⟩ := hs2
    subst hq
    have hqn' : h.next m' = m := hqn
    have hqm : m' ≠ m := fun e => hcl1 (by simp [e])
    have hqf : m' ∉ free := fun hf => hdisj m' hf (by simp)
    have hql1 : m' ∉ l1' := by
      intro hm
      have := (List.nodup_append.mp (List.nodup_append.mp hnd).1).2.2 hm
        (List.mem_singleton_self _)
      exact this
    have hql2 : m' ∉ l2 := by
      intro hm
      exact (List.nodup_append.mp hnd).2.2 (by simp) (List.mem_cons_of_mem _ hm)
    simp only [last_or_concat, ne_eq, hq0, not_false_eq_true, if_true] at hloop
    refine ⟨_, hloop, ?_, ?_, a2, a3, ?_, a6⟩
    · simp only [usedp_setNext, a5, List.append_assoc, List.singleton_append]
      refine IsSeg_append.mpr ⟨m', ?_, rfl, hq0, ?_⟩
      · refine IsSeg_congr ?_ hs1
        intro a ha
        have haq : a ≠ m' := fun e => hql1 (e ▸ ha)
        simp only [next_setNext, if_neg haq]
        exact hkeep a (by simp [ha])
      · simp only [next_setNext, if_pos rfl]
        refine IsSeg_congr ?_ hl2
        intro a ha
        have haq : a ≠ m' := fun e => hql2 (e ▸ ha)
        simp only [next_setNext, if_neg haq]
        exact hkeep a (by simp [ha])
    · simp only [freep_setNext]
      refine IsSeg_congr ?_ a1
      intro a ha
      have haq : a ≠ m' := by
        rintro rfl
        rcases hfree' _ ha with e | hf
        · exact hqm e
        · exact hqf hf
      simp [haq]
    · intro a haf hau
      have ham : a ≠ m := fun e => hau (by simp [e])
      have haq : a ≠ m' := fun e => hau (by simp [e])
      simp only [next_setNext, if_neg haq]
      rw [a4 a haf ham]
      simp [ham]

/-- What `memfree` does when the chunk is in the used list: the chunk leaves
the used list and goes through `add_to_free_chunks`. -/
theorem memfree_spec (h : Heap) (c : Nat) (used free : List Nat) (fuel : Nat)
    (hu : IsList h.next h.usedp used) (hcu : c ∈ used)
    (hfr : IsList h.next h.freep free) (hcf : c ∉ free)
    (hdisj : ∀ a ∈ free, a ∉ used)
    (hsp : ∀ f ∈ c :: free, InSpace h f)
    (hfuel : used.length + free.length < fuel) :
    ∃ h', memfree_loop fuel fuel h c 0 h.usedp = some h' ∧
      IsList h'.next h'.usedp (used.erase c) ∧
      IsList h'.next h'.freep (coalesce_at h.size c (insert_chunk c free)) ∧
      h'.size c = size_at h.size c (insert_chunk c free) ∧
      (∀ a, a ≠ c → h'.size a = h.size a) ∧
      (∀ a, a ∉ free → a ∉ used → h'.next a = h.next a) ∧ InSpace h' c :=
  memfree_spec_seg h c 0 used free fuel hu (IsList_nodup hu) hcu hfr hcf hdisj hsp hfuel

/-! ## C7 and C8: `memfree` -/

/-- C7: when the used list is a finite null-terminated list and the header
address `p - header_size` is not one of its chunks, `memfree(p)` returns and
changes nothing: both list heads and every header field are as before. -/
theorem memfree_unknown_pointer_noop (h : Heap) (p : Nat) (used : List Nat) (fuel : Nat)
    (hu : IsList h.next h.usedp used) (hp : header_of p ∉ used)
    (hf : used.length < fuel) : memfree fuel h p = some h :=
  memfree_loop_not_found fuel h (header_of p) used fuel 0 h.usedp hu hp hf

theorem memfree_unknown_pointer_noop_witness :
    IsList one_alloc.1.next one_alloc.1.usedp [98236] ∧ header_of 4112 ∉ [98236] ∧
      memfree 2 one_alloc.1 4112 = some one_alloc.1 :=
  ⟨by decide, by decide,
    memfree_unknown_pointer_noop one_alloc.1 4112 [98236] 2 (by decide) (by decide) (by decide)⟩

theorem mem_erase_of_isList {next : Nat → Nat} {p : Nat} {used : List Nat}
    (hu : IsList next p used) (c a : Nat) : a ∈ used.erase c ↔ a ∈ used ∧ a ≠ c := by
  rw [(IsList_nodup hu).mem_erase_iff]
  tauto

/-- A consequence of the exact fit behind the head of the free list: from the
initial state, with the two regions mapped at `65536` and `131072` (disjoint),
the calls `memalloc(32696)`, `memalloc(32688)`, `memalloc(48)`, `memalloc(48)`
all return non-null, no `memfree` is called, and the third and the fourth call
return the same address `65552`, the payload of a chunk of size `52`: the
chunk was handed out without leaving the free list. -/
theorem memalloc_returns_same_address_twice :
    ∃ h1 a h2 b h3 c h4 d,
      memalloc 3 init 65536 0 32696 = some (h1, a) ∧
      memalloc 3 h1 0 131072 32688 = some (h2, b) ∧
      memalloc 3 h2 0 0 48 = some (h3, c) ∧
      memalloc 3 h3 0 0 48 = some (h4, d) ∧
      a ≠ 0 ∧ b ≠ 0 ∧ c ≠ 0 ∧ d ≠ 0 ∧
      c = 65552 ∧ d = 65552 ∧ h4.size (header_of c) = 52 ∧ h4.size (header_of d) = 52 :=
  ⟨_, _, _, _, _, _, _, _, rfl, rfl, rfl, rfl, by decide, by decide, by decide, by decide,
    rfl, rfl, by decide, by decide⟩

/-- C6 (the code at the failing inputs): the normalisation maps `0` to `8`,
not to one alignment unit, and maps the multiples `4` and `64` of the alignment
unit to `8` and `68`; `memalloc(0)` in the initial state returns a chunk of
size `8`. -/
theorem normalized_size_overshoots :
    normalized_size 0 = 8 ∧ normalized_size 4 = 8 ∧ normalized_size 64 = 68 ∧
      ∃ h p, memalloc 2 init 65536 0 0 = some (h, p) ∧ p ≠ 0 ∧ h.size (header_of p) = 8 :=
  ⟨by decide, by decide, by decide, _, _, rfl, by decide, by decide⟩

/-- C9 (the code at the failing input): after `memalloc(32696)` and
`memalloc(32688)` the free list is `[131072, 65536]` with sizes `60` and `52`
and the used list is `[131148, 65604]`.  `memalloc(48)` (normalized size `52`)
passes the first chunk and reaches the chunk `65536` of size exactly `52`: it
returns its payload `65552` and pushes it on the used list, but the chunk is
still in the free list, which now runs on into the used chunks. -/
theorem memalloc_exact_fit_stays_in_free_list :
    ∃ h1 a h2 b h3 p,
      memalloc 3 init 65536 0 32696 = some (h1, a) ∧
      memalloc 3 h1 0 131072 32688 = some (h2, b) ∧
      walk h2.next 9 h2.freep = [131072, 65536] ∧
      h2.size 131072 = 60 ∧ h2.size 65536 = 52 ∧ normalized_size 48 = 52 ∧
      walk h2.next 9 h2.usedp = [131148, 65604] ∧
      memalloc 3 h2 0 0 48 = some (h3, p) ∧ p = 65536 + header_size ∧
      walk h3.next 9 h3.usedp = [65536, 131148, 65604] ∧
      walk h3.next 9 h3.freep = [131072, 65536, 131148, 65604] :=
  ⟨_, _, _, _, _, _, rfl, rfl, by decide, by decide, by decide, by decide, by decide, rfl,
    by decide, by decide, by decide⟩

/-- C10 (the code at the failing input): in the initial state `memalloc(32750)`
(normalized size `32752`) finds no suitable chunk, the region reservation
succeeds (a region of size `32768` at `131072`), and `memalloc` returns null:
the split of the new region fails, and the region stays in the free list. -/
theorem memalloc_fails_after_reservation :
    ∃ h, memalloc 2 init 65536 131072 32750 = some (h, 0) ∧
      normalized_size 32750 = 32752 ∧
      walk h.next 9 h.freep = [131072, 65536] ∧
      h.size 131072 = 32768 ∧ h.size 65536 = 32768 ∧ h.usedp = 0 :=
  ⟨_, rfl, by decide, by decide, by decide, by decide, by decide⟩

/-- C2 (counterexample): after one `memalloc(64)`, the request `2^64 - 1`
returns a non-null address whose chunk has size `0`, which is not at least the
request. -/
theorem memalloc_huge_request_gets_empty_chunk :
    ∃ h1 a h2 p,
      memalloc 2 init 65536 0 64 = some (h1, a) ∧
      memalloc 2 h1 0 0 18446744073709551615 = some (h2, p) ∧
      p ≠ 0 ∧ h2.size (header_of p) = 0 ∧
      ¬ (18446744073709551615 ≤ h2.size (header_of p)) :=
  ⟨_, _, _, _, rfl, rfl, by decide, by decide, by decide⟩

/-- C4 (counterexample): for `n = 64`, `p = memalloc(64)`, `memfree(p)`,
`q = memalloc(64)` gives `q ≠ p`: the second allocation is split from the
first free chunk, the remainder of the region. -/
theorem realloc_does_not_reuse_freed_chunk :
    ∃ h1 p h2 h3 q,
      memalloc 2 init 65536 0 64 = some (h1, p) ∧
      memfree 3 h1 p = some h2 ∧
      memalloc 3 h2 0 0 64 = some (h3, q) ∧
      p = 98252 ∧ q = 98168 ∧ q ≠ p ∧
      walk h2.next 9 h2.freep = [65536, 98236] :=
  ⟨_, _, _, _, _, rfl, rfl, rfl, rfl, rfl, by decide, by decide⟩

theorem normalized_size_eq (n : Nat) :
    normalized_size n = ((if n < 4 then 4 else n) + 4 - (if n < 4 then 4 else n) % 4) % WORD :=
  rfl

theorem normalized_size_bounds (n : Nat) (hn : n + 20 < WORD) :
    4 ∣ normalized_size n ∧ n < normalized_size n ∧ 8 ≤ normalized_size n ∧
      normalized_size n + 16 < WORD := by
  rw [normalized_size_eq]
  simp only [WORD] at *
  by_cases h4 : n < 4
  · simp only [if_pos h4]
    omega
  · simp only [if_neg h4]
    omega

theorem header_of_payload (c : Nat) (hc : c < WORD) :
    header_of ((c + header_size) % WORD) = c := by
  unfold header_of
  simp only [header_size, WORD] at *
  omega

theorem WordHeap_setSize {h : Heap} (hw : WordHeap h) (a v : Nat) (hv : v < WORD) :
    WordHeap (setSize h a v) := by
  obtain ⟨h1, h2, h3, h4⟩ := hw
  refine ⟨?_, h2, h3, h4⟩
  intro x
  simp only [size_setSize]
  split
  · exact hv
  · exact h1 x

theorem WordHeap_setNext {h : Heap} (hw : WordHeap h) (a v : Nat) (hv : v < WORD) :
    WordHeap (setNext h a v) := by
  obtain ⟨h1, h2, h3, h4⟩ := hw
  refine ⟨h1, ?_, h3, h4⟩
  intro x
  simp only [next_setNext]
  split
  · exact hv
  · exact h2 x

theorem WordHeap_split {h : Heap} (hw : WordHeap h) (c s : Nat) (hs : s < WORD) :
    WordHeap (split_chunk h c s).1 := by
  simp only [split_chunk]
  split
  · exact hw
  · exact WordHeap_setSize (WordHeap_setSize hw _ _ hs) _ _ (Nat.mod_lt _ (by decide))

theorem WordHeap_mmapZero {h : Heap} (hw : WordHeap h) (mm len : Nat) :
    WordHeap (mmapZero h mm len) := by
  obtain ⟨h1, h2, h3, h4⟩ := hw
  refine ⟨?_, ?_, h3, h4⟩
  · intro x
    simp only [mmapZero]
    split
    · decide
    · exact h1 x
  · intro x
    simp only [mmapZero]
    split
    · decide
    · exact h2 x

theorem WordHeap_create {h : Heap} (hw : WordHeap h) (mm n : Nat) (hn : n < WORD) :
    WordHeap (create_chunk h mm n).1 := by
  simp only [create_chunk]
  refine WordHeap_setNext (WordHeap_setSize (WordHeap_mmapZero hw _ _) _ _ ?_) _ _ (by decide)
  split
  · exact hn
  · decide

theorem WordHeap_init : WordHeap init :=
  ⟨fun _ => by simp [init, WORD], fun _ => by simp [init, WORD], by decide, by decide⟩

/-- A successful split records the requested size in the new header. -/
theorem split_chunk_size (h : Heap) (c s : Nat) (hsz : h.size c < WORD)
    (hs : s + 16 < WORD) (hne : (split_chunk h c s).2 ≠ 0) :
    (split_chunk h c s).1.size (split_chunk h c s).2 = s ∧ (split_chunk h c s).2 < WORD := by
  simp only [split_chunk] at hne ⊢
  by_cases hfail : c = 0 ∨ (header_size + s) % WORD ≥ h.size c
  · rw [if_pos hfail] at hne
    exact absurd rfl hne
  · rw [if_neg hfail]
    simp only [size_setSize]
    have hres : (c + h.size c + (WORD - s % WORD)) % WORD ≠ c := by
      simp only [header_size, WORD] at *
      omega
    refine ⟨?_, Nat.mod_lt _ (by decide)⟩
    simp [hres]

theorem size_add_to_used_chunks (h : Heap) (c : Nat) :
    (add_to_used_chunks h c).size = h.size := by
  unfold add_to_used_chunks
  split <;> rfl

theorem memalloc_scan_size :
    ∀ (fuel : Nat) (h : Heap) (s prev curr : Nat) (r : Heap × Nat), WordHeap h →
      curr < WORD → s + 16 < WORD → memalloc_scan fuel h s prev curr = some (some r) →
      r.2 ≠ 0 → r.1.size (header_of r.2) = s := by
  intro fuel
  induction fuel with
  | zero => intro h s prev curr r _ _ _ hr; simp [memalloc_scan] at hr
  | succ k ih =>
    intro h s prev curr r hw hc hs hr hp
    simp only [memalloc_scan] at hr
    split at hr
    · cases hr
    · split at hr
      · split at hr
        · exact ih _ s prev curr r (WordHeap_split hw _ _ (by omega)) hc hs hr hp
        · rename_i hne
          obtain ⟨e1, e2⟩ := split_chunk_size h curr s (hw.1 curr) hs hne
          cases hr
          simp only [header_of_payload _ e2, size_add_to_used_chunks]
          exact e1
      · split at hr
        · rename_i heq
          cases hr
          simp only [header_of_payload _ hc, size_add_to_used_chunks]
          split
          · exact heq
          · exact heq
        · exact ih h s _ _ r hw (hw.2.1 curr) hs hr hp

theorem memalloc_grow_size (h : Heap) (mm s : Nat) (hw : WordHeap h) (hm : mm < WORD)
    (hs : s + 16 < WORD) (hp : (memalloc_grow h mm s).2 ≠ 0) :
    (memalloc_grow h mm s).1.size (header_of (memalloc_grow h mm s).2) = s := by
  have hw1 : WordHeap (create_chunk h mm s).1 := WordHeap_create hw mm s (by omega)
  have hmm : (create_chunk h mm s).2 = mm := rfl
  unfold memalloc_grow at hp ⊢
  simp only [hmm] at hp ⊢
  by_cases h0 : mm ≠ 0
  · simp only [if_pos h0] at hp ⊢
    split
    · rename_i heq
      simp only [header_of_payload _ hm, size_add_to_used_chunks]
      exact heq
    · rename_i hneq
      rw [if_neg hneq] at hp
      split
      · rename_i hz
        rw [if_pos hz] at hp
        exact absurd rfl hp
      · rename_i hz
        obtain ⟨e1, e2⟩ := split_chunk_size
          (setFreep (setNext (create_chunk h mm s).1 mm (create_chunk h mm s).1.freep) mm)
          mm s (hw1.1 mm) hs hz
        simp only [header_of_payload _ e2, size_add_to_used_chunks]
        exact e1
  · simp only [if_neg h0] at hp
    exact absurd rfl hp

/-- C2 (amended): for a request `n` with `n + 20 < 2^64` (neither the rounding
nor the addition of the header size wraps), in every heap of machine words,
whenever `memalloc(n)` returns a non-null address `p`, the size recorded in
the header at `p - header_size` is the normalized size, a multiple of the
alignment unit and at least `n`. -/
theorem memalloc_size_recorded (fuel : Nat) (h : Heap) (mm1 mm2 n : Nat) (h' : Heap)
    (p : Nat) (hw : WordHeap h) (hm1 : mm1 < WORD) (hm2 : mm2 < WORD)
    (hn : n + 20 < WORD) (hr : memalloc fuel h mm1 mm2 n = some (h', p)) (hp : p ≠ 0) :
    h'.size (header_of p) = normalized_size n ∧
      ALLOCATION_ALIGNMENT ∣ h'.size (header_of p) ∧ n ≤ h'.size (header_of p) := by
  obtain ⟨f1, f2, -, f4⟩ := normalized_size_bounds n hn
  have key : h'.size (header_of p) = normalized_size n := by
    unfold memalloc at hr
    have hw0 : WordHeap (if h.freep = 0 then
        setFreep (create_chunk h mm1 n).1 (create_chunk h mm1 n).2 else h) := by
      split
      · obtain ⟨a1, a2, -, a4⟩ := WordHeap_create hw mm1 n (by omega)
        exact ⟨a1, a2, hm1, a4⟩
      · exact hw
    simp only at hr
    split at hr
    · cases hr
    · rename_i r hscan
      cases hr
      exact memalloc_scan_size fuel _ _ 0 _ (h', p) hw0 hw0.2.2.1 f4 hscan hp
    · have e := Option.some.inj hr
      have e1 := congrArg Prod.fst e
      have e2 := congrArg Prod.snd e
      simp only at e1 e2
      rw [← e1, ← e2]
      rw [← e2] at hp
      exact memalloc_grow_size _ mm2 _ hw0 hm2 f4 hp
  rw [key]
  exact ⟨rfl, f1, by omega⟩

theorem memalloc_size_recorded_witness :
    memalloc 2 init 65536 0 64 = some one_alloc ∧ one_alloc.2 ≠ 0 ∧
      one_alloc.1.size (header_of one_alloc.2) = normalized_size 64 ∧
      ALLOCATION_ALIGNMENT ∣ one_alloc.1.size (header_of one_alloc.2) ∧
      64 ≤ one_alloc.1.size (header_of one_alloc.2) :=
  ⟨rfl, by decide,
    memalloc_size_recorded 2 init 65536 0 64 one_alloc.1 one_alloc.2
      WordHeap_init
      (by decide) (by decide) (by decide) rfl (by decide)⟩

/-! ## `memfree` keeps the two lists well formed -/

theorem absorb_length (size : Nat → Nat) (c : Nat) :
    ∀ (rest : List Nat) (csize : Nat), (absorb size c csize rest).2.length ≤ rest.length := by
  intro rest
  induction rest with
  | nil => intro csize; simp [absorb]
  | cons n rest ih =>
    intro csize
    simp only [absorb]
    split
    · have := ih ((csize + (size n + header_size) % WORD) % WORD)
      simp only [List.length_cons]
      omega
    · exact le_refl _

theorem coalesce_at_length (size : Nat → Nat) (c : Nat) :
    ∀ (L : List Nat), (coalesce_at size c L).length ≤ L.length := by
  intro L
  induction L with
  | nil => simp [coalesce_at]
  | cons x rest ih =>
    simp only [coalesce_at]
    split
    · have := absorb_length size c rest (size c)
      simp only [List.length_cons]
      omega
    · simp only [List.length_cons]
      omega

/-- The two lists after `memfree` of a chunk of the used list, exactly. -/
theorem memfree_exact (h : Heap) (c : Nat) (used free : List Nat) (fuel : Nat)
    (hwf : WellFormed h used free) (hcu : c ∈ used)
    (hfuel : used.length + free.length < fuel) :
    ∃ h', memfree_loop fuel fuel h c 0 h.usedp = some h' ∧
      WellFormed h' (used.erase c) (coalesce_at h.size c (insert_chunk c free)) ∧
      h'.size c = size_at h.size c (insert_chunk c free) ∧
      (∀ a, a ≠ c → h'.size a = h.size a) := by
  obtain ⟨hu, hfr, hdisj, hspu, hspf⟩ := hwf
  have hcf : c ∉ free := fun hm => hdisj c hm hcu
  have hsp : ∀ f ∈ c :: free, InSpace h f := by
    intro f hf
    rcases List.mem_cons.mp hf with e | hm
    · exact e ▸ hspu c hcu
    · exact hspf f hm
  obtain ⟨h', e0, e1, e2, e3, e4, e5, e6⟩ :=
    memfree_spec h c used free fuel hu hcu hfr hcf hdisj hsp hfuel
  have hsub : ∀ a ∈ coalesce_at h.size c (insert_chunk c free), a = c ∨ a ∈ free :=
    fun a ha => ((insert_chunk_mem c free).2.2 a).mp (coalesce_at_subset _ _ _ a ha)
  have hmem := mem_erase_of_isList hu c
  refine ⟨h', e0, ⟨e1, e2, ?_, ?_, ?_⟩, e3, e4⟩
  · intro a ha hae
    have hae' := (hmem a).mp hae
    rcases hsub a ha with e | hf
    · exact hae'.2 e
    · exact hdisj a hf hae'.1
  · intro f hf
    have hf' := (hmem f).mp hf
    have := hspu f hf'.1
    unfold InSpace at this ⊢
    rw [e4 f hf'.2]
    exact this
  · intro f hf
    rcases hsub f hf with e | hm
    · exact e ▸ e6
    · have hfc : f ≠ c := fun e => hcf (e ▸ hm)
      have := hspf f hm
      unfold InSpace at this ⊢
      rw [e4 f hfc]
      exact this

theorem memfree_wellFormed (h : Heap) (c : Nat) (used free : List Nat) (fuel : Nat)
    (hwf : WellFormed h used free) (hcu : c ∈ used)
    (hfuel : used.length + free.length < fuel) :
    ∃ h' free', memfree_loop fuel fuel h c 0 h.usedp = some h' ∧
      WellFormed h' (used.erase c) free' ∧ free'.length ≤ free.length + 1 ∧
      c ∈ free' ∧ (∀ a ∈ free', a = c ∨ a ∈ free) ∧ (∀ a, a ≠ c → h'.size a = h.size a) := by
  obtain ⟨h', e0, e1, -, e3⟩ := memfree_exact h c used free fuel hwf hcu hfuel
  refine ⟨h', _, e0, e1, ?_, ?_, ?_, e3⟩
  · have := coalesce_at_length h.size c (insert_chunk c free)
    rw [(insert_chunk_mem c free).2.1] at this
    exact this
  · exact coalesce_at_mem _ _ _ (insert_chunk_mem _ _).1
  · exact fun a ha => ((insert_chunk_mem c free).2.2 a).mp (coalesce_at_subset _ _ _ a ha)

/-! ## `memalloc` when the head of the free list is split -/

theorem split_chunk_eq (h : Heap) (c s : Nat) (hc : c ≠ 0)
    (hs : s + header_size < h.size c) (hcs : c + h.size c < WORD) :
    split_chunk h c s = (split_heap h c s, c + h.size c - s) := by
  have hreq : (header_size + s) % WORD = s + header_size := by
    simp only [header_size, WORD] at *
    omega
  have hfail : ¬ (c = 0 ∨ s + header_size ≥ h.size c) := by
    simp only [header_size] at *
    omega
  have hres : (c + h.size c + (WORD - s % WORD)) % WORD = c + h.size c - s := by
    simp only [header_size, WORD] at *
    omega
  have hne : c ≠ c + h.size c - s := by
    simp only [header_size] at *
    omega
  have hsz : (h.size c + (WORD - (s + header_size))) % WORD = h.size c - (s + header_size) := by
    simp only [header_size, WORD] at *
    omega
  simp only [split_chunk, hreq, if_neg hfail, hres, size_setSize, if_neg hne, hsz, split_heap]

theorem memalloc_scan_split (k : Nat) (h : Heap) (s prev c : Nat) (hc : c ≠ 0) (hs0 : 0 < s)
    (hs : s + header_size < h.size c) (hcs : c + h.size c + header_size ≤ WORD) :
    memalloc_scan (k + 1) h s prev c =
      some (some (add_to_used_chunks (split_heap h c s) (c + h.size c - s),
        c + h.size c - s + header_size)) := by
  have hsplit := split_chunk_eq h c s hc hs (by simp only [header_size] at hcs; omega)
  have hgt : h.size c > (s + header_size) % WORD := by
    simp only [header_size, WORD] at *
    omega
  have hne : ¬ (c + h.size c - s = 0) := by
    simp only [header_size] at *
    omega
  have hmod : (c + h.size c - s + header_size) % WORD = c + h.size c - s + header_size := by
    simp only [header_size, WORD] at *
    omega
  simp only [memalloc_scan, if_neg hc, if_pos hgt, hsplit, if_neg hne, hmod]

theorem memalloc_of_freep (fuel : Nat) (h : Heap) (mm1 mm2 n : Nat) (hf : h.freep ≠ 0) :
    memalloc fuel h mm1 mm2 n =
      match memalloc_scan fuel h (normalized_size n) 0 h.freep with
      | none => none
      | some (some r) => some r
      | some none => some (memalloc_grow h mm2 (normalized_size n)) := by
  simp only [memalloc, if_neg hf]

theorem memalloc_of_null (fuel : Nat) (h : Heap) (mm1 mm2 n : Nat) (hf : h.freep = 0) :
    memalloc fuel h mm1 mm2 n =
      match memalloc_scan fuel (setFreep (create_chunk h mm1 n).1 mm1) (normalized_size n) 0
          mm1 with
      | none => none
      | some (some r) => some r
      | some none =>
        some (memalloc_grow (setFreep (create_chunk h mm1 n).1 mm1) mm2 (normalized_size n)) := by
  simp only [memalloc, if_pos hf]
  rfl

/-- A `memalloc` that splits the head of the free list. -/
theorem memalloc_split_head (k : Nat) (h : Heap) (mm1 mm2 n : Nat) (hf : h.freep ≠ 0)
    (hs0 : 0 < normalized_size n) (hs : normalized_size n + header_size < h.size h.freep)
    (hcs : h.freep + h.size h.freep + header_size ≤ WORD) :
    memalloc (k + 1) h mm1 mm2 n =
      some (add_to_used_chunks (split_heap h h.freep (normalized_size n))
          (h.freep + h.size h.freep - normalized_size n),
        h.freep + h.size h.freep - normalized_size n + header_size) := by
  rw [memalloc_of_freep _ _ _ _ _ hf, memalloc_scan_split k h _ 0 _ hf hs0 hs hcs]

theorem size_create_chunk (h : Heap) (mm n x : Nat) :
    (create_chunk h mm n).1.size x =
      if x = mm then (if n > CHUNK_DEFAULT_SIZE then n else CHUNK_DEFAULT_SIZE)
      else if mm ≤ x ∧ x < mm + (header_size +
        (if n > CHUNK_DEFAULT_SIZE then n else CHUNK_DEFAULT_SIZE)) % WORD then 0
      else h.size x := rfl

theorem next_create_chunk (h : Heap) (mm n x : Nat) :
    (create_chunk h mm n).1.next x =
      if x = mm then 0
      else if mm ≤ x ∧ x < mm + (header_size +
        (if n > CHUNK_DEFAULT_SIZE then n else CHUNK_DEFAULT_SIZE)) % WORD then 0
      else h.next x := rfl

theorem freep_create_chunk (h : Heap) (mm n : Nat) : (create_chunk h mm n).1.freep = h.freep :=
  rfl

theorem usedp_create_chunk (h : Heap) (mm n : Nat) : (create_chunk h mm n).1.usedp = h.usedp :=
  rfl

theorem size_split_heap (h : Heap) (c s x : Nat) :
    (split_heap h c s).size x =
      if x = c then h.size c - (s + header_size)
      else if x = c + h.size c - s then s else h.size x := rfl

theorem next_split_heap (h : Heap) (c s : Nat) : (split_heap h c s).next = h.next := rfl
theorem freep_split_heap (h : Heap) (c s : Nat) : (split_heap h c s).freep = h.freep := rfl
theorem usedp_split_heap (h : Heap) (c s : Nat) : (split_heap h c s).usedp = h.usedp := rfl

theorem next_add_to_used_chunks (h : Heap) (c x : Nat) :
    (add_to_used_chunks h c).next x =
      if h.usedp ≠ 0 ∧ x = c then h.usedp else h.next x := by
  unfold add_to_used_chunks
  by_cases hu : h.usedp ≠ 0
  · by_cases hx : x = c <;> simp [hu, hx]
  · simp [hu]

theorem freep_add_to_used_chunks (h : Heap) (c : Nat) :
    (add_to_used_chunks h c).freep = h.freep := by
  unfold add_to_used_chunks
  split <;> rfl

theorem usedp_add_to_used_chunks (h : Heap) (c : Nat) :
    (add_to_used_chunks h c).usedp = c := rfl

/-- The first `memalloc` on an empty free list, for a request below the
default region size: the region is created and its tail is returned. -/
theorem memalloc_first_split_facts (k : Nat) (h : Heap) (mm1 mm2 n : Nat) (hf : h.freep = 0)
    (hm : mm1 ≠ 0) (hn : n ≤ CHUNK_DEFAULT_SIZE)
    (hs0 : 0 < normalized_size n) (hs : normalized_size n + header_size < CHUNK_DEFAULT_SIZE)
    (hw : mm1 + 32784 ≤ WORD) :
    ∃ h', memalloc (k + 1) h mm1 mm2 n
        = some (h', mm1 + CHUNK_DEFAULT_SIZE - normalized_size n + header_size) ∧
      h'.freep = mm1 ∧ h'.usedp = mm1 + CHUNK_DEFAULT_SIZE - normalized_size n ∧
      (∀ x, h'.size x =
        if x = mm1 then CHUNK_DEFAULT_SIZE - (normalized_size n + header_size)
        else if x = mm1 + CHUNK_DEFAULT_SIZE - normalized_size n then normalized_size n
        else if mm1 ≤ x ∧ x < mm1 + 32784 then 0 else h.size x) ∧
      (∀ x, h'.next x =
        if h.usedp ≠ 0 ∧ x = mm1 + CHUNK_DEFAULT_SIZE - normalized_size n then h.usedp
        else if mm1 ≤ x ∧ x < mm1 + 32784 then 0 else h.next x) := by
  have hsz : (setFreep (create_chunk h mm1 n).1 mm1).size mm1 = CHUNK_DEFAULT_SIZE := by
    have : ¬ n > CHUNK_DEFAULT_SIZE := by omega
    simp [size_create_chunk, this]
  have hlen : (header_size + CHUNK_DEFAULT_SIZE) % WORD = 32784 := by decide
  have hng : ¬ n > CHUNK_DEFAULT_SIZE := by omega
  refine ⟨add_to_used_chunks (split_heap (setFreep (create_chunk h mm1 n).1 mm1) mm1
    (normalized_size n)) (mm1 + CHUNK_DEFAULT_SIZE - normalized_size n), ?_, ?_, ?_, ?_, ?_⟩
  · rw [memalloc_of_null _ _ _ _ _ hf,
      memalloc_scan_split k _ _ 0 mm1 hm hs0 (by rw [hsz]; exact hs)
        (by rw [hsz]; exact hw), hsz]
  · simp [freep_add_to_used_chunks, freep_split_heap]
  · simp [usedp_add_to_used_chunks]
  · intro x
    rw [size_add_to_used_chunks, size_split_heap, hsz]
    simp only [size_setFreep, size_create_chunk, if_neg hng, hlen]
    by_cases h1 : x = mm1
    · simp [h1]
    · simp [h1]
  · intro x
    rw [next_add_to_used_chunks]
    simp only [usedp_split_heap, usedp_setFreep, usedp_create_chunk, next_split_heap,
      next_setFreep, next_create_chunk, if_neg hng, hlen]
    by_cases h1 : x = mm1
    · subst h1
      have : ¬ (x = x + CHUNK_DEFAULT_SIZE - normalized_size n) := by
        simp only [CHUNK_DEFAULT_SIZE, header_size] at *
        omega
      have hin : x ≤ x ∧ x < x + 32784 := ⟨le_refl _, by omega⟩
      simp [this, hin]
    · simp [h1]

/-- A `memalloc` that splits the head of the free list, when the used list is
not empty. -/
theorem memalloc_split_head_facts (k : Nat) (h : Heap) (mm1 mm2 n : Nat) (hf : h.freep ≠ 0)
    (hs0 : 0 < normalized_size n) (hs : normalized_size n + header_size < h.size h.freep)
    (hcs : h.freep + h.size h.freep + header_size ≤ WORD) :
    ∃ h', memalloc (k + 1) h mm1 mm2 n
        = some (h', h.freep + h.size h.freep - normalized_size n + header_size) ∧
      h'.freep = h.freep ∧ h'.usedp = h.freep + h.size h.freep - normalized_size n ∧
      (∀ x, h'.size x =
        if x = h.freep then h.size h.freep - (normalized_size n + header_size)
        else if x = h.freep + h.size h.freep - normalized_size n then normalized_size n
        else h.size x) ∧
      (∀ x, h'.next x =
        if h.usedp ≠ 0 ∧ x = h.freep + h.size h.freep - normalized_size n then h.usedp
        else h.next x) := by
  refine ⟨_, memalloc_split_head k h mm1 mm2 n hf hs0 hs hcs, ?_, ?_, ?_, ?_⟩
  · simp [freep_add_to_used_chunks, freep_split_heap]
  · simp [usedp_add_to_used_chunks]
  · intro x
    rw [size_add_to_used_chunks, size_split_heap]
  · intro x
    rw [next_add_to_used_chunks]
    simp only [usedp_split_heap, next_split_heap]

theorem header_of_add (c : Nat) (hc : c + header_size < WORD) :
    header_of (c + header_size) = c := by
  unfold header_of
  simp only [header_size, WORD] at *
  omega

/-- One `memalloc` that carves `s` bytes from the tail of the head `r` of the
free list, whose size is `R`: the new chunk is `c`, the head keeps `R'`. -/
theorem memalloc_carve (k : Nat) (h : Heap) (mm1 mm2 n r R s c R' : Nat) (hf : h.freep = r)
    (hr : r ≠ 0) (hR : h.size r = R) (hn : normalized_size n = s) (hs0 : 0 < s)
    (hs : s + 16 < R) (hw : r + R + 16 ≤ WORD) (hc : c = r + R - s) (hR' : R' = R - (s + 16)) :
    ∃ h', memalloc (k + 1) h mm1 mm2 n = some (h', c + 16) ∧
      h'.freep = r ∧ h'.usedp = c ∧ h'.size r = R' ∧ h'.size c = s ∧
      (h.usedp ≠ 0 → h'.next c = h.usedp) ∧
      (∀ x, x ≠ r → x ≠ c → h'.size x = h.size x) ∧
      (∀ x, x ≠ c → h'.next x = h.next x) ∧ (h.usedp = 0 → h'.next = h.next) := by
  subst hf hR hn hc hR'
  obtain ⟨h', e, f, u, sz, nx⟩ := memalloc_split_head_facts k h mm1 mm2 n hr hs0
    (by simpa [header_size] using hs) (by simpa [header_size] using hw)
  have hcr : h.freep + h.size h.freep - normalized_size n ≠ h.freep := by omega
  refine ⟨h', e, f, u, ?_, ?_, ?_, ?_, ?_, ?_⟩
  · rw [sz]; simp [header_size]
  · rw [sz]; simp [hcr]
  · intro hu; rw [nx]; simp [hu]
  · intro x h1 h2; rw [sz]; simp [h1, h2]
  · intro x h1; rw [nx]; simp [h1]
  · intro hu; funext x; rw [nx]; simp [hu]

/-- The first `memalloc` of a run: the region is created at `r` and `s` bytes
are carved from its tail. -/
theorem memalloc_first_carve (k : Nat) (mm2 n r s c R' : Nat) (hr : r ≠ 0)
    (hn : normalized_size n = s) (hn' : n ≤ 32768) (hs0 : 0 < s) (hs : s + 16 < 32768)
    (hw : r + 32784 ≤ WORD) (hc : c = r + 32768 - s) (hR' : R' = 32768 - (s + 16)) :
    ∃ h', memalloc (k + 1) init r mm2 n = some (h', c + 16) ∧
      h'.freep = r ∧ h'.usedp = c ∧ h'.size r = R' ∧ h'.size c = s ∧
      (∀ x, h'.next x = 0) := by
  subst hn hc hR'
  obtain ⟨h', e, f, u, sz, nx⟩ := memalloc_first_split_facts k init r mm2 n rfl hr
    (by simpa [CHUNK_DEFAULT_SIZE] using hn') hs0
    (by simpa [CHUNK_DEFAULT_SIZE, header_size] using hs) hw
  have hcr : r + 32768 - normalized_size n ≠ r := by omega
  refine ⟨h', e, f, u, ?_, ?_, ?_⟩
  · rw [sz]; simp [CHUNK_DEFAULT_SIZE, header_size]
  · rw [sz]; simp [CHUNK_DEFAULT_SIZE, hcr]
  · intro x
    rw [nx]
    have i1 : init.usedp = 0 := rfl
    have i3 : init.next x = 0 := rfl
    simp [i1, i3]

/-- The four `memalloc` calls of `main`, for any address `r` of the region. -/
theorem main_allocs (k r : Nat) (mm : Nat → Nat) (hr : r ≠ 0) (hr2 : r + 32784 ≤ WORD) :
    ∃ h1 h2 h3 h4,
      memalloc (k + 1) init r (mm 1) 64 = some (h1, r + 32716) ∧
      memalloc (k + 1) h1 (mm 2) (mm 3) 64 = some (h2, r + 32632) ∧
      memalloc (k + 1) h2 (mm 4) (mm 5) 64 = some (h3, r + 32548) ∧
      memalloc (k + 1) h3 (mm 6) (mm 7) 16 = some (h4, r + 32512) ∧
      h4.freep = r ∧ h4.usedp = r + 32496 ∧
      h4.size r = 32480 ∧ h4.size (r + 32496) = 20 ∧ h4.size (r + 32532) = 68 ∧
      h4.size (r + 32616) = 68 ∧ h4.size (r + 32700) = 68 ∧
      h4.next r = 0 ∧ h4.next (r + 32496) = r + 32532 ∧ h4.next (r + 32532) = r + 32616 ∧
      h4.next (r + 32616) = r + 32700 ∧ h4.next (r + 32700) = 0 := by
  have hn64 : normalized_size 64 = 68 := by decide
  have hn16 : normalized_size 16 = 20 := by decide
  have hW : WORD = 18446744073709551616 := rfl
  obtain ⟨h1, e1, f1, u1, r1, c1, n1⟩ := memalloc_first_carve k (mm 1) 64 r 68 (r + 32700) 32684
    hr hn64 (by omega) (by omega) (by omega) hr2 (by omega) (by omega)
  obtain ⟨h2, e2, f2, u2, r2, c2, l2, s2, n2, -⟩ := memalloc_carve k h1 (mm 2) (mm 3) 64 r 32684
    68 (r + 32616) 32600 f1 hr r1 hn64 (by omega) (by omega) (by omega) (by omega) (by omega)
  obtain ⟨h3, e3, f3, u3, r3, c3, l3, s3, n3, -⟩ := memalloc_carve k h2 (mm 4) (mm 5) 64 r 32600
    68 (r + 32532) 32516 f2 hr r2 hn64 (by omega) (by omega) (by omega) (by omega) (by omega)
  obtain ⟨h4, e4, f4, u4, r4, c4, l4, s4, n4, -⟩ := memalloc_carve k h3 (mm 6) (mm 7) 16 r 32516
    20 (r + 32496) 32480 f3 hr r3 hn16 (by omega) (by omega) (by omega) (by omega) (by omega)
  refine ⟨h1, h2, h3, h4, e1, e2, e3, e4, f4, u4, r4, c4, ?_, ?_, ?_, ?_, ?_, ?_, ?_, ?_⟩
  · rw [s4 _ (by omega) (by omega)]; exact c3
  · rw [s4 _ (by omega) (by omega), s3 _ (by omega) (by omega)]; exact c2
  · rw [s4 _ (by omega) (by omega), s3 _ (by omega) (by omega), s2 _ (by omega) (by omega)]
    exact c1
  · rw [n4 _ (by omega), n3 _ (by omega), n2 _ (by omega)]; exact n1 r
  · rw [l4 (by rw [u3]; omega), u3]
  · rw [n4 _ (by omega), l3 (by rw [u2]; omega), u2]
  · rw [n4 _ (by omega), n3 _ (by omega), l2 (by rw [u1]; omega), u1]
  · rw [n4 _ (by omega), n3 _ (by omega), n2 _ (by omega)]; exact n1 _

theorem memfree_eq (fuel : Nat) (h : Heap) (p c : Nat) (hc : header_of p = c) :
    memfree fuel h p = memfree_loop fuel fuel h c 0 h.usedp := by
  rw [← hc]
  rfl

theorem header_of_eq (p c : Nat) (hp : p = c + 16) (h : p < WORD) : header_of p = c := by
  unfold header_of
  simp only [header_size, WORD] at *
  omega

theorem inSpace_of (h : Heap) (c s : Nat) (r : Nat) (hs : h.size c = s) (hr : r + 32784 < WORD)
    (hc : c + 16 + s ≤ r + 32784) : InSpace h c := by
  unfold InSpace
  rw [hs]
  simp only [header_size, WORD] at *
  omega

/-- The state of `main` after its four allocations: the used list holds the
four chunks, newest first, and the free list holds the rest of the region. -/
theorem main_allocs_wellFormed (k r : Nat) (mm : Nat → Nat) (hr : r ≠ 0)
    (hr2 : r + 32784 < WORD) :
    ∃ h1 h2 h3 h4,
      memalloc (k + 1) init r (mm 1) 64 = some (h1, r + 32716) ∧
      memalloc (k + 1) h1 (mm 2) (mm 3) 64 = some (h2, r + 32632) ∧
      memalloc (k + 1) h2 (mm 4) (mm 5) 64 = some (h3, r + 32548) ∧
      memalloc (k + 1) h3 (mm 6) (mm 7) 16 = some (h4, r + 32512) ∧
      WellFormed h4 [r + 32496, r + 32532, r + 32616, r + 32700] [r] ∧
      h4.size (r + 32700) = 68 ∧ h4.size (r + 32616) = 68 ∧ h4.size (r + 32532) = 68 ∧
      h4.size (r + 32496) = 20 := by
  obtain ⟨h1, h2, h3, h4, e1, e2, e3, e4, f4, u4, zr, zd, zc, zb, za, nr, nd, nc, nb, na⟩ :=
    main_allocs k r mm hr (le_of_lt hr2)
  refine ⟨h1, h2, h3, h4, e1, e2, e3, e4, ⟨?_, ?_, ?_, ?_, ?_⟩, za, zb, zc, zd⟩
  · refine ⟨u4, (by clear * -; omega), ?_⟩
    rw [nd]
    refine ⟨rfl, (by clear * -; omega), ?_⟩
    rw [nc]
    refine ⟨rfl, (by clear * -; omega), ?_⟩
    rw [nb]
    refine ⟨rfl, (by clear * -; omega), ?_⟩
    rw [na]
    rfl
  · refine ⟨f4, hr, ?_⟩
    rw [nr]
    rfl
  · intro x hx
    simp only [List.mem_singleton] at hx
    subst hx
    simp
  · intro x hx
    simp only [List.mem_cons, List.mem_singleton, List.not_mem_nil, or_false] at hx
    rcases hx with e | e | e | e <;> subst e
    · exact inSpace_of h4 _ 20 r zd hr2 (by clear * -; omega)
    · exact inSpace_of h4 _ 68 r zc hr2 (by clear * -; omega)
    · exact inSpace_of h4 _ 68 r zb hr2 (by clear * -; omega)
    · exact inSpace_of h4 _ 68 r za hr2 (by clear * -; omega)
  · intro x hx
    simp only [List.mem_singleton] at hx
    subst hx
    exact inSpace_of h4 _ 32480 x zr hr2 (by clear * -; omega)

theorem erase_last4 (a b c d : Nat) (h1 : a ≠ d) (h2 : b ≠ d) (h3 : c ≠ d) :
    [a, b, c, d].erase d = [a, b, c] := by
  simp [List.erase_cons, h1, h2, h3]

theorem erase_last3 (a b c : Nat) (h1 : a ≠ c) (h2 : b ≠ c) : [a, b, c].erase c = [a, b] := by
  simp [List.erase_cons, h1, h2]

theorem erase_last2 (a b : Nat) (h1 : a ≠ b) : [a, b].erase b = [a] := by
  simp [List.erase_cons, h1]

/-- C3: in the initial state, for every address `r` at which the region is
mapped (non-null, the mapping inside the address space), the program of
`main.c` runs to its end: the four calls `memalloc(64)`, `memalloc(64)`,
`memalloc(64)`, `memalloc(16)` return non-null addresses whose payloads are
pairwise disjoint, and after `memfree` of the four, in the order `a`, `b`,
`c`, `d`, the used list is empty (`usedp` is null). -/
theorem main_leaves_used_list_empty (fuel : Nat) (mm : Nat → Nat) (hr : mm 0 ≠ 0)
    (hr2 : mm 0 + 32784 < WORD) (hfuel : 6 ≤ fuel) :
    ∃ run, main fuel mm = some run ∧
      run.a ≠ 0 ∧ run.b ≠ 0 ∧ run.c ≠ 0 ∧ run.d ≠ 0 ∧
      PairwiseDisjoint [(run.a, run.allocated.size (header_of run.a)),
        (run.b, run.allocated.size (header_of run.b)),
        (run.c, run.allocated.size (header_of run.c)),
        (run.d, run.allocated.size (header_of run.d))] ∧
      run.final.usedp = 0 := by
  obtain ⟨k, rfl⟩ : ∃ k, fuel = k + 1 := ⟨fuel - 1, by omega⟩
  have hk : 5 ≤ k := by omega
  generalize hrr : mm 0 = r at hr hr2
  obtain ⟨h1, h2, h3, h4, e1, e2, e3, e4, W4, za, zb, zc, zd⟩ :=
    main_allocs_wellFormed k r mm hr hr2
  have hr3 : r + 32784 < 18446744073709551616 := hr2
  have ha : header_of (r + 32716) = r + 32700 :=
    header_of_eq _ _ (by clear * -; omega) (by clear * - hr3; simp only [WORD]; omega)
  have hb : header_of (r + 32632) = r + 32616 :=
    header_of_eq _ _ (by clear * -; omega) (by clear * - hr3; simp only [WORD]; omega)
  have hc : header_of (r + 32548) = r + 32532 :=
    header_of_eq _ _ (by clear * -; omega) (by clear * - hr3; simp only [WORD]; omega)
  have hd : header_of (r + 32512) = r + 32496 :=
    header_of_eq _ _ (by clear * -; omega) (by clear * - hr3; simp only [WORD]; omega)
  obtain ⟨h5, fr5, e5, W5, l5, -, -, -⟩ := memfree_wellFormed h4 (r + 32700) _ _ (k + 1) W4
    (by simp) (by simp only [List.length_cons, List.length_nil]; clear * - hk; omega)
  rw [erase_last4 _ _ _ _ (by clear * -; omega) (by clear * -; omega) (by clear * -; omega)]
    at W5
  simp only [List.length_cons, List.length_nil] at l5
  obtain ⟨h6, fr6, e6, W6, l6, -, -, -⟩ := memfree_wellFormed h5 (r + 32616) _ _ (k + 1) W5
    (by simp) (by simp only [List.length_cons, List.length_nil]; clear * - hk l5; omega)
  rw [erase_last3 _ _ _ (by clear * -; omega) (by clear * -; omega)] at W6
  obtain ⟨h7, fr7, e7, W7, l7, -, -, -⟩ := memfree_wellFormed h6 (r + 32532) _ _ (k + 1) W6
    (by simp) (by simp only [List.length_cons, List.length_nil]; clear * - hk l5 l6; omega)
  rw [erase_last2 _ _ (by clear * -; omega)] at W7
  obtain ⟨h8, fr8, e8, W8, l8, -, -, -⟩ := memfree_wellFormed h7 (r + 32496) _ _ (k + 1) W7
    (by simp) (by simp only [List.length_cons, List.length_nil]; clear * - hk l5 l6 l7; omega)
  have x8 : [r + 32496].erase (r + 32496) = [] := by simp
  rw [x8] at W8
  refine ⟨⟨r + 32716, r + 32632, r + 32548, r + 32512, h4, h8⟩, ?_, ?_, ?_, ?_, ?_, ?_, W8.1⟩
  · simp only [main, hrr, e1, e2, e3, e4, memfree_eq _ _ _ _ ha, memfree_eq _ _ _ _ hb,
      memfree_eq _ _ _ _ hc, memfree_eq _ _ _ _ hd, e5, e6, e7, e8, Option.bind_eq_bind,
      Option.some_bind, Option.pure_def]
  · show r + 32716 ≠ 0
    clear * -
    omega
  · show r + 32632 ≠ 0
    clear * -
    omega
  · show r + 32548 ≠ 0
    clear * -
    omega
  · show r + 32512 ≠ 0
    clear * -
    omega
  · show PairwiseDisjoint [(r + 32716, h4.size (header_of (r + 32716))),
      (r + 32632, h4.size (header_of (r + 32632))),
      (r + 32548, h4.size (header_of (r + 32548))),
      (r + 32512, h4.size (header_of (r + 32512)))]
    rw [ha, hb, hc, hd, za, zb, zc, zd]
    clear * -
    simp only [PairwiseDisjoint, List.pairwise_cons, List.mem_cons, List.mem_singleton,
      List.not_mem_nil]
    refine ⟨?_, ?_, ?_, ?_, List.Pairwise.nil⟩
    · intro x hx
      rcases hx with e | e | e | e
      · subst e; right; simp only []; omega
      · subst e; right; simp only []; omega
      · subst e; right; simp only []; omega
      · cases e
    · intro x hx
      rcases hx with e | e | e
      · subst e; right; simp only []; omega
      · subst e; right; simp only []; omega
      · cases e
    · intro x hx
      rcases hx with e | e
      · subst e; right; simp only []; omega
      · cases e
    · intro x hx
      cases hx

theorem main_leaves_used_list_empty_witness :
    (fun _ => 65536 : Nat → Nat) 0 ≠ 0 ∧ (fun _ => 65536 : Nat → Nat) 0 + 32784 < WORD ∧
    ∃ run, main 6 (fun _ => 65536) = some run ∧
      run.a ≠ 0 ∧ run.b ≠ 0 ∧ run.c ≠ 0 ∧ run.d ≠ 0 ∧
      PairwiseDisjoint [(run.a, run.allocated.size (header_of run.a)),
        (run.b, run.allocated.size (header_of run.b)),
        (run.c, run.allocated.size (header_of run.c)),
        (run.d, run.allocated.size (header_of run.d))] ∧
      run.final.usedp = 0 :=
  ⟨by decide, by decide,
    main_leaves_used_list_empty 6 (fun _ => 65536) (by decide) (by decide) (by decide)⟩

/-! ## C4: allocate, release, allocate again -/

theorem memalloc_scan_exact (k : Nat) (h : Heap) (s c : Nat) (hc : c ≠ 0) (hsz : h.size c = s)
    (hs : s + 16 < WORD) (hcw : c + 16 < WORD) :
    memalloc_scan (k + 1) h s 0 c =
      some (some (add_to_used_chunks (setFreep h (h.next c)) c, c + 16)) := by
  have hgt : ¬ h.size c > (s + header_size) % WORD := by
    rw [hsz]
    simp only [header_size, WORD] at *
    omega
  have hmod : (c + header_size) % WORD = c + 16 := by
    simp only [header_size, WORD] at *
    omega
  simp only [memalloc_scan, if_neg hc, if_neg hgt, if_pos hsz, hmod, ne_eq, not_true_eq_false,
    if_false]

theorem normalized_size_region (n : Nat) (h1 : 32764 ≤ n) (h2 : n ≤ 32767) :
    normalized_size n = 32768 := by
  rw [normalized_size_eq]
  simp only [WORD]
  have : ¬ n < 4 := by omega
  simp only [if_neg this]
  omega

/-- A request that takes the whole default region gets it again after its
release. -/
theorem realloc_whole_region (fuel r mm2 mm3 mm4 n : Nat) (hr : r ≠ 0)
    (hr2 : r + 32784 < WORD) (hn1 : 32764 ≤ n) (hn2 : n ≤ 32767) (hfuel : 2 ≤ fuel) :
    ∃ h1 p h2 h3, memalloc fuel init r mm2 n = some (h1, p) ∧ p ≠ 0 ∧
      memfree fuel h1 p = some h2 ∧ memalloc fuel h2 mm3 mm4 n = some (h3, p) := by
  obtain ⟨k, rfl⟩ : ∃ k, fuel = k + 1 := ⟨fuel - 1, by omega⟩
  have hk : 1 ≤ k := by omega
  have hs := normalized_size_region n hn1 hn2
  have hr3 : r + 32784 < 18446744073709551616 := hr2
  have hrw : r + 16 < WORD := by clear * - hr3; simp only [WORD]; omega
  have hsw : 32768 + 16 < WORD := by decide
  have hng : ¬ n > CHUNK_DEFAULT_SIZE := by
    simp only [CHUNK_DEFAULT_SIZE]; clear * - hn2; omega
  -- the first allocation takes the whole region
  have hz0 : (setFreep (create_chunk init r n).1 r).size r = 32768 := by
    rw [size_setFreep, size_create_chunk, if_pos rfl, if_neg hng]
    rfl
  have hx0 : (setFreep (create_chunk init r n).1 r).next r = 0 := by
    simp [next_create_chunk]
  have e1 : memalloc (k + 1) init r mm2 n
      = some (add_to_used_chunks (setFreep (setFreep (create_chunk init r n).1 r) 0) r,
          r + 16) := by
    rw [memalloc_of_null _ _ _ _ _ rfl, hs, memalloc_scan_exact k _ 32768 r hr hz0 hsw hrw, hx0]
  generalize hh1 : add_to_used_chunks (setFreep (setFreep (create_chunk init r n).1 r) 0) r
    = h1 at e1
  have f1 : h1.freep = 0 := by rw [← hh1]; simp [freep_add_to_used_chunks]
  have u1 : h1.usedp = r := by rw [← hh1]; rfl
  have z1 : h1.size r = 32768 := by rw [← hh1, size_add_to_used_chunks]; exact hz0
  have n1 : h1.next r = 0 := by
    rw [← hh1, next_add_to_used_chunks]
    simp [usedp_create_chunk, next_create_chunk]
    rfl
  -- the release puts it alone in the free list
  have W1 : WellFormed h1 [r] [] := by
    refine ⟨⟨u1, hr, ?_⟩, f1, ?_, ?_, ?_⟩
    · rw [n1]; rfl
    · intro a ha; cases ha
    · intro f hf
      simp only [List.mem_singleton] at hf
      subst hf
      exact inSpace_of h1 f 32768 f z1 hr2 (by clear * -; omega)
    · intro f hf; cases hf
  obtain ⟨h2, e2, -, L2, Z2, -, -, -⟩ := memfree_spec h1 r [r] [] (k + 1) W1.1 (by simp) W1.2.1
    (by simp) (by simp) (by
      intro f hf
      simp only [List.mem_singleton] at hf
      subst hf
      exact W1.2.2.2.1 f (by simp)) (by simp only [List.length_cons, List.length_nil]; omega)
  have L2' : IsList h2.next h2.freep [r] := by
    simpa [insert_chunk, insert_after, coalesce_at, absorb] using L2
  have Z2' : h2.size r = 32768 := by
    rw [Z2]
    simp [insert_chunk, insert_after, size_at, absorb, z1]
  have f2 : h2.freep = r := L2'.1
  have hp : header_of (r + 16) = r :=
    header_of_eq _ _ rfl hrw
  refine ⟨h1, r + 16, h2, add_to_used_chunks (setFreep h2 (h2.next r)) r, e1,
    by clear * -; omega, ?_, ?_⟩
  · rw [memfree_eq _ _ _ _ hp, u1] 
    rw [u1] at e2
    exact e2
  · rw [memalloc_of_freep _ _ _ _ _ (by rw [f2]; exact hr), hs, f2,
      memalloc_scan_exact k h2 32768 r hr Z2' hsw hrw]

/-- A small request: after the release the free list is the rest of the
region followed by the released chunk, and the next allocation is carved from
the rest of the region, right below the released chunk. -/
theorem realloc_small (fuel r mm2 mm3 mm4 n s : Nat) (hr : r ≠ 0)
    (hr2 : r + 32784 < WORD) (hs : normalized_size n = s) (hn : n ≤ 32768) (hs0 : 0 < s)
    (hsmall : 2 * (s + 16) < 32768) (hfuel : 3 ≤ fuel) :
    ∃ h1 p h2 h3 q, memalloc fuel init r mm2 n = some (h1, p) ∧ p ≠ 0 ∧
      memfree fuel h1 p = some h2 ∧ memalloc fuel h2 mm3 mm4 n = some (h3, q) ∧
      q + s + 16 = p := by
  obtain ⟨k, rfl⟩ : ∃ k, fuel = k + 1 := ⟨fuel - 1, by omega⟩
  have hk : 2 ≤ k := by omega
  have hr3 : r + 32784 < 18446744073709551616 := hr2
  obtain ⟨h1, e1, f1, u1, z1, c1, n1⟩ := memalloc_first_carve k mm2 n r s (r + 32768 - s)
    (32768 - (s + 16)) hr hs hn hs0 (by clear * - hsmall; omega) (le_of_lt hr2) rfl rfl
  have hAr : r + 32768 - s > r := by clear * - hsmall; omega
  have hA0 : r + 32768 - s ≠ 0 := by clear * - hsmall; omega
  have W1 : WellFormed h1 [r + 32768 - s] [r] := by
    refine ⟨⟨u1, hA0, ?_⟩, ⟨f1, hr, ?_⟩, ?_, ?_, ?_⟩
    · rw [n1]; rfl
    · rw [n1]; rfl
    · intro a ha
      simp only [List.mem_singleton] at ha ⊢
      clear * - ha hsmall
      omega
    · intro f hf
      simp only [List.mem_singleton] at hf
      subst hf
      exact inSpace_of h1 _ s r c1 hr2 (by clear * - hsmall; omega)
    · intro f hf
      simp only [List.mem_singleton] at hf
      subst hf
      exact inSpace_of h1 _ _ f z1 hr2 (by clear * - hsmall; omega)
  obtain ⟨h2, e2, -, L2, -, Z2, -, -⟩ := memfree_spec h1 (r + 32768 - s) [r + 32768 - s] [r]
    (k + 1) W1.1 (by simp) W1.2.1 (by simp only [List.mem_singleton]; clear * - hsmall; omega)
    W1.2.2.1 (by
      intro f hf
      rcases List.mem_cons.mp hf with e | hm
      · exact e ▸ W1.2.2.2.1 _ (by simp)
      · exact W1.2.2.2.2 f hm) (by simp only [List.length_cons, List.length_nil]; omega)
  have hrA : r ≠ r + 32768 - s := by clear * - hsmall; omega
  have L2' : IsList h2.next h2.freep [r, r + 32768 - s] := by
    simpa [insert_chunk, insert_after, coalesce_at, absorb, hAr, hrA] using L2
  have f2 : h2.freep = r := L2'.1
  have z2 : h2.size r = 32768 - (s + 16) := by rw [Z2 r hrA, z1]
  have hp : header_of (r + 32768 - s + 16) = r + 32768 - s :=
    header_of_eq _ _ rfl (by clear * - hr3 hsmall; simp only [WORD]; omega)
  obtain ⟨h3, e3, -⟩ := memalloc_carve k h2 mm3 mm4 n r (32768 - (s + 16)) s
    (r + (32768 - (s + 16)) - s) (32768 - (s + 16) - (s + 16)) f2 hr z2 hs hs0
    (by clear * - hsmall; omega) (by clear * - hr3; simp only [WORD]; omega) rfl rfl
  refine ⟨h1, r + 32768 - s + 16, h2, h3, r + (32768 - (s + 16)) - s + 16, e1,
    by clear * -; omega, ?_, e3, by clear * - hsmall; omega⟩
  rw [memfree_eq _ _ _ _ hp, u1] 
  rw [u1] at e2
  exact e2

/-! ## C5: releasing two adjacent chunks -/

theorem insert_after_none_suffix (x : Nat) :
    ∀ (a b : List Nat), insert_after x (a ++ b) = none → insert_after x b = none := by
  intro a
  induction a with
  | nil => intro b h; exact h
  | cons u a ih =>
    intro b h
    apply ih
    cases hab : a ++ b with
    | nil => rfl
    | cons n rest =>
      rw [List.cons_append, hab] at h
      simp only [insert_after] at h
      split at h
      · cases h
      · cases hh : insert_after x (n :: rest) with
        | none => rfl
        | some v => rw [hh] at h; cases h

theorem absorb_suffix (size : Nat → Nat) (c : Nat) :
    ∀ (rest : List Nat) (csize : Nat), ∃ a, rest = a ++ (absorb size c csize rest).2 := by
  intro rest
  induction rest with
  | nil => intro csize; exact ⟨[], rfl⟩
  | cons n rest ih =>
    intro csize
    simp only [absorb]
    split
    · obtain ⟨a, ha⟩ := ih ((csize + (size n + header_size) % WORD) % WORD)
      exact ⟨n :: a, by rw [List.cons_append, ← ha]⟩
    · exact ⟨[], rfl⟩

/-- Where the second loop stops, the next chunk is not adjacent. -/
theorem absorb_stop (size : Nat → Nat) (c : Nat) :
    ∀ (rest : List Nat) (csize n : Nat) (t : List Nat),
      (absorb size c csize rest).2 = n :: t →
      (c + header_size + (absorb size c csize rest).1) % WORD ≠ n := by
  intro rest
  induction rest with
  | nil => intro csize n t h; simp [absorb] at h
  | cons m rest ih =>
    intro csize n t h
    simp only [absorb] at h ⊢
    split
    · rename_i hadj
      rw [if_pos hadj] at h
      exact ih _ n t h
    · rename_i hadj
      rw [if_neg hadj] at h
      simp only [List.cons.injEq] at h
      rw [← h.1]
      exact hadj

theorem coalesce_at_append (size : Nat → Nat) (c : Nat) :
    ∀ (pre post : List Nat), c ∉ pre →
      coalesce_at size c (pre ++ c :: post) = pre ++ c :: (absorb size c (size c) post).2 ∧
      size_at size c (pre ++ c :: post) = (absorb size c (size c) post).1 := by
  intro pre
  induction pre with
  | nil => intro post _; simp [coalesce_at, size_at]
  | cons u pre ih =>
    intro post hc
    have huc : u ≠ c := fun e => hc (e ▸ List.mem_cons_self _ _)
    obtain ⟨i1, i2⟩ := ih post (fun hm => hc (List.mem_cons_of_mem _ hm))
    constructor
    · show coalesce_at size c (u :: (pre ++ c :: post)) = _
      simp only [coalesce_at, if_neg huc, i1, List.cons_append]
    · show size_at size c (u :: (pre ++ c :: post)) = _
      simp only [size_at, if_neg huc, i2]

/-- The head of the free list, when it has exactly the normalized size and
the used list is empty, keeps its old link: after the program of `main.c` the
free list is `[65536, 98032]`; `memalloc(32476)` (normalized size `32480`, the
size of the head) returns the head's payload, and the used list is then
`[65536, 98032]` while `98032` is still the free list. -/
theorem memalloc_exact_fit_head_keeps_link :
    ∃ run h p, main 6 (fun _ => 65536) = some run ∧
      walk run.final.next 9 run.final.freep = [65536, 98032] ∧ run.final.usedp = 0 ∧
      run.final.size 65536 = 32480 ∧ normalized_size 32476 = 32480 ∧
      memalloc 3 run.final 0 0 32476 = some (h, p) ∧ p = 65536 + header_size ∧
      walk h.next 9 h.usedp = [65536, 98032] ∧ walk h.next 9 h.freep = [98032] :=
  ⟨_, _, _, rfl, by decide, by decide, by decide, by decide, rfl, by decide, by decide,
    by decide⟩

/-! ## C1: runs of `memalloc` -/

theorem walk_of_isList {next : Nat → Nat} :
    ∀ (l : List Nat) (fuel p : Nat), IsList next p l → l.length < fuel → walk next fuel p = l := by
  intro l
  induction l with
  | nil =>
    intro fuel p hl hf
    have : p = 0 := hl
    obtain ⟨k, rfl⟩ : ∃ k, fuel = k + 1 := ⟨fuel - 1, by simp at hf; omega⟩
    simp [walk, this]
  | cons c cs ih =>
    intro fuel p hl hf
    obtain ⟨hp, hc, hcs⟩ := hl
    obtain ⟨k, rfl⟩ : ∃ k, fuel = k + 1 := ⟨fuel - 1, by simp at hf; omega⟩
    subst hp
    simp only [walk, if_neg hc]
    rw [ih k _ hcs (by simp at hf; omega)]

theorem walk_length_le (next : Nat → Nat) : ∀ (fuel p : Nat), (walk next fuel p).length ≤ fuel := by
  intro fuel
  induction fuel with
  | zero => intro p; simp [walk]
  | succ k ih =>
    intro p
    simp only [walk]
    split
    · simp
    · simp only [List.length_cons]
      have := ih (next p)
      omega

/-- A walk that stops before the fuel runs out has reached null. -/
theorem isList_of_walk (next : Nat → Nat) :
    ∀ (fuel p : Nat), (walk next fuel p).length < fuel → IsList next p (walk next fuel p) := by
  intro fuel
  induction fuel with
  | zero => intro p h; simp at h
  | succ k ih =>
    intro p h
    simp only [walk] at h ⊢
    by_cases hp : p = 0
    · simp only [if_pos hp]
      exact hp
    · simp only [if_neg hp] at h ⊢
      exact ⟨rfl, hp, ih (next p) (by simp at h; omega)⟩

/-- The scan loop of `memalloc` stops at the first fit of the free list. -/
theorem memalloc_scan_first_fit (h : Heap) (s : Nat) (hs0 : 0 < s) (hsw : s + 16 < WORD) :
    ∀ (l : List Nat) (fuel prev curr : Nat), IsList h.next curr l → (∀ c ∈ l, InSpace h c) →
      l.length < fuel →
      memalloc_scan fuel h s prev curr =
        match first_fit h.size s l with
        | none => some none
        | some (c, false) =>
          some (some (add_to_used_chunks (split_heap h c s) (c + h.size c - s),
            c + h.size c - s + header_size))
        | some (c, true) =>
          some (some (add_to_used_chunks
            (if (if curr = c then prev else c) ≠ 0 then
              setNext h (if curr = c then prev else c) (h.next c)
            else setFreep h (h.next c)) c, c + header_size)) := by
  intro l
  induction l with
  | nil =>
    intro fuel prev curr hl _ hf
    have h0 : curr = 0 := hl
    obtain ⟨k, rfl⟩ : ∃ k, fuel = k + 1 := ⟨fuel - 1, by simp at hf; omega⟩
    simp [memalloc_scan, h0, first_fit]
  | cons x rest ih =>
    intro fuel prev curr hl hsp hf
    obtain ⟨hp, hx, hrest⟩ := hl
    subst hp
    obtain ⟨k, rfl⟩ : ∃ k, fuel = k + 1 := ⟨fuel - 1, by simp at hf; omega⟩
    have hk : rest.length < k := by simp at hf; omega
    have hspx : InSpace h curr := hsp curr (List.mem_cons_self _ _)
    have hmod : (s + header_size) % WORD = s + header_size := by
      simp only [header_size, WORD] at *
      omega
    by_cases hgt : h.size curr > s + header_size
    · simp only [first_fit, if_pos hgt]
      exact memalloc_scan_split k h s prev curr hx hs0 hgt
        (by unfold InSpace at hspx; omega)
    · by_cases heq : h.size curr = s
      · have hgt' : ¬ h.size curr > (s + header_size) % WORD := by rw [hmod]; exact hgt
        have hpm : (curr + header_size) % WORD = curr + header_size := by
          unfold InSpace at hspx
          simp only [header_size, WORD] at *
          omega
        simp only [first_fit, if_neg hgt, if_pos heq, memalloc_scan, if_neg hx, if_neg hgt',
          hpm, if_true]
      · have hgt' : ¬ h.size curr > (s + header_size) % WORD := by rw [hmod]; exact hgt
        simp only [first_fit, if_neg hgt, if_neg heq, memalloc_scan, if_neg hx, if_neg hgt']
        rw [ih k (h.next curr) (h.next curr) hrest
          (fun c hc => hsp c (List.mem_cons_of_mem _ hc)) hk]
        cases hff : first_fit h.size s rest with
        | none => rfl
        | some r =>
          obtain ⟨c, b⟩ := r
          cases b with
          | false => rfl
          | true =>
            have hcc : ¬ curr = c := by
              intro e
              subst e
              -- the chunk found has size `s`
              have : ∀ (l : List Nat) (c : Nat), first_fit h.size s l = some (c, true) →
                  h.size c = s := by
                intro l
                induction l with
                | nil => intro c hc; simp [first_fit] at hc
                | cons y ys ihy =>
                  intro c hc
                  simp only [first_fit] at hc
                  split at hc
                  · cases hc
                  · split at hc
                    · rename_i hys
                      cases hc
                      exact hys
                    · exact ihy c hc
              exact heq (this rest curr hff)
            simp only [if_neg hcc]
            by_cases hnc : h.next curr = c
            · simp [hnc]
            · simp [hnc]

/-- Splitting a free chunk keeps the invariant: the new chunk is handed out,
the free list is the same list. -/
theorem tiled_split (h : Heap) (live free : List Nat) (c s : Nat) (ht : Tiled h live free)
    (hc : c ∈ free) (hs0 : 0 < s) (hs : s + header_size < h.size c) :
    Tiled (add_to_used_chunks (split_heap h c s) (c + h.size c - s))
        ((c + h.size c - s) :: live) free ∧
      (add_to_used_chunks (split_heap h c s) (c + h.size c - s)).size (c + h.size c - s) = s ∧
      (∀ a ∈ live, (add_to_used_chunks (split_heap h c s) (c + h.size c - s)).size a
        = h.size a) ∧
      (add_to_used_chunks (split_heap h c s) (c + h.size c - s)).freep = h.freep := by
  obtain ⟨hl, hnd, hdisj, hsp, hap⟩ := ht
  have hcL : c ∈ live ++ free := List.mem_append_right _ hc
  have hcsp := (hsp c hcL).2
  unfold InSpace at hcsp
  -- the new chunk lies inside the old one
  have hnew : ∀ a ∈ live ++ free, a ≠ c + h.size c - s := by
    intro a ha e
    by_cases hac : a = c
    · simp only [header_size] at hs; omega
    · have := hap a ha c hcL hac
      unfold Apart at this
      simp only [header_size] at *
      omega
  have hsz : ∀ x, (add_to_used_chunks (split_heap h c s) (c + h.size c - s)).size x
      = if x = c then h.size c - (s + header_size)
        else if x = c + h.size c - s then s else h.size x := by
    intro x
    rw [size_add_to_used_chunks, size_split_heap]
  have hszo : ∀ a ∈ live ++ free, a ≠ c →
      (add_to_used_chunks (split_heap h c s) (c + h.size c - s)).size a = h.size a := by
    intro a ha hac
    rw [hsz, if_neg hac, if_neg (hnew a ha)]
  have hszc : (add_to_used_chunks (split_heap h c s) (c + h.size c - s)).size c
      = h.size c - (s + header_size) := by
    rw [hsz, if_pos rfl]
  have hcn : c + h.size c - s ≠ c := by simp only [header_size] at hs; omega
  have hszn : (add_to_used_chunks (split_heap h c s) (c + h.size c - s)).size
      (c + h.size c - s) = s := by
    rw [hsz, if_neg hcn, if_pos rfl]
  have hnx : ∀ a ∈ live ++ free,
      (add_to_used_chunks (split_heap h c s) (c + h.size c - s)).next a = h.next a := by
    intro a ha
    rw [next_add_to_used_chunks, next_split_heap]
    have := hnew a ha
    simp [this]
  have hfp : (add_to_used_chunks (split_heap h c s) (c + h.size c - s)).freep = h.freep := by
    rw [freep_add_to_used_chunks, freep_split_heap]
  refine ⟨⟨?_, ?_, ?_, ?_, ?_⟩, hszn, ?_, hfp⟩
  · rw [hfp]
    exact IsSeg_congr (fun a ha => hnx a (List.mem_append_right _ ha)) hl
  · refine List.nodup_cons.mpr ⟨?_, hnd⟩
    exact fun hm => hnew _ (List.mem_append_left _ hm) rfl
  · intro a ha
    rcases List.mem_cons.mp ha with e | hm
    · exact fun hf => hnew _ (List.mem_append_right _ hf) e
    · exact hdisj a hm
  · intro x hx
    rw [List.cons_append] at hx
    rcases List.mem_cons.mp hx with e | hm
    · subst e
      refine ⟨by simp only [header_size] at hs; omega, ?_⟩
      unfold InSpace
      rw [hszn]
      simp only [header_size] at *
      omega
    · refine ⟨(hsp x hm).1, ?_⟩
      have := (hsp x hm).2
      unfold InSpace at this ⊢
      by_cases hxc : x = c
      · subst hxc
        rw [hszc]
        omega
      · rw [hszo x hm hxc]
        exact this
  · -- no two chunks overlap
    have hold : ∀ a ∈ live ++ free, a ≠ c →
        Apart (add_to_used_chunks (split_heap h c s) (c + h.size c - s)) a c ∧
        Apart (add_to_used_chunks (split_heap h c s) (c + h.size c - s)) a
          (c + h.size c - s) := by
      intro a ha hac
      have := hap a ha c hcL hac
      unfold Apart at this ⊢
      rw [hszo a ha hac, hszc, hszn]
      simp only [header_size] at *
      constructor <;> omega
    have hsymm : ∀ a b, Apart (add_to_used_chunks (split_heap h c s) (c + h.size c - s)) a b →
        Apart (add_to_used_chunks (split_heap h c s) (c + h.size c - s)) b a :=
      fun a b hab => Or.symm hab
    have hcnew : Apart (add_to_used_chunks (split_heap h c s) (c + h.size c - s)) c
        (c + h.size c - s) := by
      unfold Apart
      rw [hszc]
      simp only [header_size] at *
      omega
    intro a ha b hb hab
    rw [List.cons_append] at ha hb
    rcases List.mem_cons.mp ha with ea | ha' <;> rcases List.mem_cons.mp hb with eb | hb'
    · exact absurd (ea.trans eb.symm) hab
    · subst ea
      by_cases hbc : b = c
      · subst hbc; exact hsymm _ _ hcnew
      · exact hsymm _ _ (hold b hb' hbc).2
    · subst eb
      by_cases hac : a = c
      · subst hac; exact hcnew
      · exact (hold a ha' hac).2
    · by_cases hac : a = c
      · subst hac
        exact hsymm _ _ (hold b hb' (fun e => hab e.symm)).1
      · by_cases hbc : b = c
        · subst hbc
          exact (hold a ha' hac).1
        · have := hap a ha' b hb' hab
          unfold Apart at this ⊢
          rw [hszo a ha' hac, hszo b hb' hbc]
          exact this
  · intro a ha
    have haL : a ∈ live ++ free := List.mem_append_left _ ha
    exact hszo a haL (fun e => hdisj a ha (e ▸ hc))

/-- Taking the head of the free list whole keeps the invariant. -/
theorem tiled_exact_head (h : Heap) (live rest : List Nat) (c : Nat)
    (ht : Tiled h live (c :: rest)) :
    Tiled (add_to_used_chunks (setFreep h (h.next c)) c) (c :: live) rest ∧
      (add_to_used_chunks (setFreep h (h.next c)) c).size = h.size := by
  obtain ⟨hl, hnd, hdisj, hsp, hap⟩ := ht
  have hndf : (c :: rest).Nodup := IsList_nodup hl
  have hcr : c ∉ rest := (List.nodup_cons.mp hndf).1
  have hcl : c ∉ live := fun hm => hdisj c hm (List.mem_cons_self _ _)
  obtain ⟨-, hc0, hrest⟩ := hl
  have hsz : (add_to_used_chunks (setFreep h (h.next c)) c).size = h.size := by
    rw [size_add_to_used_chunks, size_setFreep]
  have hmem : ∀ x, x ∈ (c :: live) ++ rest → x ∈ live ++ c :: rest := by
    intro x hx
    simp only [List.cons_append, List.mem_cons, List.mem_append] at hx ⊢
    tauto
  refine ⟨⟨?_, ?_, ?_, ?_, ?_⟩, hsz⟩
  · have hfp : (add_to_used_chunks (setFreep h (h.next c)) c).freep = h.next c := by
      rw [freep_add_to_used_chunks, freep_setFreep]
    show IsSeg _ _ 0 rest
    rw [hfp]
    refine IsSeg_congr ?_ hrest
    intro a ha
    have hac : a ≠ c := fun e => hcr (e ▸ ha)
    rw [next_add_to_used_chunks]
    simp [hac]
  · exact List.nodup_cons.mpr ⟨hcl, hnd⟩
  · intro a ha
    rcases List.mem_cons.mp ha with e | hm
    · exact e ▸ hcr
    · exact fun hf => hdisj a hm (List.mem_cons_of_mem _ hf)
  · intro x hx
    have := hsp x (hmem x hx)
    unfold InSpace at this ⊢
    rw [hsz]
    exact this
  · intro a ha b hb hab
    have := hap a (hmem a ha) b (hmem b hb) hab
    unfold Apart at this ⊢
    rw [hsz]
    exact this

/-- What `create_chunk` leaves of a heap outside the fresh region. -/
theorem create_chunk_frame (h : Heap) (chunks : List Nat) (mm n : Nat)
    (hfresh : Fresh h chunks mm (region_size n)) :
    (create_chunk h mm n).1.size mm = region_size n ∧
      (create_chunk h mm n).1.next mm = 0 ∧
      (∀ c ∈ chunks, (create_chunk h mm n).1.size c = h.size c ∧
        (create_chunk h mm n).1.next c = h.next c ∧ c ≠ mm) := by
  obtain ⟨h0, hw, hfar⟩ := hfresh
  have hlen : (header_size + region_size n) % WORD = header_size + region_size n := by
    apply Nat.mod_eq_of_lt
    simp only [header_size] at *
    omega
  refine ⟨?_, ?_, ?_⟩
  · rw [size_create_chunk, if_pos rfl]
    rfl
  · rw [next_create_chunk, if_pos rfl]
  · intro c hc
    have := hfar c hc
    have hcm : c ≠ mm := by simp only [header_size] at this; omega
    have hout : ¬ (mm ≤ c ∧ c < mm + (header_size + region_size n) % WORD) := by
      rw [hlen]
      simp only [header_size] at *
      omega
    have hrs : (if n > CHUNK_DEFAULT_SIZE then n else CHUNK_DEFAULT_SIZE) = region_size n := rfl
    refine ⟨?_, ?_, hcm⟩
    · rw [size_create_chunk, if_neg hcm, hrs, if_neg hout]
    · rw [next_create_chunk, if_neg hcm, hrs, if_neg hout]

/-- A heap that agrees with a tiled one on its chunks, with one fresh chunk
more at the head of the free list, is tiled. -/
theorem tiled_link (h h2 : Heap) (live free : List Nat) (mm size : Nat)
    (ht : Tiled h live free) (hfresh : Fresh h (live ++ free) mm size)
    (hsz : h2.size mm = size) (hnx : h2.next mm = h.freep) (hfp : h2.freep = mm)
    (hagree : ∀ c ∈ live ++ free, h2.size c = h.size c ∧ h2.next c = h.next c ∧ c ≠ mm) :
    Tiled h2 live (mm :: free) := by
  obtain ⟨hl, hnd, hdisj, hsp, hap⟩ := ht
  obtain ⟨h0, hw, hfar⟩ := hfresh
  have hmem : ∀ x, x ∈ live ++ mm :: free → x = mm ∨ x ∈ live ++ free := by
    intro x hx
    simp only [List.mem_cons, List.mem_append] at hx ⊢
    tauto
  refine ⟨?_, hnd, ?_, ?_, ?_⟩
  · refine ⟨hfp, h0, ?_⟩
    rw [hnx]
    exact IsSeg_congr (fun a ha => (hagree a (List.mem_append_right _ ha)).2.1) hl
  · intro a ha hf
    rcases List.mem_cons.mp hf with e | hm
    · exact (hagree a (List.mem_append_left _ ha)).2.2 e
    · exact hdisj a ha hm
  · intro x hx
    rcases hmem x hx with e | hm
    · subst e
      refine ⟨h0, ?_⟩
      unfold InSpace
      rw [hsz]
      exact hw
    · refine ⟨(hsp x hm).1, ?_⟩
      have := (hsp x hm).2
      unfold InSpace at this ⊢
      rw [(hagree x hm).1]
      exact this
  · intro a ha b hb hab
    unfold Apart
    rcases hmem a ha with ea | ha' <;> rcases hmem b hb with eb | hb'
    · exact absurd (ea.trans eb.symm) hab
    · subst ea
      rw [hsz, (hagree b hb').1]
      exact (hfar b hb').symm
    · subst eb
      rw [hsz, (hagree a ha').1]
      exact hfar a ha'
    · rw [(hagree a ha').1, (hagree b hb').1]
      exact hap a ha' b hb' hab

/-- A heap that agrees with a tiled one on its chunks, with one fresh chunk
more among the chunks handed out, is tiled. -/
theorem tiled_whole (h h2 : Heap) (live free : List Nat) (mm size : Nat)
    (ht : Tiled h live free) (hfresh : Fresh h (live ++ free) mm size)
    (hsz : h2.size mm = size) (hfp : h2.freep = h.freep)
    (hagree : ∀ c ∈ live ++ free, h2.size c = h.size c ∧ h2.next c = h.next c ∧ c ≠ mm) :
    Tiled h2 (mm :: live) free := by
  obtain ⟨hl, hnd, hdisj, hsp, hap⟩ := ht
  obtain ⟨h0, hw, hfar⟩ := hfresh
  have hmem : ∀ x, x ∈ (mm :: live) ++ free → x = mm ∨ x ∈ live ++ free := by
    intro x hx
    simp only [List.cons_append, List.mem_cons, List.mem_append] at hx ⊢
    tauto
  refine ⟨?_, ?_, ?_, ?_, ?_⟩
  · show IsSeg _ _ 0 free
    rw [hfp]
    exact IsSeg_congr (fun a ha => (hagree a (List.mem_append_right _ ha)).2.1) hl
  · refine List.nodup_cons.mpr ⟨?_, hnd⟩
    exact fun hm => (hagree mm (List.mem_append_left _ hm)).2.2 rfl
  · intro a ha hf
    rcases List.mem_cons.mp ha with e | hm
    · exact (hagree a (List.mem_append_right _ hf)).2.2 e
    · exact hdisj a hm hf
  · intro x hx
    rcases hmem x hx with e | hm
    · subst e
      refine ⟨h0, ?_⟩
      unfold InSpace
      rw [hsz]
      exact hw
    · refine ⟨(hsp x hm).1, ?_⟩
      have := (hsp x hm).2
      unfold InSpace at this ⊢
      rw [(hagree x hm).1]
      exact this
  · intro a ha b hb hab
    unfold Apart
    rcases hmem a ha with ea | ha' <;> rcases hmem b hb with eb | hb'
    · exact absurd (ea.trans eb.symm) hab
    · subst ea
      rw [hsz, (hagree b hb').1]
      exact (hfar b hb').symm
    · subst eb
      rw [hsz, (hagree a ha').1]
      exact hfar a ha'
    · rw [(hagree a ha').1, (hagree b hb').1]
      exact hap a ha' b hb' hab

theorem first_fit_some (size : Nat → Nat) (s : Nat) :
    ∀ (l : List Nat) (c : Nat) (b : Bool), first_fit size s l = some (c, b) →
      c ∈ l ∧ (b = false → size c > s + header_size) ∧ (b = true → size c = s) := by
  intro l
  induction l with
  | nil => intro c b h; simp [first_fit] at h
  | cons x rest ih =>
    intro c b h
    simp only [first_fit] at h
    split at h
    · rename_i hgt
      cases h
      exact ⟨List.mem_cons_self _ _, fun _ => hgt, fun e => Bool.noConfusion e⟩
    · split at h
      · rename_i heq
        cases h
        exact ⟨List.mem_cons_self _ _, fun e => Bool.noConfusion e, fun _ => heq⟩
      · obtain ⟨i1, i2, i3⟩ := ih c b h
        exact ⟨List.mem_cons_of_mem _ i1, i2, i3⟩

/-- The part of `memalloc` from the scan on, in a tiled heap whose free list
is not empty. -/
theorem scan_grow_tiled (fuel : Nat) (h0 : Heap) (live free0 : List Nat) (mm2 s : Nat)
    (h' : Heap) (p : Nat) (ht : Tiled h0 live free0) (hs0 : 0 < s) (hsw : s + 16 < WORD)
    (hfuel : free0.length < fuel) (hf2 : Fresh h0 (live ++ free0) mm2 (region_size s))
    (hex : ExactFitAtHead h0 s free0)
    (hr : (match memalloc_scan fuel h0 s 0 h0.freep with
      | none => none
      | some (some r) => some r
      | some none => some (memalloc_grow h0 mm2 s)) = some (h', p)) (hp : p ≠ 0) :
    ∃ c free', p = c + header_size ∧ Tiled h' (c :: live) free' ∧ h'.size c = s ∧
      (∀ a ∈ live, h'.size a = h0.size a) ∧ free'.length ≤ free0.length + 1 := by
  have hsp : ∀ c ∈ free0, InSpace h0 c := fun c hc => (ht.2.2.2.1 c (List.mem_append_right _ hc)).2
  rw [memalloc_scan_first_fit h0 s hs0 hsw free0 fuel 0 h0.freep ht.1 hsp hfuel] at hr
  cases hff : first_fit h0.size s free0 with
  | none =>
    rw [hff] at hr
    simp only [Option.some.injEq] at hr
    obtain ⟨m0, mw, mfar⟩ := hf2
    obtain ⟨c1, c2, c3⟩ := create_chunk_frame h0 (live ++ free0) mm2 s ⟨m0, mw, mfar⟩
    have hmm : (create_chunk h0 mm2 s).2 = mm2 := rfl
    have hpm : (mm2 + header_size) % WORD = mm2 + header_size := by
      apply Nat.mod_eq_of_lt
      simp only [header_size] at *
      omega
    unfold memalloc_grow at hr
    simp only [hmm, ne_eq, m0, not_false_eq_true, if_true, c1, hpm] at hr
    by_cases hwhole : region_size s = s
    · -- the new region is handed out whole
      rw [if_pos hwhole] at hr
      have e1 := congrArg Prod.fst hr
      have e2 := congrArg Prod.snd hr
      simp only at e1 e2
      subst e1
      refine ⟨mm2, free0, e2.symm, ?_, ?_, ?_, by omega⟩
      · refine tiled_whole h0 _ live free0 mm2 (region_size s) ht ⟨m0, mw, mfar⟩ ?_ ?_ ?_
        · rw [size_add_to_used_chunks]; exact c1
        · rw [freep_add_to_used_chunks]; rfl
        · intro c hc
          obtain ⟨d1, d2, d3⟩ := c3 c hc
          refine ⟨by rw [size_add_to_used_chunks]; exact d1, ?_, d3⟩
          rw [next_add_to_used_chunks]
          simp [d3, d2]
      · rw [size_add_to_used_chunks, c1]; exact hwhole
      · intro a ha
        rw [size_add_to_used_chunks]
        exact (c3 a (List.mem_append_left _ ha)).1
    · -- the new region is linked in and split
      rw [if_neg hwhole] at hr
      have hrs : region_size s = CHUNK_DEFAULT_SIZE := by
        unfold region_size at hwhole ⊢
        split
        · rename_i hgt
          rw [if_pos hgt] at hwhole
          exact absurd rfl hwhole
        · rfl
      have ht3 : Tiled (setFreep (setNext (create_chunk h0 mm2 s).1 mm2
          (create_chunk h0 mm2 s).1.freep) mm2) live (mm2 :: free0) := by
        refine tiled_link h0 _ live free0 mm2 (region_size s) ht ⟨m0, mw, mfar⟩ ?_ ?_ rfl ?_
        · simpa using c1
        · simp [freep_create_chunk]
        · intro c hc
          obtain ⟨d1, d2, d3⟩ := c3 c hc
          refine ⟨by simpa using d1, ?_, d3⟩
          simp [d3, d2]
      have hsz3 : (setFreep (setNext (create_chunk h0 mm2 s).1 mm2
          (create_chunk h0 mm2 s).1.freep) mm2).size mm2 = region_size s := by
        simpa using c1
      by_cases hfit : s + header_size < region_size s
      · have hsplit := split_chunk_eq (setFreep (setNext (create_chunk h0 mm2 s).1 mm2
          (create_chunk h0 mm2 s).1.freep) mm2) mm2 s m0 (by rw [hsz3]; exact hfit)
          (by rw [hsz3]; simp only [header_size] at mw; omega)
        rw [hsplit] at hr
        simp only [hsz3] at hr
        have hne : ¬ (mm2 + region_size s - s = 0) := by omega
        have hpm2 : (mm2 + region_size s - s + header_size) % WORD
            = mm2 + region_size s - s + header_size := by
          apply Nat.mod_eq_of_lt
          simp only [header_size] at *
          omega
        rw [if_neg hne, hpm2] at hr
        have e1 := congrArg Prod.fst hr
        have e2 := congrArg Prod.snd hr
        simp only at e1 e2
        obtain ⟨t1, t2, t3, -⟩ := tiled_split _ live (mm2 :: free0) mm2 s ht3
          (List.mem_cons_self _ _) hs0 (by rw [hsz3]; exact hfit)
        rw [hsz3] at t1 t2 t3
        rw [e1] at t1 t2 t3
        refine ⟨mm2 + region_size s - s, mm2 :: free0, e2.symm, t1, t2, ?_, by simp⟩
        intro a ha
        rw [t3 a ha]
        simpa using (c3 a (List.mem_append_left _ ha)).1
      · -- the split fails and `memalloc` returns null
        have hfail : mm2 = 0 ∨ (header_size + s) % WORD ≥ region_size s := by
          right
          have : (header_size + s) % WORD = s + header_size := by
            simp only [header_size, WORD] at *
            omega
          rw [this]
          omega
        simp only [split_chunk, hsz3, if_pos hfail, if_true] at hr
        have e2 := congrArg Prod.snd hr
        simp only at e2
        exact absurd e2.symm hp
  | some r =>
    obtain ⟨c, b⟩ := r
    rw [hff] at hr
    obtain ⟨hcm, hb1, hb2⟩ := first_fit_some h0.size s free0 c b hff
    have hcsp : InSpace h0 c := hsp c hcm
    cases b with
    | false =>
      simp only [Option.some.injEq] at hr
      have e1 := congrArg Prod.fst hr
      have e2 := congrArg Prod.snd hr
      simp only at e1 e2
      obtain ⟨t1, t2, t3, -⟩ := tiled_split h0 live free0 c s ht hcm hs0 (hb1 rfl)
      rw [e1] at t1 t2 t3
      exact ⟨c + h0.size c - s, free0, e2.symm, t1, t2, t3, by omega⟩
    | true =>
      have hfc : h0.freep = c := by
        unfold ExactFitAtHead at hex
        rw [hff] at hex
        exact hex
      have hc0 : c ≠ 0 := (ht.2.2.2.1 c (List.mem_append_right _ hcm)).1
      obtain ⟨rest, hrest, -⟩ := IsList_head ht.1 (by rw [hfc]; exact hc0)
      rw [hfc] at hrest
      simp only [hfc, if_true, ne_eq, not_true_eq_false, if_false, Option.some.injEq] at hr
      have e1 := congrArg Prod.fst hr
      have e2 := congrArg Prod.snd hr
      simp only at e1 e2
      rw [hrest] at ht
      obtain ⟨t1, t2⟩ := tiled_exact_head h0 live rest c ht
      rw [e1] at t1 t2
      refine ⟨c, rest, e2.symm, t1, ?_, ?_, by rw [hrest, List.length_cons]; omega⟩
      · rw [t2]; exact hb2 rfl
      · intro a _
        rw [t2]

/-- One call of `memalloc` in a tiled heap: the chunk handed out is a new
live chunk of the normalized size, and the heap stays tiled. -/
theorem memalloc_tiled (fuel : Nat) (h : Heap) (live free : List Nat) (mm1 mm2 n : Nat)
    (h' : Heap) (p : Nat) (ht : Tiled h live free) (hn : n + 20 < WORD)
    (hfuel : free.length + 1 < fuel)
    (hf1 : Fresh h (live ++ free) mm1 (region_size n))
    (hf2 : Fresh h (live ++ free) mm2 (region_size (normalized_size n)))
    (h12 : mm1 + header_size + region_size n ≤ mm2 ∨
      mm2 + header_size + region_size (normalized_size n) ≤ mm1)
    (hex : ExactFitAtHead h (normalized_size n) free)
    (hr : memalloc fuel h mm1 mm2 n = some (h', p)) (hp : p ≠ 0) :
    ∃ c free', p = c + header_size ∧ Tiled h' (c :: live) free' ∧
      h'.size c = normalized_size n ∧ (∀ a ∈ live, h'.size a = h.size a) := by
  obtain ⟨-, -, hs8, hsw⟩ := normalized_size_bounds n hn
  by_cases hfp : h.freep = 0
  · have hnil : free = [] := by
      have hl := ht.1
      rw [hfp] at hl
      exact IsList_zero hl
    subst hnil
    rw [memalloc_of_null fuel h mm1 mm2 n hfp] at hr
    obtain ⟨c1, c2, c3⟩ := create_chunk_frame h (live ++ []) mm1 n hf1
    have ht0 : Tiled (setFreep (create_chunk h mm1 n).1 mm1) live [mm1] := by
      refine tiled_link h _ live [] mm1 (region_size n) ht hf1 ?_ ?_ rfl ?_
      · simpa using c1
      · simpa [hfp] using c2
      · intro c hc
        obtain ⟨d1, d2, d3⟩ := c3 c hc
        exact ⟨by simpa using d1, by simpa using d2, d3⟩
    have hf0 : Fresh (setFreep (create_chunk h mm1 n).1 mm1) (live ++ [mm1]) mm2
        (region_size (normalized_size n)) := by
      obtain ⟨m0, mw, mfar⟩ := hf2
      refine ⟨m0, mw, ?_⟩
      intro c hc
      rcases List.mem_append.mp hc with hc | hc
      · have := mfar c (List.mem_append_left _ hc)
        rw [size_setFreep, (c3 c (List.mem_append_left _ hc)).1]
        exact this
      · rw [List.mem_singleton] at hc
        subst hc
        rw [size_setFreep, c1]
        rcases h12 with h12 | h12
        · left; exact h12
        · right; exact h12
    have hex0 : ExactFitAtHead (setFreep (create_chunk h mm1 n).1 mm1) (normalized_size n)
        [mm1] := by
      unfold ExactFitAtHead
      split
      · rename_i c heq
        obtain ⟨hm, -, -⟩ := first_fit_some _ _ _ _ _ heq
        rw [List.mem_singleton] at hm
        rw [hm]
        rfl
      · trivial
    obtain ⟨c, free', e1, e2, e3, e4, -⟩ := scan_grow_tiled fuel _ live [mm1] mm2
      (normalized_size n) h' p ht0 (by omega) hsw (by simp only [List.length_singleton]; omega)
      hf0 hex0 hr hp
    refine ⟨c, free', e1, e2, e3, ?_⟩
    intro a ha
    rw [e4 a ha, size_setFreep]
    exact (c3 a (List.mem_append_left _ ha)).1
  · rw [memalloc_of_freep fuel h mm1 mm2 n hfp] at hr
    obtain ⟨c, free', e1, e2, e3, e4, -⟩ := scan_grow_tiled fuel h live free mm2
      (normalized_size n) h' p ht (by omega) hsw (by omega) hf2 hex hr hp
    exact ⟨c, free', e1, e2, e3, e4⟩

/-- The payload ranges of the live chunks of a tiled heap are pairwise
disjoint. -/
theorem tiled_pairwise (h : Heap) (ps free : List Nat)
    (ht : Tiled h (ps.map header_of) free)
    (hps : ∀ p ∈ ps, p = header_of p + header_size) :
    PairwiseDisjoint (ps.map (fun p => (p, h.size (header_of p)))) := by
  unfold PairwiseDisjoint
  rw [List.pairwise_map]
  have hnd := ht.2.1
  unfold List.Nodup at hnd
  rw [List.pairwise_map] at hnd
  refine hnd.imp_of_mem ?_
  intro a b ha hb hab
  have hma : header_of a ∈ ps.map header_of ++ free :=
    List.mem_append_left _ (List.mem_map_of_mem _ ha)
  have hmb : header_of b ∈ ps.map header_of ++ free :=
    List.mem_append_left _ (List.mem_map_of_mem _ hb)
  have hap := ht.2.2.2.2 _ hma _ hmb hab
  have ea := hps a ha
  have eb := hps b hb
  unfold Apart at hap
  simp only
  generalize header_of a = ca at *
  generalize header_of b = cb at *
  clear * - hap ea eb
  omega

/-- A run of `memalloc` calls from a tiled heap ends, and ends in a tiled
heap. -/
theorem alloc_seq_tiled (fuel : Nat) :
    ∀ (reqs : List (Nat × Nat × Nat)) (h : Heap) (ps free : List Nat),
      Tiled h (ps.map header_of) free → (∀ p ∈ ps, p = header_of p + header_size) →
      RunOk fuel h ps reqs →
      ∃ hf psf freef, alloc_seq fuel h ps reqs = some (hf, psf) ∧
        Tiled hf (psf.map header_of) freef ∧
        (∀ p ∈ psf, p = header_of p + header_size) ∧
        psf.length = ps.length + reqs.length := by
  intro reqs
  induction reqs with
  | nil =>
    intro h ps free ht hps _
    exact ⟨h, ps, free, rfl, ht, hps, rfl⟩
  | cons r rest ih =>
    intro h ps free ht hps hok
    obtain ⟨mm1, mm2, n⟩ := r
    simp only [RunOk] at hok
    obtain ⟨⟨hn, hfuel, hf1, hf2, h12, hex⟩, hm⟩ := hok
    have hw : walk h.next fuel h.freep = free :=
      IsList_unique (isList_of_walk h.next fuel h.freep (by omega)) ht.1
    rw [hw] at hfuel hf1 hf2 hex
    cases hmem : memalloc fuel h mm1 mm2 n with
    | none =>
      rw [hmem] at hm
      exact hm.elim
    | some r1 =>
      obtain ⟨h1, p⟩ := r1
      rw [hmem] at hm
      simp only at hm
      obtain ⟨hp, hrest⟩ := hm
      obtain ⟨c, free', e1, e2, e3, -⟩ := memalloc_tiled fuel h (ps.map header_of) free
        mm1 mm2 n h1 p ht hn hfuel hf1 hf2 h12 hex hmem hp
      have hcs : InSpace h1 c := (e2.2.2.2.1 c (by simp)).2
      have hhc : header_of p = c := by
        rw [e1]
        apply header_of_add
        unfold InSpace at hcs
        omega
      have ht1 : Tiled h1 ((p :: ps).map header_of) free' := by
        rw [List.map_cons, hhc]
        exact e2
      have hps1 : ∀ q ∈ p :: ps, q = header_of q + header_size := by
        intro q hq
        rcases List.mem_cons.mp hq with rfl | hq
        · rw [hhc]; exact e1
        · exact hps q hq
      obtain ⟨hf, psf, freef, r1, r2, r3, r4⟩ := ih h1 (p :: ps) free' ht1 hps1 hrest
      refine ⟨hf, psf, freef, ?_, r2, r3, ?_⟩
      · simp only [alloc_seq, hmem]
        exact r1
      · rw [r4]
        simp only [List.length_cons]
        omega

theorem tiled_init : Tiled init [] [] := by
  refine ⟨rfl, List.nodup_nil, ?_, ?_, ?_⟩ <;> simp

/-- C1 (amended): from the initial state, a run of `memalloc` calls without
`memfree`, in which every request `n` has `n + 20 < 2^64`, every call returns
non-null, the regions `mmap` answers are fresh (non-null, below `2^64`,
disjoint from every chunk so far and from each other) and no call is served
by an exact-size chunk behind the head of the free list, ends with one
pointer per call, and the ranges `[p, p + size of the chunk at p - header_size)`
of the pointers returned are pairwise disjoint. -/
theorem memalloc_run_ranges_disjoint (fuel : Nat) (reqs : List (Nat × Nat × Nat))
    (hok : RunOk fuel init [] reqs) :
    ∃ hf ps, alloc_seq fuel init [] reqs = some (hf, ps) ∧ ps.length = reqs.length ∧
      PairwiseDisjoint (ps.map (fun p => (p, hf.size (header_of p)))) := by
  obtain ⟨hf, ps, freef, r1, r2, r3, r4⟩ :=
    alloc_seq_tiled fuel reqs init [] [] tiled_init (by simp) hok
  exact ⟨hf, ps, r1, by simpa using r4, tiled_pairwise hf ps freef r2 r3⟩

theorem memalloc_run_ranges_disjoint_witness :
    RunOk 8 init [] [(65536, 200000, 64), (300000, 400000, 64), (500000, 600000, 40000)] ∧
      ∃ hf ps, alloc_seq 8 init []
          [(65536, 200000, 64), (300000, 400000, 64), (500000, 600000, 40000)] = some (hf, ps) ∧
        ps.length = [(65536, 200000, 64), (300000, 400000, 64), (500000, 600000, 40000)].length ∧
        PairwiseDisjoint (ps.map (fun p => (p, hf.size (header_of p)))) :=
  ⟨by decide, memalloc_run_ranges_disjoint 8 _ (by decide)⟩

/-- C1 (counterexample): from the initial state, with one region mapped at
`65536`, the calls `memalloc(64)` and `memalloc(2^64 - 20)` both return the
non-null address `98252`; no `memfree` is called and a single region was
reserved. The sum `size + header_size` wraps to `0` for the normalized size
`2^64 - 16`, so the second chunk is placed on the header of the first and the
two returned ranges are not disjoint. -/
theorem memalloc_wrapped_request_returns_live_address :
    ∃ h1 a h2 b,
      memalloc 2 init 65536 0 64 = some (h1, a) ∧
      memalloc 2 h1 0 0 18446744073709551596 = some (h2, b) ∧
      a ≠ 0 ∧ b ≠ 0 ∧ a = 98252 ∧ b = 98252 ∧
      h2.size (header_of a) = 18446744073709551600 ∧
      ¬ PairwiseDisjoint ([b, a].map (fun p => (p, h2.size (header_of p)))) :=
  ⟨_, _, _, _, rfl, rfl, by decide, by decide, rfl, rfl, by decide,
    by unfold PairwiseDisjoint; decide⟩

/-! ## C11, C18, C19: `split_chunk` -/

/-- C11: for a non-null chunk `c` that lies in the address space and a size
`s` with `header_size + s < c.size`, `split_chunk(c, s)` returns the chunk at
`c + c.size - s`, of size `s`, and takes `header_size + s` off the size of `c`:
the payload of the shrunken `c` ends at the header of the new chunk, the
payload of the new chunk ends where the payload of `c` ended, and the links,
`freep`, `usedp` and the sizes of the other chunks are unchanged. -/
theorem split_chunk_tiles (h : Heap) (c s : Nat) (hc : c ≠ 0)
    (hs : header_size + s < h.size c) (hsp : c + header_size + h.size c ≤ WORD) :
    ∃ h' r, split_chunk h c s = (h', r) ∧ r = c + h.size c - s ∧ r ≠ 0 ∧
      h'.size r = s ∧ h'.size c + (header_size + s) = h.size c ∧
      c + header_size + h'.size c = r ∧
      r + header_size + h'.size r = c + header_size + h.size c ∧
      h'.next = h.next ∧ h'.freep = h.freep ∧ h'.usedp = h.usedp ∧
      (∀ a, a ≠ c → a ≠ r → h'.size a = h.size a) := by
  have hs' : s + header_size < h.size c := by omega
  have hlt : c + h.size c < WORD := by
    simp only [header_size] at hsp
    omega
  have hne : c + h.size c - s ≠ c := by
    simp only [header_size] at hs
    omega
  refine ⟨split_heap h c s, c + h.size c - s, split_chunk_eq h c s hc hs' hlt, rfl, ?_, ?_, ?_,
    ?_, ?_, rfl, rfl, rfl, ?_⟩
  · omega
  · rw [size_split_heap, if_neg hne, if_pos rfl]
  · rw [size_split_heap, if_pos rfl]
    omega
  · rw [size_split_heap, if_pos rfl]
    simp only [header_size] at *
    omega
  · rw [size_split_heap, if_neg hne, if_pos rfl]
    simp only [header_size] at *
    omega
  · intro a ha har
    rw [size_split_heap, if_neg ha, if_neg har]

theorem split_chunk_tiles_witness :
    ∃ h' r, split_chunk (setSize init 65536 32768) 65536 68 = (h', r) ∧
      r = 65536 + (setSize init 65536 32768).size 65536 - 68 ∧ r ≠ 0 ∧
      h'.size r = 68 ∧ h'.size 65536 + (header_size + 68) = (setSize init 65536 32768).size 65536 ∧
      65536 + header_size + h'.size 65536 = r ∧
      r + header_size + h'.size r = 65536 + header_size + (setSize init 65536 32768).size 65536 ∧
      h'.next = (setSize init 65536 32768).next ∧ h'.freep = (setSize init 65536 32768).freep ∧
      h'.usedp = (setSize init 65536 32768).usedp ∧
      (∀ a, a ≠ 65536 → a ≠ r → h'.size a = (setSize init 65536 32768).size a) :=
  split_chunk_tiles (setSize init 65536 32768) 65536 68 (by decide) (by decide) (by decide)

/-- The function `split_chunk` answers null exactly when its guard fires, for
a chunk that is null or lies in the address space. -/
theorem split_chunk_snd_eq_zero (h : Heap) (c s : Nat) (hsp : c ≠ 0 → InSpace h c) :
    (split_chunk h c s).2 = 0 ↔ c = 0 ∨ (header_size + s) % WORD ≥ h.size c := by
  by_cases hg : c = 0 ∨ (header_size + s) % WORD ≥ h.size c
  · simp only [split_chunk, if_pos hg, true_iff]
    exact hg
  · simp only [split_chunk, if_neg hg, iff_false]
    have hc : c ≠ 0 := fun e => hg (Or.inl e)
    have hin := hsp hc
    have hlt : (header_size + s) % WORD < h.size c := by omega
    unfold InSpace at hin
    simp only [header_size, WORD] at *
    clear hg hsp
    omega

/-- C18 (amended): for a chunk `c` that is null or lies in the address space,
`split_chunk(c, s)` returns null exactly when `c` is null or the sum
`header_size + s` computed in `memsize_t` (modulo `2^64`) is not below
`c.size`; when `s + header_size < 2^64` that is the true sum. When it returns
null the heap is unchanged. -/
theorem split_chunk_null_iff (h : Heap) (c s : Nat) (hsp : c ≠ 0 → InSpace h c) :
    ((split_chunk h c s).2 = 0 ↔ c = 0 ∨ (header_size + s) % WORD ≥ h.size c) ∧
      (s + header_size < WORD →
        ((split_chunk h c s).2 = 0 ↔ c = 0 ∨ ¬ (header_size + s < h.size c))) ∧
      ((split_chunk h c s).2 = 0 → (split_chunk h c s).1 = h) := by
  have key := split_chunk_snd_eq_zero h c s hsp
  refine ⟨key, ?_, ?_⟩
  · intro hsw
    rw [key, Nat.mod_eq_of_lt (by omega)]
    constructor
    · rintro (e | e)
      · exact Or.inl e
      · exact Or.inr (by omega)
    · rintro (e | e)
      · exact Or.inl e
      · exact Or.inr (by omega)
  · intro h0
    have hg := key.mp h0
    simp only [split_chunk, if_pos hg]

theorem split_chunk_null_iff_witness :
    ((split_chunk one_alloc.1 65536 40000).2 = 0 ↔
        65536 = 0 ∨ (header_size + 40000) % WORD ≥ one_alloc.1.size 65536) ∧
      (40000 + header_size < WORD →
        ((split_chunk one_alloc.1 65536 40000).2 = 0 ↔
          65536 = 0 ∨ ¬ (header_size + 40000 < one_alloc.1.size 65536))) ∧
      ((split_chunk one_alloc.1 65536 40000).2 = 0 →
        (split_chunk one_alloc.1 65536 40000).1 = one_alloc.1) :=
  split_chunk_null_iff one_alloc.1 65536 40000 (fun _ => by decide)

/-- C18 (counterexample): in the state after `memalloc(64)`, the free chunk
`65536` has size `32684`; for `s = 2^64 - 16` the true sum `header_size + s` is
`2^64`, not below `32684`, and yet `split_chunk(65536, s)` returns the non-null
address `98236`: the sum wraps to `0`. -/
theorem split_chunk_wrapped_sum_succeeds :
    one_alloc.1.size 65536 = 32684 ∧
      ¬ (header_size + 18446744073709551600 < one_alloc.1.size 65536) ∧
      (split_chunk one_alloc.1 65536 18446744073709551600).2 = 98236 ∧
      (split_chunk one_alloc.1 65536 18446744073709551600).2 ≠ 0 :=
  ⟨by decide, by decide, by decide, by decide⟩

/-- C19: a non-null chunk `c` that lies in the address space and passes the
search filter of `memalloc`, `c.size > s + header_size` computed modulo `2^64`
(for every size `s`, normalized or not),
is split by `split_chunk(c, s)`: the result is not null, and the scan loop
returns at this chunk without taking the `continue` branch. -/
theorem scan_filter_implies_split (h : Heap) (c s prev k : Nat) (hc : c ≠ 0)
    (hsp : InSpace h c) (hfilter : h.size c > (s + header_size) % WORD) :
    (split_chunk h c s).2 ≠ 0 ∧
      memalloc_scan (k + 1) h s prev c =
        some (some (add_to_used_chunks (split_chunk h c s).1 (split_chunk h c s).2,
          ((split_chunk h c s).2 + header_size) % WORD)) := by
  have hne : (split_chunk h c s).2 ≠ 0 := by
    intro h0
    have := (split_chunk_snd_eq_zero h c s (fun _ => hsp)).mp h0
    rw [Nat.add_comm] at this
    omega
  refine ⟨hne, ?_⟩
  simp only [memalloc_scan, if_neg hc, if_pos hfilter, if_neg hne]

theorem scan_filter_implies_split_witness :
    (split_chunk one_alloc.1 65536 68).2 ≠ 0 ∧
      memalloc_scan (1 + 1) one_alloc.1 68 0 65536 =
        some (some (add_to_used_chunks (split_chunk one_alloc.1 65536 68).1
          (split_chunk one_alloc.1 65536 68).2,
          ((split_chunk one_alloc.1 65536 68).2 + header_size) % WORD)) :=
  scan_filter_implies_split one_alloc.1 65536 68 0 1 (by decide) (by decide) (by decide)

/-! ## C16 and C17: `add_to_free_chunks` on an address-ordered list -/

/-- What the second loop absorbs: the successors absorbed are a prefix of the
list, each starts where the chunk ended so far, and the final size is the
original one plus a header and a payload for each of them. -/
theorem absorb_sum (size : Nat → Nat) (c : Nat) :
    ∀ (rest : List Nat) (csize : Nat), c + header_size + csize < WORD →
      (∀ n ∈ rest, n + header_size + size n < WORD) →
      ∃ absorbed, rest = absorbed ++ (absorb size c csize rest).2 ∧
        (absorb size c csize rest).1
          = csize + (absorbed.map (fun x => header_size + size x)).sum ∧
        c + header_size + (absorb size c csize rest).1 < WORD ∧
        (∀ x ∈ absorbed, c + header_size + csize ≤ x ∧
          x + header_size + size x ≤ c + header_size + (absorb size c csize rest).1) := by
  intro rest
  induction rest with
  | nil =>
    intro csize hc _
    exact ⟨[], rfl, by simp [absorb], by simpa [absorb] using hc, by simp⟩
  | cons n rest ih =>
    intro csize hc hsp
    have hn := hsp n (List.mem_cons_self _ _)
    simp only [absorb]
    split
    · rename_i hadj
      rw [Nat.mod_eq_of_lt hc] at hadj
      have e1 : (csize + (size n + header_size) % WORD) % WORD = csize + (size n + header_size) := by
        rw [Nat.mod_eq_of_lt (a := size n + header_size) (by omega)]
        apply Nat.mod_eq_of_lt
        omega
      rw [e1]
      obtain ⟨ab, i1, i2, i3, i4⟩ := ih (csize + (size n + header_size)) (by omega)
        (fun m hm => hsp m (List.mem_cons_of_mem _ hm))
      refine ⟨n :: ab, by rw [List.cons_append, ← i1], ?_, i3, ?_⟩
      · rw [i2, List.map_cons, List.sum_cons]
        omega
      · intro x hx
        rcases List.mem_cons.mp hx with rfl | hx
        · refine ⟨by omega, ?_⟩
          rw [i2]
          omega
        · have := i4 x hx
          omega
    · exact ⟨[], rfl, by simp, hc, by simp⟩

theorem insert_after_perm (c : Nat) :
    ∀ (l l' : List Nat), insert_after c l = some l' → l'.Perm (c :: l) := by
  intro l
  induction l with
  | nil => intro l' h; simp [insert_after] at h
  | cons x rest ih =>
    intro l' h
    cases rest with
    | nil =>
      simp only [insert_after] at h
      split at h
      · cases h
        exact List.Perm.swap _ _ _
      · cases h
    | cons n cs =>
      simp only [insert_after] at h
      split at h
      · cases h
        exact List.Perm.swap _ _ _
      · obtain ⟨l'', hl'', rfl⟩ := Option.map_eq_some'.mp h
        exact ((ih l'' hl'').cons x).trans (List.Perm.swap _ _ _)

theorem insert_chunk_perm (c : Nat) (l : List Nat) : (insert_chunk c l).Perm (c :: l) := by
  unfold insert_chunk
  split
  · rename_i l' hl'
    exact insert_after_perm c l l' hl'
  · exact List.Perm.refl _

theorem insert_chunk_nodup (c : Nat) (l : List Nat) (hl : l.Nodup) (hc : c ∉ l) :
    (insert_chunk c l).Nodup :=
  (insert_chunk_perm c l).nodup_iff.mpr (List.nodup_cons.mpr ⟨hc, hl⟩)

theorem insert_after_none_of_lt (c : Nat) :
    ∀ (l : List Nat), (∀ y ∈ l, c < y) → insert_after c l = none := by
  intro l
  induction l with
  | nil => intro _; rfl
  | cons x rest ih =>
    intro hlt
    have hx := hlt x (List.mem_cons_self _ _)
    cases rest with
    | nil =>
      simp only [insert_after]
      rw [if_neg (by omega)]
    | cons n cs =>
      simp only [insert_after]
      rw [if_neg (by omega), ih (fun y hy => hlt y (List.mem_cons_of_mem _ hy))]
      rfl

/-- On an address-ordered list the first loop finds the ordered place. -/
theorem insert_after_ascending (c : Nat) :
    ∀ (l : List Nat), Ascending l → c ∉ l →
      (∀ l', insert_after c l = some l' → Ascending l') ∧
      (insert_after c l = none → ∀ x ∈ l, c < x) := by
  intro l
  induction l with
  | nil =>
    intro _ _
    exact ⟨fun l' h => by simp [insert_after] at h, fun _ x hx => by simp at hx⟩
  | cons x rest ih =>
    intro hasc hc
    have hcx : c ≠ x := fun e => hc (e ▸ List.mem_cons_self _ _)
    have hcr : c ∉ rest := fun hm => hc (List.mem_cons_of_mem _ hm)
    unfold Ascending at hasc
    obtain ⟨hx, hrest⟩ := List.pairwise_cons.mp hasc
    cases rest with
    | nil =>
      simp only [insert_after]
      constructor
      · intro l' h
        split at h
        · rename_i hgt
          cases h
          unfold Ascending
          simp only [List.pairwise_cons, List.mem_singleton, forall_eq, List.not_mem_nil,
            false_implies, implies_true, List.Pairwise.nil, and_true]
          omega
        · cases h
      · intro h y hy
        split at h
        · cases h
        · rename_i hle
          rw [List.mem_singleton] at hy
          subst hy
          omega
    | cons n cs =>
      obtain ⟨i1, i2⟩ := ih hrest hcr
      have hxn := hx n (List.mem_cons_self _ _)
      have hcn : c ≠ n := fun e => hcr (e ▸ List.mem_cons_self _ _)
      obtain ⟨hn, hcs⟩ := List.pairwise_cons.mp hrest
      simp only [insert_after]
      by_cases hcond : c > x ∧ ¬ c > n
      · rw [if_pos hcond]
        constructor
        · intro l' h
          cases h
          unfold Ascending
          refine List.pairwise_cons.mpr ⟨?_, List.pairwise_cons.mpr ⟨?_, hrest⟩⟩
          · intro y hy
            rcases List.mem_cons.mp hy with rfl | hy
            · exact hcond.1
            · exact hx y hy
          · intro y hy
            rcases List.mem_cons.mp hy with rfl | hy
            · omega
            · have := hn y hy
              omega
        · intro h
          cases h
      · rw [if_neg hcond]
        by_cases hlt : c < x
        · have hnone : insert_after c (n :: cs) = none := by
            apply insert_after_none_of_lt
            intro y hy
            have := hx y hy
            omega
          rw [hnone]
          constructor
          · intro l' h
            cases h
          · intro _ y hy
            rcases List.mem_cons.mp hy with rfl | hy
            · exact hlt
            · have := hx y hy
              omega
        · have hgt : c > n := by omega
          constructor
          · intro l' h
            obtain ⟨l'', hl'', rfl⟩ := Option.map_eq_some'.mp h
            have hs := i1 l'' hl''
            obtain ⟨-, -, hmem⟩ := insert_after_mem c (n :: cs) l'' hl''
            unfold Ascending at hs ⊢
            refine List.pairwise_cons.mpr ⟨?_, hs⟩
            intro y hy
            rcases (hmem y).mp hy with rfl | hy
            · omega
            · exact hx y hy
          · intro h
            cases hr : insert_after c (n :: cs) with
            | none =>
              have := i2 hr n (List.mem_cons_self _ _)
              omega
            | some l'' =>
              rw [hr] at h
              cases h

theorem insert_chunk_ascending (c : Nat) (l : List Nat) (hasc : Ascending l) (hc : c ∉ l) :
    Ascending (insert_chunk c l) := by
  obtain ⟨i1, i2⟩ := insert_after_ascending c l hasc hc
  unfold insert_chunk
  split
  · rename_i l' hl'
    exact i1 l' hl'
  · rename_i hnone
    unfold Ascending
    exact List.pairwise_cons.mpr ⟨i2 hnone, hasc⟩

theorem absorb_sublist_of (size : Nat → Nat) (c : Nat) (rest : List Nat) (csize : Nat) :
    List.Sublist (absorb size c csize rest).2 rest := by
  obtain ⟨a, ha⟩ := absorb_suffix size c rest csize
  conv_rhs => rw [ha]
  exact List.sublist_append_right _ _

theorem coalesce_at_sublist (size : Nat → Nat) (c : Nat) :
    ∀ (L : List Nat), List.Sublist (coalesce_at size c L) L := by
  intro L
  induction L with
  | nil => exact List.Sublist.refl _
  | cons x rest ih =>
    simp only [coalesce_at]
    split
    · exact (absorb_sublist_of size c rest (size c)).cons₂ x
    · exact ih.cons₂ x

theorem add_to_used_chunks_link (g : Heap) (c : Nat) :
    (add_to_used_chunks g c).usedp = c ∧
      (g.usedp ≠ 0 → (add_to_used_chunks g c).next c = g.usedp) ∧
      (∀ a, a ≠ c → (add_to_used_chunks g c).next a = g.next a) := by
  refine ⟨rfl, ?_, ?_⟩
  · intro hu
    rw [next_add_to_used_chunks, if_pos ⟨hu, rfl⟩]
  · intro a ha
    rw [next_add_to_used_chunks, if_neg (fun hh => ha hh.2)]

theorem tiled_head_not_mem {h : Heap} {c : Nat} {live free : List Nat}
    (ht : Tiled h (c :: live) free) : c ∉ live :=
  (List.nodup_cons.mp ht.2.1).1

/-- The part of `memalloc` from the scan on, in a tiled heap: it returns, the
heap stays tiled, and the links of the live chunks are kept. The link of the
chunk handed out is the old `usedp` when that is non-null; otherwise it is
what the heap held there: null in a region reserved by the call, the link of
the chunk in the free list, or the link at the place of a split. -/
theorem scan_grow_step (fuel : Nat) (h0 : Heap) (live free0 : List Nat) (mm2 s : Nat)
    (ht : Tiled h0 live free0) (hs0 : 0 < s) (hsw : s + 16 < WORD)
    (hfuel : free0.length < fuel)
    (hf2 : first_fit h0.size s free0 = none → Fresh h0 (live ++ free0) mm2 (region_size s))
    (hex : ExactFitAtHead h0 s free0) :
    ∃ h' p free', (match memalloc_scan fuel h0 s 0 h0.freep with
      | none => none
      | some (some r) => some r
      | some none => some (memalloc_grow h0 mm2 s)) = some (h', p) ∧
      (List.Sublist free' free0 ∨
        (first_fit h0.size s free0 = none ∧ region_size s ≠ s ∧ free' = mm2 :: free0)) ∧
      (∀ a ∈ live, h'.next a = h0.next a ∧ h'.size a = h0.size a) ∧
      ((p = 0 ∧ Tiled h' live free' ∧ h'.usedp = h0.usedp) ∨
        (∃ c, p = c + header_size ∧ Tiled h' (c :: live) free' ∧ h'.size c = s ∧
          h'.usedp = c ∧ (h0.usedp ≠ 0 → h'.next c = h0.usedp) ∧
          ((first_fit h0.size s free0 = none ∧ (h0.usedp = 0 → h'.next c = 0)) ∨
            (first_fit h0.size s free0 = some (c, true) ∧
              (h0.usedp = 0 → h'.next c = h0.next c)) ∨
            (∃ c0, first_fit h0.size s free0 = some (c0, false) ∧ c0 ∈ free0 ∧
              c = c0 + h0.size c0 - s ∧ s + header_size < h0.size c0 ∧
              (h0.usedp = 0 → h'.next c = h0.next c))))) := by
  have hsp : ∀ c ∈ free0, InSpace h0 c := fun c hc => (ht.2.2.2.1 c (List.mem_append_right _ hc)).2
  rw [memalloc_scan_first_fit h0 s hs0 hsw free0 fuel 0 h0.freep ht.1 hsp hfuel]
  cases hff : first_fit h0.size s free0 with
  | none =>
    simp only
    obtain ⟨m0, mw, mfar⟩ := hf2 hff
    obtain ⟨c1, c2, c3⟩ := create_chunk_frame h0 (live ++ free0) mm2 s ⟨m0, mw, mfar⟩
    have hmm : (create_chunk h0 mm2 s).2 = mm2 := rfl
    have hpm : (mm2 + header_size) % WORD = mm2 + header_size := by
      apply Nat.mod_eq_of_lt
      simp only [header_size] at *
      omega
    unfold memalloc_grow
    simp only [hmm, ne_eq, m0, not_false_eq_true, if_true, c1, hpm]
    by_cases hwhole : region_size s = s
    · -- the new region is handed out whole
      rw [if_pos hwhole]
      have htw : Tiled (add_to_used_chunks (create_chunk h0 mm2 s).1 mm2) (mm2 :: live) free0 := by
        refine tiled_whole h0 _ live free0 mm2 (region_size s) ht ⟨m0, mw, mfar⟩ ?_ ?_ ?_
        · rw [size_add_to_used_chunks]; exact c1
        · rw [freep_add_to_used_chunks]; rfl
        · intro c hc
          obtain ⟨d1, d2, d3⟩ := c3 c hc
          refine ⟨by rw [size_add_to_used_chunks]; exact d1, ?_, d3⟩
          rw [next_add_to_used_chunks]
          simp [d3, d2]
      obtain ⟨l1, l2, l3⟩ := add_to_used_chunks_link (create_chunk h0 mm2 s).1 mm2
      refine ⟨_, _, free0, rfl, Or.inl (List.Sublist.refl _), ?_,
        Or.inr ⟨mm2, rfl, htw, ?_, l1, ?_, Or.inl ⟨trivial, ?_⟩⟩⟩
      · intro a ha
        obtain ⟨d1, d2, d3⟩ := c3 a (List.mem_append_left _ ha)
        refine ⟨?_, ?_⟩
        · rw [l3 a d3]; exact d2
        · rw [size_add_to_used_chunks]; exact d1
      · rw [size_add_to_used_chunks, c1]; exact hwhole
      · intro hu
        exact l2 hu
      · intro hu
        rw [next_add_to_used_chunks, if_neg (fun hh => hh.1 hu)]
        exact c2
    · -- the new region is linked in and split
      rw [if_neg hwhole]
      have hrs : region_size s = CHUNK_DEFAULT_SIZE := by
        unfold region_size at hwhole ⊢
        split
        · rename_i hgt
          rw [if_pos hgt] at hwhole
          exact absurd rfl hwhole
        · rfl
      have ht3 : Tiled (setFreep (setNext (create_chunk h0 mm2 s).1 mm2
          (create_chunk h0 mm2 s).1.freep) mm2) live (mm2 :: free0) := by
        refine tiled_link h0 _ live free0 mm2 (region_size s) ht ⟨m0, mw, mfar⟩ ?_ ?_ rfl ?_
        · simpa using c1
        · simp [freep_create_chunk]
        · intro c hc
          obtain ⟨d1, d2, d3⟩ := c3 c hc
          refine ⟨by simpa using d1, ?_, d3⟩
          simp [d3, d2]
      have hsz3 : (setFreep (setNext (create_chunk h0 mm2 s).1 mm2
          (create_chunk h0 mm2 s).1.freep) mm2).size mm2 = region_size s := by
        simpa using c1
      have hfr3 : ∀ a ∈ live, (setFreep (setNext (create_chunk h0 mm2 s).1 mm2
          (create_chunk h0 mm2 s).1.freep) mm2).next a = h0.next a ∧
          (setFreep (setNext (create_chunk h0 mm2 s).1 mm2
            (create_chunk h0 mm2 s).1.freep) mm2).size a = h0.size a := by
        intro a ha
        obtain ⟨d1, d2, d3⟩ := c3 a (List.mem_append_left _ ha)
        refine ⟨?_, by simpa using d1⟩
        simp [d3, d2]
      by_cases hfit : s + header_size < region_size s
      · have hsplit := split_chunk_eq (setFreep (setNext (create_chunk h0 mm2 s).1 mm2
          (create_chunk h0 mm2 s).1.freep) mm2) mm2 s m0 (by rw [hsz3]; exact hfit)
          (by rw [hsz3]; simp only [header_size] at mw; omega)
        rw [hsplit]
        simp only [hsz3]
        have hne : ¬ (mm2 + region_size s - s = 0) := by omega
        have hpm2 : (mm2 + region_size s - s + header_size) % WORD
            = mm2 + region_size s - s + header_size := by
          apply Nat.mod_eq_of_lt
          simp only [header_size] at *
          omega
        rw [if_neg hne, hpm2]
        obtain ⟨t1, t2, t3, -⟩ := tiled_split _ live (mm2 :: free0) mm2 s ht3
          (List.mem_cons_self _ _) hs0 (by rw [hsz3]; exact hfit)
        rw [hsz3] at t1 t2 t3
        obtain ⟨l1, l2, l3⟩ := add_to_used_chunks_link (split_heap (setFreep (setNext
          (create_chunk h0 mm2 s).1 mm2 (create_chunk h0 mm2 s).1.freep) mm2) mm2 s)
          (mm2 + region_size s - s)
        have hnm := tiled_head_not_mem t1
        refine ⟨_, _, mm2 :: free0, rfl, Or.inr ⟨trivial, hwhole, rfl⟩, ?_,
          Or.inr ⟨mm2 + region_size s - s, rfl, t1, t2, l1, ?_, Or.inl ⟨trivial, ?_⟩⟩⟩
        · intro a ha
          have hne2 : a ≠ mm2 + region_size s - s := fun e => hnm (e ▸ ha)
          refine ⟨?_, ?_⟩
          · rw [l3 a hne2, next_split_heap]
            exact (hfr3 a ha).1
          · rw [t3 a ha]
            exact (hfr3 a ha).2
        · intro hu
          exact l2 hu
        · intro hu
          have hcm : mm2 + region_size s - s ≠ mm2 := by
            simp only [header_size] at hfit
            omega
          have hin : mm2 ≤ mm2 + region_size s - s ∧ mm2 + region_size s - s
              < mm2 + (header_size + (if s > CHUNK_DEFAULT_SIZE then s
                else CHUNK_DEFAULT_SIZE)) % WORD := by
            have hreg : (if s > CHUNK_DEFAULT_SIZE then s else CHUNK_DEFAULT_SIZE)
                = region_size s := rfl
            rw [hreg, Nat.mod_eq_of_lt (by simp only [header_size] at mw ⊢; omega)]
            simp only [header_size] at hfit ⊢
            omega
          rw [next_add_to_used_chunks, if_neg (fun hh => hh.1 hu), next_split_heap,
            next_setFreep, next_setNext, if_neg hcm, next_create_chunk, if_neg hcm, if_pos hin]
      · -- the split fails and `memalloc` returns null
        have hfail : mm2 = 0 ∨ (header_size + s) % WORD ≥ region_size s := by
          right
          have : (header_size + s) % WORD = s + header_size := by
            simp only [header_size, WORD] at *
            omega
          rw [this]
          omega
        simp only [split_chunk, hsz3, if_pos hfail, if_true]
        exact ⟨_, _, mm2 :: free0, rfl, Or.inr ⟨trivial, hwhole, rfl⟩, hfr3, Or.inl ⟨rfl, ht3, rfl⟩⟩
  | some r =>
    obtain ⟨c, b⟩ := r
    obtain ⟨hcm, hb1, hb2⟩ := first_fit_some h0.size s free0 c b hff
    have hcsp : InSpace h0 c := hsp c hcm
    cases b with
    | false =>
      simp only
      obtain ⟨t1, t2, t3, -⟩ := tiled_split h0 live free0 c s ht hcm hs0 (hb1 rfl)
      obtain ⟨l1, l2, l3⟩ := add_to_used_chunks_link (split_heap h0 c s) (c + h0.size c - s)
      have hnm := tiled_head_not_mem t1
      refine ⟨_, _, free0, rfl, Or.inl (List.Sublist.refl _), ?_,
        Or.inr ⟨c + h0.size c - s, rfl, t1, t2, l1, ?_,
          Or.inr (Or.inr ⟨c, rfl, hcm, rfl, hb1 rfl, ?_⟩)⟩⟩
      · intro a ha
        have hne2 : a ≠ c + h0.size c - s := fun e => hnm (e ▸ ha)
        exact ⟨by rw [l3 a hne2, next_split_heap], t3 a ha⟩
      · intro hu
        exact l2 hu
      · intro hu
        rw [next_add_to_used_chunks, if_neg (fun hh => hh.1 hu), next_split_heap]
    | true =>
      have hfc : h0.freep = c := by
        unfold ExactFitAtHead at hex
        rw [hff] at hex
        exact hex
      have hc0 : c ≠ 0 := (ht.2.2.2.1 c (List.mem_append_right _ hcm)).1
      obtain ⟨rest, hrest, -⟩ := IsList_head ht.1 (by rw [hfc]; exact hc0)
      rw [hfc] at hrest
      simp only [hfc, if_true, ne_eq, not_true_eq_false, if_false]
      rw [hrest] at ht
      obtain ⟨t1, t2⟩ := tiled_exact_head h0 live rest c ht
      obtain ⟨l1, l2, l3⟩ := add_to_used_chunks_link (setFreep h0 (h0.next c)) c
      have hnm := tiled_head_not_mem t1
      refine ⟨_, _, rest, rfl, Or.inl ?_, ?_,
        Or.inr ⟨c, rfl, t1, ?_, l1, ?_, Or.inr (Or.inl ⟨rfl, ?_⟩)⟩⟩
      · rw [hrest]
        exact List.sublist_cons_self _ _
      · intro a ha
        have hne2 : a ≠ c := fun e => hnm (e ▸ ha)
        exact ⟨by rw [l3 a hne2, next_setFreep], by rw [t2]⟩
      · rw [t2]; exact hb2 rfl
      · intro hu
        exact l2 hu
      · intro hu
        rw [next_add_to_used_chunks, if_neg (fun hh => hh.1 hu), next_setFreep]

theorem memalloc_eq_first_region (fuel : Nat) (h : Heap) (mm1 mm2 n : Nat) :
    memalloc fuel h mm1 mm2 n =
      match memalloc_scan fuel (first_region h mm1 n) (normalized_size n) 0
          (first_region h mm1 n).freep with
      | none => none
      | some (some r) => some r
      | some none => some (memalloc_grow (first_region h mm1 n) mm2 (normalized_size n)) :=
  rfl

/-- The heap the scan starts in is tiled: when the free list is empty, the
first region becomes the free list. -/
theorem first_region_tiled (h : Heap) (used free : List Nat) (mm1 n : Nat)
    (ht : Tiled h used free) (hf1 : h.freep = 0 → Fresh h used mm1 (region_size n)) :
    Tiled (first_region h mm1 n) used (if h.freep = 0 then [mm1] else free) ∧
      (∀ a ∈ used, (first_region h mm1 n).next a = h.next a ∧
        (first_region h mm1 n).size a = h.size a) ∧
      (first_region h mm1 n).usedp = h.usedp := by
  by_cases hfp : h.freep = 0
  · have hnil : free = [] := by
      have hl := ht.1
      rw [hfp] at hl
      exact IsList_zero hl
    subst hnil
    have hf1' : Fresh h (used ++ []) mm1 (region_size n) := by
      rw [List.append_nil]
      exact hf1 hfp
    obtain ⟨c1, c2, c3⟩ := create_chunk_frame h (used ++ []) mm1 n hf1'
    have hfr : first_region h mm1 n = setFreep (create_chunk h mm1 n).1 mm1 := by
      unfold first_region
      rw [if_pos hfp]
      rfl
    rw [hfr, if_pos hfp]
    refine ⟨?_, ?_, rfl⟩
    · refine tiled_link h _ used [] mm1 (region_size n) ht hf1' ?_ ?_ rfl ?_
      · simpa using c1
      · simpa [hfp] using c2
      · intro c hc
        obtain ⟨d1, d2, d3⟩ := c3 c hc
        exact ⟨by simpa using d1, by simpa using d2, d3⟩
    · intro a ha
      obtain ⟨d1, d2, -⟩ := c3 a (List.mem_append_left _ ha)
      exact ⟨by rw [next_setFreep]; exact d2, by rw [size_setFreep]; exact d1⟩
  · have hfr : first_region h mm1 n = h := by
      unfold first_region
      rw [if_neg hfp]
    rw [hfr, if_neg hfp]
    exact ⟨ht, fun a _ => ⟨rfl, rfl⟩, rfl⟩

/-- The chunk `b` beyond the end of `c` that is not absorbed stays beyond the
end of the grown `c`. -/
theorem absorb_apart (size : Nat → Nat) (c b : Nat) :
    ∀ (rest : List Nat) (csize : Nat), rest.Nodup → c + header_size + csize ≤ b →
      b + header_size + size b < WORD →
      (∀ n ∈ rest, n + header_size + size n < WORD) →
      (∀ n ∈ rest, n ≠ b → (n + header_size + size n ≤ b ∨ b + header_size + size b ≤ n)) →
      (b ∈ rest → b ∈ (absorb size c csize rest).2) →
      c + header_size + (absorb size c csize rest).1 ≤ b := by
  intro rest
  induction rest with
  | nil =>
    intro csize _ hle _ _ _ _
    simpa [absorb] using hle
  | cons n rest ih =>
    intro csize hnd hle hb hsp hap hkeep
    obtain ⟨hn, hnd'⟩ := List.nodup_cons.mp hnd
    have hnsp := hsp n (List.mem_cons_self _ _)
    simp only [absorb] at hkeep ⊢
    split
    · rename_i hadj
      rw [if_pos hadj] at hkeep
      rw [Nat.mod_eq_of_lt (by omega)] at hadj
      have hbn : n ≠ b := by
        intro e
        have := hkeep (e ▸ List.mem_cons_self _ _)
        exact hn (e ▸ absorb_sublist size c rest _ b this)
      have hnb : n + header_size + size n ≤ b := by
        rcases hap n (List.mem_cons_self _ _) hbn with h1 | h1
        · exact h1
        · omega
      have e1 : (csize + (size n + header_size) % WORD) % WORD
          = csize + (size n + header_size) := by
        rw [Nat.mod_eq_of_lt (a := size n + header_size) (by omega)]
        apply Nat.mod_eq_of_lt
        omega
      rw [e1] at hkeep ⊢
      refine ih _ hnd' (by omega) hb (fun m hm => hsp m (List.mem_cons_of_mem _ hm))
        (fun m hm => hap m (List.mem_cons_of_mem _ hm)) ?_
      intro hbr
      exact hkeep (List.mem_cons_of_mem _ hbr)
    · exact hle

theorem apart_symm {h : Heap} {a b : Nat} (hab : Apart h a b) : Apart h b a :=
  Or.symm hab

/-- One call of `memfree` on a live chunk of a tiled heap whose chain of
links from `usedp` visits the live chunks and then reaches `g`: as
`memfree_tiled`, and the chain still reaches `g`. -/
theorem memfree_tiled_seg (h : Heap) (c g : Nat) (used free : List Nat) (fuel : Nat)
    (ht : Tiled h used free) (hu : IsSeg h.next h.usedp g used) (hcu : c ∈ used)
    (hfuel : used.length + free.length < fuel) :
    ∃ h' pre absorbed post, memfree_loop fuel fuel h c 0 h.usedp = some h' ∧
      insert_chunk c free = pre ++ c :: (absorbed ++ post) ∧
      coalesce_at h.size c (insert_chunk c free) = pre ++ c :: post ∧
      Tiled h' (used.erase c) (pre ++ c :: post) ∧
      IsSeg h'.next h'.usedp g (used.erase c) ∧
      (∀ a, a ≠ c → h'.size a = h.size a) ∧
      (∀ n t, post = n :: t → c + header_size + h'.size c ≠ n) := by
  obtain ⟨tl, tnd, tdisj, tsp, tap⟩ := ht
  have hcf : c ∉ free := tdisj c hcu
  have hspc : ∀ f ∈ c :: free, InSpace h f := by
    intro f hf
    rcases List.mem_cons.mp hf with e | hm
    · exact e ▸ (tsp c (List.mem_append_left _ hcu)).2
    · exact (tsp f (List.mem_append_right _ hm)).2
  obtain ⟨h', e1, w1, w2, e3, e4, -, e6⟩ := memfree_spec_seg h c g used free fuel hu tnd hcu tl
    hcf (fun a ha hau => tdisj a hau ha) hspc hfuel
  have hsub : ∀ a ∈ coalesce_at h.size c (insert_chunk c free), a = c ∨ a ∈ free :=
    fun a ha => ((insert_chunk_mem c free).2.2 a).mp (coalesce_at_subset _ _ _ a ha)
  have w3 : ∀ a ∈ coalesce_at h.size c (insert_chunk c free), a ∉ used.erase c := by
    intro a ha hae
    have hae' := (List.Nodup.mem_erase_iff tnd).mp hae
    rcases hsub a ha with e | hf
    · exact hae'.1 e
    · exact tdisj a hae'.2 hf
  have w4 : ∀ f ∈ used.erase c, InSpace h' f := by
    intro f hf
    have hf' := (List.Nodup.mem_erase_iff tnd).mp hf
    have := (tsp f (List.mem_append_left _ hf'.2)).2
    unfold InSpace at this ⊢
    rw [e4 f hf'.1]
    exact this
  have w5 : ∀ f ∈ coalesce_at h.size c (insert_chunk c free), InSpace h' f := by
    intro f hf
    rcases hsub f hf with e | hm
    · exact e ▸ e6
    · have hfc : f ≠ c := fun e => hcf (e ▸ hm)
      have := (tsp f (List.mem_append_right _ hm)).2
      unfold InSpace at this ⊢
      rw [e4 f hfc]
      exact this
  obtain ⟨m1, -, m3⟩ := insert_chunk_mem c free
  have hnd := insert_chunk_nodup c free (IsList_nodup tl) hcf
  obtain ⟨pre, post0, hL⟩ := List.append_of_mem m1
  rw [hL] at hnd
  obtain ⟨-, hnd2, hdisj⟩ := List.nodup_append.mp hnd
  obtain ⟨hcpost, hndpost⟩ := List.nodup_cons.mp hnd2
  have hcpre : c ∉ pre := fun hm => hdisj hm (List.mem_cons_self _ _)
  have hmemL : ∀ n, n ∈ pre ++ c :: post0 → n = c ∨ n ∈ free := by
    intro n hn
    rw [← hL] at hn
    exact (m3 n).mp hn
  have hpost0 : ∀ n ∈ post0, n ∈ free := by
    intro n hn
    rcases hmemL n (List.mem_append_right _ (List.mem_cons_of_mem _ hn)) with rfl | hnf
    · exact absurd hn hcpost
    · exact hnf
  have hsp0 : ∀ n ∈ post0, n + header_size + h.size n < WORD :=
    fun n hn => (tsp n (List.mem_append_right _ (hpost0 n hn))).2
  have hcsp : c + header_size + h.size c < WORD := (tsp c (List.mem_append_left _ hcu)).2
  obtain ⟨absorbed, a1, a2, a3, a4⟩ := absorb_sum h.size c post0 (h.size c) hcsp hsp0
  obtain ⟨k1, k2⟩ := coalesce_at_append h.size c pre post0 hcpre
  rw [← hL] at k1 k2
  rw [k1] at w2 w3 w5
  rw [k2] at e3
  have hpostsub : ∀ n ∈ (absorb h.size c (h.size c) post0).2, n ∈ post0 :=
    absorb_sublist h.size c post0 (h.size c)
  -- the chunks of the new free list other than `c` were free
  have hfree' : ∀ n ∈ pre ++ c :: (absorb h.size c (h.size c) post0).2, n ≠ c → n ∈ free := by
    intro n hn hnc
    rcases List.mem_append.mp hn with hm | hm
    · rcases hmemL n (List.mem_append_left _ hm) with e | e
      · exact absurd e hnc
      · exact e
    · rcases List.mem_cons.mp hm with e | hm
      · exact absurd e hnc
      · exact hpost0 n (hpostsub n hm)
  have hold : ∀ b ∈ used.erase c ++ (pre ++ c :: (absorb h.size c (h.size c) post0).2),
      b ≠ c → b ∈ used ++ free := by
    intro b hb hbc
    rcases List.mem_append.mp hb with hm | hm
    · exact List.mem_append_left _ (List.mem_of_mem_erase hm)
    · exact List.mem_append_right _ (hfree' b hm hbc)
  have hcmem : c ∈ used ++ free := List.mem_append_left _ hcu
  -- the grown chunk is apart from every other chunk
  have key : ∀ b ∈ used.erase c ++ (pre ++ c :: (absorb h.size c (h.size c) post0).2),
      b ≠ c → Apart h' c b := by
    intro b hb hbc
    have hbold := hold b hb hbc
    have hbsz : h'.size b = h.size b := e4 b hbc
    have hbsp := (tsp b hbold).2
    unfold InSpace at hbsp
    rcases tap c hcmem b hbold (Ne.symm hbc) with hcb | hbc'
    · left
      rw [e3]
      apply absorb_apart h.size c b post0 (h.size c) hndpost hcb hbsp hsp0
      · intro n hn hnb
        exact tap n (List.mem_append_right _ (hpost0 n hn)) b hbold hnb
      · intro hbp
        rcases List.mem_append.mp hb with hm | hm
        · exact absurd (hpost0 b hbp) (tdisj b (List.mem_of_mem_erase hm))
        · rcases List.mem_append.mp hm with hm | hm
          · exact absurd (List.mem_cons_of_mem _ hbp) (fun hh => hdisj hm hh)
          · rcases List.mem_cons.mp hm with e | hm
            · exact absurd e hbc
            · exact hm
    · right
      rw [hbsz]
      exact hbc'
  refine ⟨h', pre, absorbed, (absorb h.size c (h.size c) post0).2, e1, by rw [hL, ← a1], k1,
    ⟨w2, tnd.erase c, ?_, ?_, ?_⟩, w1, e4, ?_⟩
  · intro a ha haf
    exact w3 a haf ha
  · intro b hb
    rcases List.mem_append.mp hb with hm | hm
    · exact ⟨(tsp b (List.mem_append_left _ (List.mem_of_mem_erase hm))).1, w4 b hm⟩
    · refine ⟨?_, w5 b hm⟩
      by_cases hbc : b = c
      · rw [hbc]
        exact (tsp c hcmem).1
      · exact (tsp b (List.mem_append_right _ (hfree' b hm hbc))).1
  · intro a ha b hb hab
    by_cases hac : a = c
    · subst hac
      exact key b hb (Ne.symm hab)
    · by_cases hbc : b = c
      · subst hbc
        exact apart_symm (key a ha hac)
      · have := tap a (hold a ha hac) b (hold b hb hbc) hab
        unfold Apart at this ⊢
        rw [e4 a hac, e4 b hbc]
        exact this
  · intro n t hpost
    have := absorb_stop h.size c post0 (h.size c) n t hpost
    rw [Nat.mod_eq_of_lt a3] at this
    rw [e3]
    exact this

/-- One call of `memfree` on a chunk of the used list of a tiled heap: it
returns, the chunk moves to the place `insert_chunk` finds in the free list
and absorbs the successors `absorbed`, and the heap stays tiled. -/
theorem memfree_tiled (h : Heap) (c : Nat) (used free : List Nat) (fuel : Nat)
    (ht : Tiled h used free) (hu : IsList h.next h.usedp used) (hcu : c ∈ used)
    (hfuel : used.length + free.length < fuel) :
    ∃ h' pre absorbed post, memfree_loop fuel fuel h c 0 h.usedp = some h' ∧
      insert_chunk c free = pre ++ c :: (absorbed ++ post) ∧
      coalesce_at h.size c (insert_chunk c free) = pre ++ c :: post ∧
      Tiled h' (used.erase c) (pre ++ c :: post) ∧
      IsList h'.next h'.usedp (used.erase c) ∧
      (∀ a, a ≠ c → h'.size a = h.size a) ∧
      (∀ n t, post = n :: t → c + header_size + h'.size c ≠ n) :=
  memfree_tiled_seg h c 0 used free fuel ht hu hcu hfuel

/-! ## Runs of `memalloc` and `memfree`: the invariant -/

theorem header_of_inj {p q : Nat} (hp : p = header_of p + header_size)
    (hq : q = header_of q + header_size) (h : header_of p = header_of q) : p = q := by
  rw [hp, hq, h]

theorem map_header_of_erase (p : Nat) :
    ∀ (ps : List Nat), (∀ q ∈ ps, q = header_of q + header_size) →
      p = header_of p + header_size →
      (ps.erase p).map header_of = (ps.map header_of).erase (header_of p) := by
  intro ps
  induction ps with
  | nil => intro _ _; rfl
  | cons q ps ih =>
    intro hps hp
    by_cases hqp : q = p
    · subst hqp
      simp
    · have hne : header_of q ≠ header_of p := fun e =>
        hqp (header_of_inj (hps q (List.mem_cons_self _ _)) hp e)
      rw [List.erase_cons_tail (by simpa using hqp), List.map_cons, List.map_cons,
        List.erase_cons_tail (by simpa using hne),
        ih (fun r hr => hps r (List.mem_cons_of_mem _ hr)) hp]

theorem not_isList_of_self_loop {next : Nat → Nat} {c : Nat} (hc : next c = c) :
    ∀ (l : List Nat), c ≠ 0 → ¬ IsList next c l := by
  intro l
  induction l with
  | nil => intro h0 hl; exact h0 hl
  | cons x rest ih =>
    intro h0 hl
    obtain ⟨hx, -, hrest⟩ := hl
    rw [← hx, hc] at hrest
    exact ih h0 hrest

/-! ## C13: adjacent chunks in the free list -/

/-- C13 (amended): in a tiled heap whose free list has strictly increasing
addresses and no two adjacent chunks, `memfree(p)` of a chunk `c` of the used
list returns and leaves a free list in which `c` does not end where a free
chunk begins, and in which the only chunks that end where a free chunk begins
are chunks that end at `c`: the released chunk is merged with the chunks
after it, never with the chunk before it. -/
theorem memfree_adjacent_only_before (h : Heap) (p : Nat) (used free : List Nat)
    (fuel : Nat) (ht : Tiled h used free) (hu : IsList h.next h.usedp used)
    (hp : header_of p ∈ used) (hasc : Ascending free) (hna : NoAdjacent h free)
    (hfuel : used.length + free.length < fuel) :
    ∃ h' free', memfree fuel h p = some h' ∧ IsList h'.next h'.freep free' ∧
      Ascending free' ∧ header_of p ∈ free' ∧
      (∀ x ∈ free', ∀ y ∈ free', x + header_size + h'.size x = y →
        y = header_of p ∧ x ≠ header_of p) := by
  obtain ⟨h', pre, absorbed, post, e1, e2, e2', ht', -, e4, estop⟩ :=
    memfree_tiled h (header_of p) used free fuel ht hu hp hfuel
  have hcf : header_of p ∉ free := ht.2.2.1 _ hp
  have hasc' : Ascending (pre ++ header_of p :: post) := by
    rw [← e2']
    exact List.Pairwise.sublist (coalesce_at_sublist h.size (header_of p) _)
      (insert_chunk_ascending (header_of p) free hasc hcf)
  have hfree' : ∀ x ∈ pre ++ header_of p :: post, x ≠ header_of p → x ∈ free := by
    intro x hx hxc
    rw [← e2'] at hx
    have := coalesce_at_subset h.size (header_of p) _ x hx
    rcases ((insert_chunk_mem (header_of p) free).2.2 x).mp this with e | e
    · exact absurd e hxc
    · exact e
  refine ⟨h', pre ++ header_of p :: post, ?_, ht'.1, hasc', by simp, ?_⟩
  · rw [memfree_eq fuel h p (header_of p) rfl]
    exact e1
  · intro x hx y hy hxy
    generalize header_of p = c at *
    unfold Ascending at hasc'
    obtain ⟨-, hpost, hcross⟩ := List.pairwise_append.mp hasc'
    obtain ⟨hcpost, hpostasc⟩ := List.pairwise_cons.mp hpost
    have hcmem : c ∈ used.erase c ++ (pre ++ c :: post) := by simp
    by_cases hxc : x = c
    · exfalso
      subst hxc
      have hyx : y ≠ x := by
        simp only [header_size] at hxy
        omega
      rcases List.mem_append.mp hy with hm | hm
      · have := hcross y hm x (List.mem_cons_self _ _)
        simp only [header_size] at hxy
        omega
      · rcases List.mem_cons.mp hm with e | hm
        · exact hyx e
        · cases post with
          | nil => simp at hm
          | cons n t =>
            have hstop := estop n t rfl
            have hnx : n ≠ x := by
              have := hcpost n (List.mem_cons_self _ _)
              omega
            have hap := ht'.2.2.2.2 x hcmem n
              (List.mem_append_right _ (List.mem_append_right _
                (List.mem_cons_of_mem _ (List.mem_cons_self _ _)))) (Ne.symm hnx)
            have hxn := hcpost n (List.mem_cons_self _ _)
            unfold Apart at hap
            rcases List.mem_cons.mp hm with e | hm
            · exact hstop (hxy.trans e)
            · have hny := (List.pairwise_cons.mp hpostasc).1 y hm
              clear * - hap hxn hny hxy
              omega
    · by_cases hyc : y = c
      · exact ⟨hyc, hxc⟩
      · exfalso
        rw [e4 x hxc] at hxy
        exact hna x (hfree' x hx hxc) y (hfree' y hy hyc) hxy

theorem memfree_adjacent_only_before_witness :
    ∃ h' free', memfree 4 two_allocs.1 98168 = some h' ∧ IsList h'.next h'.freep free' ∧
      Ascending free' ∧ header_of 98168 ∈ free' ∧
      (∀ x ∈ free', ∀ y ∈ free', x + header_size + h'.size x = y →
        y = header_of 98168 ∧ x ≠ header_of 98168) :=
  memfree_adjacent_only_before two_allocs.1 98168 [98152, 98236] [65536] 4
    (by unfold Tiled; decide) (by decide) (by decide) (by decide) (by decide) (by decide)

/-- C13 (counterexample): from the initial state, `p = memalloc(64)` and
`memfree(p)`, a run that meets every assumption of `OpsOk`: the free list is
then `[65536, 98236]`, and the chunk `65536` ends where the chunk `98236`
begins; the two free chunks are adjacent and not merged. -/
theorem released_chunk_stays_adjacent_to_predecessor :
    OpsOk true 8 init [] [Op.alloc 65536 4096 64, Op.free 98252] ∧
      ∃ h ps, exec 8 init [] [Op.alloc 65536 4096 64, Op.free 98252] = some (h, ps) ∧
        walk h.next 8 h.freep = [65536, 98236] ∧
        65536 + header_size + h.size 65536 = 98236 ∧ ¬ NoAdjacent h (walk h.next 8 h.freep) :=
  ⟨by decide, _, _, rfl, by decide, by decide, by decide⟩

/-! ## C15: `memalloc` served by a split -/

/-- In a tiled heap with a non-empty free list, when the first chunk the scan
stops at is a chunk `c` large enough to split, `memalloc` returns the payload
of the chunk of the normalized size split from the tail of `c`, reserves no
region, and leaves the free list and the sizes of its other chunks as they
were; the chunk is pushed on the used list provided the used list is not
empty or the link of the new chunk reads null. -/
theorem memalloc_splits_first_fit (fuel : Nat) (h : Heap) (used free : List Nat)
    (mm1 mm2 n c : Nat) (ht : Tiled h used free) (hu : IsList h.next h.usedp used)
    (hn : n + 20 < WORD) (hfuel : free.length < fuel) (hne : h.freep ≠ 0)
    (hff : first_fit h.size (normalized_size n) free = some (c, false))
    (hlink : h.usedp = 0 → h.next (c + h.size c - normalized_size n) = 0) :
    ∃ h', memalloc fuel h mm1 mm2 n
        = some (h', c + h.size c - normalized_size n + header_size) ∧
      IsList h'.next h'.usedp ((c + h.size c - normalized_size n) :: used) ∧
      IsList h'.next h'.freep free ∧
      h'.size (c + h.size c - normalized_size n) = normalized_size n ∧
      h'.size c + (normalized_size n + header_size) = h.size c ∧
      (∀ a ∈ free, a ≠ c → h'.size a = h.size a) := by
  obtain ⟨-, -, hs8, hsw⟩ := normalized_size_bounds n hn
  have hsp : ∀ c ∈ free, InSpace h c := fun c hc => (ht.2.2.2.1 c (List.mem_append_right _ hc)).2
  obtain ⟨hcm, hb1, -⟩ := first_fit_some h.size _ free c false hff
  have hgt := hb1 rfl
  obtain ⟨t1, t2, t3, -⟩ := tiled_split h used free c (normalized_size n) ht hcm (by omega) hgt
  obtain ⟨l1, l2, l3⟩ := add_to_used_chunks_link (split_heap h c (normalized_size n))
    (c + h.size c - normalized_size n)
  have hnm := tiled_head_not_mem t1
  have hr0 : c + h.size c - normalized_size n ≠ 0 := (t1.2.2.2.1 _ (by simp)).1
  have hrc : c + h.size c - normalized_size n ≠ c := by
    simp only [header_size] at hgt
    omega
  refine ⟨_, ?_, ?_, t1.1, t2, ?_, ?_⟩
  · rw [memalloc_of_freep fuel h mm1 mm2 n hne,
      memalloc_scan_first_fit h _ (by omega) hsw free fuel 0 h.freep ht.1 hsp hfuel, hff]
  · rw [l1]
    refine ⟨rfl, hr0, ?_⟩
    have hframe : ∀ a ∈ used, (add_to_used_chunks (split_heap h c (normalized_size n))
        (c + h.size c - normalized_size n)).next a = h.next a := by
      intro a ha
      rw [l3 a (fun e => hnm (e ▸ ha)), next_split_heap]
    by_cases hz : h.usedp = 0
    · have hnil : used = [] := by
        rw [hz] at hu
        exact IsList_zero hu
      rw [hnil]
      show _ = 0
      rw [next_add_to_used_chunks, if_neg (fun hh => hh.1 hz), next_split_heap]
      exact hlink hz
    · rw [l2 hz]
      exact IsSeg_congr hframe hu
  · rw [size_add_to_used_chunks, size_split_heap, if_pos rfl]
    simp only [header_size] at hgt ⊢
    omega
  · intro a ha hac
    have har : a ≠ c + h.size c - normalized_size n := by
      intro e
      exact t1.2.2.1 _ (List.mem_cons_self _ _) (e ▸ ha)
    rw [size_add_to_used_chunks, size_split_heap, if_neg hac, if_neg har]

/-- C15 (the code at the failing input): the run `stale_link_run` meets every
assumption of `OpsOk` and ends with an empty used list and the free list
`[65536, 65632, 65800, 65968]`, whose chunks have the sizes `80`, `152`, `152`,
`32336`. For `memalloc(64)`, normalized size `68`, the first chunk large enough
to split is `65632` and no earlier chunk has size `68`. The call returns the
payload of the chunk `65716` split from its tail, and `usedp` is that chunk;
but its link still reads `65884`, so the used list is `[65716, 65884]`, not
the chunk pushed on the empty list. -/
theorem memalloc_split_keeps_stale_link :
    OpsOk false 40 init [] stale_link_run ∧
      ∃ h h' p, exec 40 init [] stale_link_run = some (h, []) ∧ h.usedp = 0 ∧
        walk h.next 8 h.freep = [65536, 65632, 65800, 65968] ∧
        first_fit h.size (normalized_size 64) [65536, 65632, 65800, 65968]
          = some (65632, false) ∧
        memalloc 8 h 200000 4096 64 = some (h', p) ∧ p = 65716 + header_size ∧
        h'.size 65716 = 68 ∧ h'.usedp = 65716 ∧ h'.next 65716 = 65884 ∧
        walk h'.next 8 h'.usedp = [65716, 65884] ∧
        walk h'.next 8 h'.freep = [65536, 65632, 65800, 65968] :=
  ⟨by decide, _, _, _, rfl, by decide, by decide, by decide, rfl, by decide, by decide,
    by decide, by decide, by decide, by decide⟩

/-! ## C5: the order of two releases -/

/-- A request that leaves a rest of the region too small to serve it again:
after the release the free list is the rest of the region followed by the
released chunk, and the next allocation takes the rest of the region whole
when it has exactly the normalized size, the released chunk otherwise. -/
theorem realloc_mid (fuel r mm2 mm3 mm4 n s : Nat) (hr : r ≠ 0)
    (hr2 : r + 32784 < WORD) (hs : normalized_size n = s) (hn : n ≤ 32768) (hs0 : 0 < s)
    (hsplit : s + 16 < 32768) (hbig : ¬ 2 * (s + 16) < 32768) (hfuel : 3 ≤ fuel) :
    ∃ h1 p h2 h3 q, memalloc fuel init r mm2 n = some (h1, p) ∧ p ≠ 0 ∧
      memfree fuel h1 p = some h2 ∧ memalloc fuel h2 mm3 mm4 n = some (h3, q) ∧
      (s = 16376 → q = r + 16 ∧ q ≠ p) ∧ (s ≠ 16376 → q = p) := by
  obtain ⟨k, rfl⟩ : ∃ k, fuel = k + 1 := ⟨fuel - 1, by omega⟩
  have hk : 2 ≤ k := by omega
  have hr3 : r + 32784 < 18446744073709551616 := hr2
  obtain ⟨h1, e1, f1, u1, z1, c1, n1⟩ := memalloc_first_carve k mm2 n r s (r + 32768 - s)
    (32768 - (s + 16)) hr hs hn hs0 hsplit (le_of_lt hr2) rfl rfl
  have hAr : r + 32768 - s > r := by clear * - hsplit; omega
  have hA0 : r + 32768 - s ≠ 0 := by clear * - hsplit; omega
  have W1 : WellFormed h1 [r + 32768 - s] [r] := by
    refine ⟨⟨u1, hA0, ?_⟩, ⟨f1, hr, ?_⟩, ?_, ?_, ?_⟩
    · rw [n1]; rfl
    · rw [n1]; rfl
    · intro a ha
      simp only [List.mem_singleton] at ha ⊢
      clear * - ha hsplit
      omega
    · intro f hf
      simp only [List.mem_singleton] at hf
      subst hf
      exact inSpace_of h1 _ s r c1 hr2 (by clear * - hsplit; omega)
    · intro f hf
      simp only [List.mem_singleton] at hf
      subst hf
      exact inSpace_of h1 _ _ f z1 hr2 (by clear * - hsplit; omega)
  obtain ⟨h2, e2, -, L2, ZA, Z2, -, SA⟩ := memfree_spec h1 (r + 32768 - s) [r + 32768 - s] [r]
    (k + 1) W1.1 (by simp) W1.2.1 (by simp only [List.mem_singleton]; clear * - hsplit; omega)
    W1.2.2.1 (by
      intro f hf
      rcases List.mem_cons.mp hf with e | hm
      · exact e ▸ W1.2.2.2.1 _ (by simp)
      · exact W1.2.2.2.2 f hm) (by simp only [List.length_cons, List.length_nil]; omega)
  have hrA : r ≠ r + 32768 - s := by clear * - hsplit; omega
  have L2' : IsList h2.next h2.freep [r, r + 32768 - s] := by
    simpa [insert_chunk, insert_after, coalesce_at, absorb, hAr, hrA] using L2
  have f2 : h2.freep = r := L2'.1
  have z2 : h2.size r = 32768 - (s + 16) := by rw [Z2 r hrA, z1]
  have zA : h2.size (r + 32768 - s) = s := by
    rw [ZA]
    simp [insert_chunk, insert_after, size_at, absorb, hAr, hrA, c1]
  have hp : header_of (r + 32768 - s + 16) = r + 32768 - s :=
    header_of_eq _ _ rfl (by clear * - hr3 hsplit; simp only [WORD]; omega)
  have hsp2 : ∀ c ∈ [r, r + 32768 - s], InSpace h2 c := by
    intro c hc
    rcases List.mem_cons.mp hc with e | hc
    · rw [e]
      exact inSpace_of h2 _ _ r z2 hr2 (by clear * - hsplit; omega)
    · rw [List.mem_singleton] at hc
      rw [hc]
      exact SA
  have hsw : s + 16 < WORD := by clear * - hsplit; simp only [WORD]; omega
  have hscan := memalloc_scan_first_fit h2 s hs0 hsw [r, r + 32768 - s] (k + 1) 0 h2.freep L2'
    hsp2 (by simp only [List.length_cons, List.length_nil]; omega)
  have hno1 : ¬ 32768 - (s + 16) > s + header_size := by
    simp only [header_size]; clear * - hbig; omega
  have hno2 : ¬ s > s + header_size := by simp only [header_size]; omega
  by_cases h76 : s = 16376
  · have hrest : 32768 - (s + 16) = s := by clear * - h76; omega
    have hff : first_fit h2.size s [r, r + 32768 - s] = some (r, true) := by
      simp only [first_fit, z2, if_neg hno1, if_pos hrest]
    rw [hff] at hscan
    have e3 : ∃ h3, memalloc (k + 1) h2 mm3 mm4 n = some (h3, r + 16) := by
      rw [memalloc_of_freep _ _ _ _ _ (by rw [f2]; exact hr), hs, hscan]
      exact ⟨_, rfl⟩
    obtain ⟨h3, e3⟩ := e3
    refine ⟨h1, r + 32768 - s + 16, h2, h3, r + 16, e1, by clear * -; omega, ?_, e3,
      fun _ => ⟨rfl, by clear * - h76; omega⟩, fun hne => absurd h76 hne⟩
    rw [memfree_eq _ _ _ _ hp, u1]
    rw [u1] at e2
    exact e2
  · have hrest : ¬ 32768 - (s + 16) = s := by clear * - h76; omega
    have hff : first_fit h2.size s [r, r + 32768 - s] = some (r + 32768 - s, true) := by
      simp only [first_fit, z2, zA, if_neg hno1, if_neg hrest, if_neg hno2, if_true]
    rw [hff] at hscan
    have e3 : ∃ h3, memalloc (k + 1) h2 mm3 mm4 n = some (h3, r + 32768 - s + 16) := by
      rw [memalloc_of_freep _ _ _ _ _ (by rw [f2]; exact hr), hs, hscan]
      exact ⟨_, rfl⟩
    obtain ⟨h3, e3⟩ := e3
    refine ⟨h1, r + 32768 - s + 16, h2, h3, r + 32768 - s + 16, e1, by clear * -; omega, ?_, e3,
      fun he => absurd he h76, fun _ => rfl⟩
    rw [memfree_eq _ _ _ _ hp, u1]
    rw [u1] at e2
    exact e2

theorem region_size_of_ge (n : Nat) (hn : 32768 ≤ n) : region_size n = n := by
  unfold region_size
  simp only [CHUNK_DEFAULT_SIZE]
  split <;> omega

/-- A request of at least the default region size: the first region cannot
serve it, the allocation is a second region of its own, and after the release
the next allocation takes that region again, provided the second region does
not end where the first begins. -/
theorem realloc_large (fuel r mm2 mm3 mm4 n s : Nat) (hr : r ≠ 0) (hn : 32768 ≤ n)
    (hn2 : n + 20 < WORD) (hs : normalized_size n = s)
    (hr2 : r + header_size + region_size n < WORD) (hm : mm2 ≠ 0)
    (hm2 : mm2 + header_size + s < WORD)
    (hdisj : r + header_size + region_size n ≤ mm2 ∨ mm2 + header_size + s < r)
    (hfuel : 3 ≤ fuel) :
    ∃ h1 h2 h3, memalloc fuel init r mm2 n = some (h1, mm2 + 16) ∧
      memfree fuel h1 (mm2 + 16) = some h2 ∧
      memalloc fuel h2 mm3 mm4 n = some (h3, mm2 + 16) := by
  obtain ⟨-, hns, hs8, hsw⟩ := normalized_size_bounds n hn2
  rw [hs] at hns hs8 hsw
  have hrn := region_size_of_ge n hn
  have hrs : region_size s = s := region_size_of_ge s (by omega)
  rw [hrn] at hr2 hdisj
  -- the heap the first scan starts in
  have hz0 : (setFreep (create_chunk init r n).1 r).size r = n := by
    rw [size_setFreep, size_create_chunk, if_pos rfl]
    exact hrn
  have hx0 : (setFreep (create_chunk init r n).1 r).next r = 0 := by
    simp [next_create_chunk]
  have hu0 : (setFreep (create_chunk init r n).1 r).usedp = 0 := rfl
  have hL0 : IsList (setFreep (create_chunk init r n).1 r).next r [r] := ⟨rfl, hr, hx0⟩
  have hsp0 : ∀ c ∈ [r], InSpace (setFreep (create_chunk init r n).1 r) c := by
    intro c hc
    rw [List.mem_singleton] at hc
    subst hc
    unfold InSpace
    rw [hz0]
    exact hr2
  have hscan0 := memalloc_scan_first_fit (setFreep (create_chunk init r n).1 r) s (by omega) hsw
    [r] fuel 0 r hL0 hsp0 (by simp only [List.length_singleton]; omega)
  have hff0 : first_fit (setFreep (create_chunk init r n).1 r).size s [r] = none := by
    have g1 : ¬ n > s + header_size := by simp only [header_size]; omega
    have g2 : ¬ n = s := by omega
    simp only [first_fit, hz0, if_neg g1, if_neg g2]
  rw [hff0] at hscan0
  have hfresh : Fresh (setFreep (create_chunk init r n).1 r) [r] mm2 (region_size s) := by
    rw [hrs]
    refine ⟨hm, hm2, ?_⟩
    intro c hc
    rw [List.mem_singleton] at hc
    subst hc
    rw [hz0]
    rcases hdisj with h1 | h1
    · left; exact h1
    · right; omega
  obtain ⟨c1, c2, c3⟩ := create_chunk_frame (setFreep (create_chunk init r n).1 r) [r] mm2 s
    hfresh
  obtain ⟨d1, d2, d3⟩ := c3 r (List.mem_singleton_self _)
  rw [hrs] at c1
  have hpm : (mm2 + header_size) % WORD = mm2 + 16 := by
    apply Nat.mod_eq_of_lt
    simp only [header_size] at *
    omega
  have hgrow : memalloc_grow (setFreep (create_chunk init r n).1 r) mm2 s
      = (add_to_used_chunks (create_chunk (setFreep (create_chunk init r n).1 r) mm2 s).1 mm2,
          mm2 + 16) := by
    have hmm : (create_chunk (setFreep (create_chunk init r n).1 r) mm2 s).2 = mm2 := rfl
    unfold memalloc_grow
    simp only [hmm, ne_eq, hm, not_false_eq_true, if_true, c1, hpm]
  have e1 : memalloc fuel init r mm2 n
      = some (add_to_used_chunks (create_chunk (setFreep (create_chunk init r n).1 r) mm2 s).1
          mm2, mm2 + 16) := by
    rw [memalloc_of_null _ _ _ _ _ rfl, hs, hscan0]
    simp only [hgrow]
  generalize hh1 : add_to_used_chunks
    (create_chunk (setFreep (create_chunk init r n).1 r) mm2 s).1 mm2 = h1 at e1
  have f1 : h1.freep = r := by rw [← hh1, freep_add_to_used_chunks]; rfl
  have u1 : h1.usedp = mm2 := by rw [← hh1]; rfl
  have zr1 : h1.size r = n := by rw [← hh1, size_add_to_used_chunks, d1]; exact hz0
  have zm1 : h1.size mm2 = s := by rw [← hh1, size_add_to_used_chunks]; exact c1
  have hunull : ¬ ((create_chunk (setFreep (create_chunk init r n).1 r) mm2 s).1.usedp ≠ 0
      ∧ r = mm2) := fun hh => d3 hh.2
  have nr1 : h1.next r = 0 := by
    rw [← hh1, next_add_to_used_chunks, if_neg hunull, d2]
    exact hx0
  have nm1 : h1.next mm2 = 0 := by
    rw [← hh1, next_add_to_used_chunks,
      if_neg (fun hh => hh.1 (by rw [usedp_create_chunk]; rfl))]
    exact c2
  have hmr : mm2 ≠ r := fun e => d3 e.symm
  have W1 : WellFormed h1 [mm2] [r] := by
    refine ⟨⟨u1, hm, nm1⟩, ⟨f1, hr, nr1⟩, ?_, ?_, ?_⟩
    · intro a ha
      simp only [List.mem_singleton] at ha ⊢
      rw [ha]
      exact d3
    · intro f hf
      rw [List.mem_singleton] at hf
      subst hf
      unfold InSpace
      rw [zm1]
      exact hm2
    · intro f hf
      rw [List.mem_singleton] at hf
      subst hf
      unfold InSpace
      rw [zr1]
      exact hr2
  obtain ⟨h2, e2, -, L2, ZA, Z2, -, SA⟩ := memfree_spec h1 mm2 [mm2] [r] fuel W1.1 (by simp)
    W1.2.1 (by simp only [List.mem_singleton]; exact hmr) W1.2.2.1 (by
      intro f hf
      rcases List.mem_cons.mp hf with e | hf
      · exact e ▸ W1.2.2.2.1 _ (by simp)
      · exact W1.2.2.2.2 f hf) (by simp only [List.length_cons, List.length_nil]; omega)
  have zr2 : h2.size r = n := by rw [Z2 r (Ne.symm hmr), zr1]
  have hp : header_of (mm2 + 16) = mm2 :=
    header_of_eq _ _ rfl (by simp only [header_size] at hm2; omega)
  have hspr : InSpace h2 r := by
    unfold InSpace
    rw [zr2]
    exact hr2
  have g1 : ¬ n > s + header_size := by simp only [header_size]; omega
  have g2 : ¬ n = s := by omega
  have g3 : ¬ s > s + header_size := by simp only [header_size]; omega
  have hnadj : ¬ (mm2 + header_size + s) % WORD = r := by
    rw [Nat.mod_eq_of_lt hm2]
    rcases hdisj with h1 | h1
    · simp only [header_size] at *
      omega
    · omega
  have e3 : ∃ h3, memalloc fuel h2 mm3 mm4 n = some (h3, mm2 + 16) := by
    by_cases hgt : mm2 > r
    · have L2' : IsList h2.next h2.freep [r, mm2] := by
        simpa [insert_chunk, insert_after, coalesce_at, absorb, hgt, Ne.symm hmr] using L2
      have zm2 : h2.size mm2 = s := by
        rw [ZA]
        simp [insert_chunk, insert_after, size_at, absorb, hgt, Ne.symm hmr, zm1]
      have hsp2 : ∀ c ∈ [r, mm2], InSpace h2 c := by
        intro c hc
        rcases List.mem_cons.mp hc with e | hc
        · rw [e]; exact hspr
        · rw [List.mem_singleton] at hc
          rw [hc]; exact SA
      have hscan := memalloc_scan_first_fit h2 s (by omega) hsw [r, mm2] fuel 0 h2.freep L2'
        hsp2 (by simp only [List.length_cons, List.length_nil]; omega)
      have hff : first_fit h2.size s [r, mm2] = some (mm2, true) := by
        simp only [first_fit, zr2, zm2, if_neg g1, if_neg g2, if_neg g3, if_true]
      rw [hff] at hscan
      rw [memalloc_of_freep _ _ _ _ _ (by rw [L2'.1]; exact hr), hs, hscan]
      exact ⟨_, rfl⟩
    · have hlt : ¬ mm2 > r := hgt
      have hab : absorb h1.size mm2 (h1.size mm2) [r] = (h1.size mm2, [r]) := by
        simp only [absorb, zm1, if_neg hnadj]
      have L2' : IsList h2.next h2.freep [mm2, r] := by
        simpa [insert_chunk, insert_after, coalesce_at, hlt, hab] using L2
      have hab' : absorb h1.size mm2 s [r] = (s, [r]) := by
        simp only [absorb, if_neg hnadj]
      have zm2 : h2.size mm2 = s := by
        rw [ZA]
        simp [insert_chunk, insert_after, size_at, hlt, hab', zm1]
      have hsp2 : ∀ c ∈ [mm2, r], InSpace h2 c := by
        intro c hc
        rcases List.mem_cons.mp hc with e | hc
        · rw [e]; exact SA
        · rw [List.mem_singleton] at hc
          rw [hc]; exact hspr
      have hscan := memalloc_scan_first_fit h2 s (by omega) hsw [mm2, r] fuel 0 h2.freep L2'
        hsp2 (by simp only [List.length_cons, List.length_nil]; omega)
      have hff : first_fit h2.size s [mm2, r] = some (mm2, true) := by
        simp only [first_fit, zm2, if_neg g3, if_true]
      rw [hff] at hscan
      rw [memalloc_of_freep _ _ _ _ _ (by rw [L2'.1]; exact hm), hs, hscan]
      exact ⟨_, rfl⟩
  obtain ⟨h3, e3⟩ := e3
  refine ⟨h1, h2, h3, e1, ?_, e3⟩
  rw [memfree_eq _ _ _ _ hp, u1]
  rw [u1] at e2
  exact e2

theorem normalized_size_region_inv (n : Nat) (hn : n + 20 < WORD)
    (hs : normalized_size n = 32768) : 32764 ≤ n ∧ n ≤ 32767 := by
  rw [normalized_size_eq] at hs
  simp only [WORD] at hn hs
  split at hs <;> omega

/-- C4 (amended): in the initial state, for a request `n` with `n + 20 < 2^64`,
normalized size `s`, and the first region mapped at `r`, the calls
`p = memalloc(n)`, `memfree(p)`, `q = memalloc(n)` return, and:
when the first allocation is split from the default region
(`s + header_size < 32768`), `q = p - (s + header_size)` if the rest of the
region can still be split (`2 * (s + header_size) < 32768`, as for `n = 64`),
`q` is the payload of the rest of the region, not `p`, if that rest has
exactly the size `s` (`s = 16376`), and `q = p` otherwise; when `s` is the
whole default region, `q = p`; when `n` is at least the default region size,
the allocation is a second region at `mm2` and `q = p`, provided that second
region is disjoint from the first and does not end where the first begins. -/
theorem realloc_after_release (fuel r mm2 mm3 mm4 n : Nat) (hn : n + 20 < WORD)
    (hr : r ≠ 0) (hr2 : r + header_size + region_size n < WORD) (hfuel : 3 ≤ fuel) :
    (normalized_size n + header_size < CHUNK_DEFAULT_SIZE →
      ∃ h1 p h2 h3 q, memalloc fuel init r mm2 n = some (h1, p) ∧ p ≠ 0 ∧
        memfree fuel h1 p = some h2 ∧ memalloc fuel h2 mm3 mm4 n = some (h3, q) ∧
        (2 * (normalized_size n + header_size) < CHUNK_DEFAULT_SIZE →
          q + normalized_size n + header_size = p) ∧
        (CHUNK_DEFAULT_SIZE - (normalized_size n + header_size) = normalized_size n →
          q = r + header_size ∧ q ≠ p) ∧
        (¬ 2 * (normalized_size n + header_size) < CHUNK_DEFAULT_SIZE →
          CHUNK_DEFAULT_SIZE - (normalized_size n + header_size) ≠ normalized_size n →
          q = p)) ∧
    (normalized_size n = CHUNK_DEFAULT_SIZE →
      ∃ h1 p h2 h3, memalloc fuel init r mm2 n = some (h1, p) ∧ p ≠ 0 ∧
        memfree fuel h1 p = some h2 ∧ memalloc fuel h2 mm3 mm4 n = some (h3, p)) ∧
    (CHUNK_DEFAULT_SIZE ≤ n → mm2 ≠ 0 → mm2 + header_size + normalized_size n < WORD →
      (r + header_size + region_size n ≤ mm2 ∨ mm2 + header_size + normalized_size n < r) →
      ∃ h1 p h2 h3, memalloc fuel init r mm2 n = some (h1, p) ∧ p ≠ 0 ∧
        memfree fuel h1 p = some h2 ∧ memalloc fuel h2 mm3 mm4 n = some (h3, p)) := by
  obtain ⟨-, hns, hs8, hsw⟩ := normalized_size_bounds n hn
  refine ⟨?_, ?_, ?_⟩
  · intro hsplit
    simp only [header_size, CHUNK_DEFAULT_SIZE] at hsplit ⊢
    have hn' : n ≤ 32768 := by omega
    have hrg : region_size n = 32768 := by
      unfold region_size
      simp only [CHUNK_DEFAULT_SIZE]
      split <;> omega
    have hr2' : r + 32784 < WORD := by
      rw [hrg] at hr2
      simp only [header_size] at hr2
      omega
    by_cases hsmall : 2 * (normalized_size n + 16) < 32768
    · obtain ⟨h1, p, h2, h3, q, e1, e2, e3, e4, e5⟩ := realloc_small fuel r mm2 mm3 mm4 n _ hr
        hr2' rfl hn' (by omega) hsmall hfuel
      refine ⟨h1, p, h2, h3, q, e1, e2, e3, e4, fun _ => e5, ?_, fun hh => absurd hsmall hh⟩
      intro hh
      omega
    · obtain ⟨h1, p, h2, h3, q, e1, e2, e3, e4, e5, e6⟩ := realloc_mid fuel r mm2 mm3 mm4 n _ hr
        hr2' rfl hn' (by omega) hsplit hsmall hfuel
      refine ⟨h1, p, h2, h3, q, e1, e2, e3, e4, fun hh => absurd hh hsmall, ?_, ?_⟩
      · intro hh
        exact e5 (by omega)
      · intro _ hh
        exact e6 (by omega)
  · intro hwhole
    simp only [CHUNK_DEFAULT_SIZE] at hwhole
    obtain ⟨g1, g2⟩ := normalized_size_region_inv n hn hwhole
    have hrg : region_size n = 32768 := by
      unfold region_size
      simp only [CHUNK_DEFAULT_SIZE]
      split <;> omega
    have hr2' : r + 32784 < WORD := by
      rw [hrg] at hr2
      simp only [header_size] at hr2
      omega
    exact realloc_whole_region fuel r mm2 mm3 mm4 n hr hr2' g1 g2 (by omega)
  · intro hlarge hm hm2 hdisj
    simp only [CHUNK_DEFAULT_SIZE] at hlarge
    obtain ⟨h1, h2, h3, e1, e2, e3⟩ := realloc_large fuel r mm2 mm3 mm4 n _ hr hlarge hn rfl hr2
      hm hm2 hdisj hfuel
    exact ⟨h1, mm2 + 16, h2, h3, e1, by omega, e2, e3⟩

theorem realloc_after_release_witness :
    (∃ h1 p h2 h3 q, memalloc 3 init 65536 0 20000 = some (h1, p) ∧ p ≠ 0 ∧
        memfree 3 h1 p = some h2 ∧ memalloc 3 h2 0 0 20000 = some (h3, q) ∧
        (2 * (normalized_size 20000 + header_size) < CHUNK_DEFAULT_SIZE →
          q + normalized_size 20000 + header_size = p) ∧
        (CHUNK_DEFAULT_SIZE - (normalized_size 20000 + header_size) = normalized_size 20000 →
          q = 65536 + header_size ∧ q ≠ p) ∧
        (¬ 2 * (normalized_size 20000 + header_size) < CHUNK_DEFAULT_SIZE →
          CHUNK_DEFAULT_SIZE - (normalized_size 20000 + header_size) ≠ normalized_size 20000 →
          q = p)) ∧
      (∃ h1 p h2 h3, memalloc 3 init 65536 0 32764 = some (h1, p) ∧ p ≠ 0 ∧
        memfree 3 h1 p = some h2 ∧ memalloc 3 h2 0 0 32764 = some (h3, p)) ∧
      (∃ h1 p h2 h3, memalloc 3 init 65536 131072 40000 = some (h1, p) ∧ p ≠ 0 ∧
        memfree 3 h1 p = some h2 ∧ memalloc 3 h2 0 0 40000 = some (h3, p)) :=
  ⟨(realloc_after_release 3 65536 0 0 0 20000 (by decide) (by decide) (by decide)
      (by decide)).1 (by decide),
    (realloc_after_release 3 65536 0 0 0 32764 (by decide) (by decide) (by decide)
      (by decide)).2.1 (by decide),
    (realloc_after_release 3 65536 131072 0 0 40000 (by decide) (by decide) (by decide)
      (by decide)).2.2 (by decide) (by decide) (by decide) (by decide)⟩

/-- A write to the link of a chunk outside the free list keeps the heap
tiled. -/
theorem tiled_setNext (h : Heap) (live free : List Nat) (c v : Nat) (ht : Tiled h live free)
    (hc : c ∉ free) : Tiled (setNext h c v) live free := by
  obtain ⟨tl, tnd, tdisj, tsp, tap⟩ := ht
  refine ⟨?_, tnd, tdisj, tsp, tap⟩
  refine IsSeg_congr ?_ tl
  intro a ha
  have : a ≠ c := fun e => hc (e ▸ ha)
  simp [this]

/-- The first region reads zero: a link inside it is null. -/
theorem first_region_zero (h : Heap) (mm1 n x : Nat) (hfp : h.freep = 0)
    (hw : mm1 + header_size + region_size n < WORD) (h1 : mm1 ≤ x)
    (h2 : x < mm1 + header_size + region_size n) : (first_region h mm1 n).next x = 0 := by
  have hfr : first_region h mm1 n = setFreep (create_chunk h mm1 n).1 mm1 := by
    unfold first_region
    rw [if_pos hfp]
    rfl
  have hreg : (if n > CHUNK_DEFAULT_SIZE then n else CHUNK_DEFAULT_SIZE) = region_size n := rfl
  rw [hfr, next_setFreep, next_create_chunk, hreg]
  split
  · rfl
  · rw [Nat.mod_eq_of_lt (by omega), if_pos ⟨h1, by omega⟩]

/-! ## Runs with explicit recycled links: the invariant -/

theorem tracked_init : Tracked init [] [] [] 0 :=
  ⟨tiled_init, rfl, rfl, by simp⟩

theorem isSeg_of_null {next : Nat → Nat} {g : Nat} {l : List Nat} (hl : IsSeg next 0 g l) :
    l = [] ∧ g = 0 := by
  cases l with
  | nil => exact ⟨rfl, hl.symm⟩
  | cons c cs => exact absurd hl.1.symm hl.2.1

/-- A run whose calls are as assumed returns, with fuel beyond three times its
length, and ends in a heap tiled by the live chunks and the free list, where
the chain of links from `usedp` visits the live chunks and then reaches `g`;
the free list stays address-ordered when the regions are mapped below it, and
`g` is null when the links left unwritten are null. -/
theorem run_inv (ordered linked : Bool) (fuel : Nat) :
    ∀ (calls : List Call) (h : Heap) (ps used free : List Nat) (g : Nat),
      Tracked h ps used free g → (ordered = true → Ascending free) → (linked = true → g = 0) →
      used.length + free.length + 3 * calls.length + 1 < fuel →
      CallsOk ordered linked fuel h ps calls →
      ∃ hf psf usedf freef gf, run fuel h ps calls = some (hf, psf) ∧
        Tracked hf psf usedf freef gf ∧ (ordered = true → Ascending freef) ∧
        (linked = true → gf = 0) ∧ usedf.length + freef.length + 1 < fuel := by
  intro calls
  induction calls with
  | nil =>
    intro h ps used free g hr hasc hg hfuel _
    exact ⟨h, ps, used, free, g, rfl, hr, hasc, hg, by simpa using hfuel⟩
  | cons op rest ih =>
    intro h ps used free g hr hasc hg hfuel hok
    obtain ⟨ht, hu, hmap, hps⟩ := hr
    simp only [List.length_cons] at hfuel
    have hw : walk h.next fuel h.freep = free := walk_of_isList free fuel h.freep ht.1 (by omega)
    cases op with
    | alloc mm1 mm2 n junk =>
      simp only [CallsOk] at hok
      obtain ⟨⟨hn, hf1, hf2, hex⟩, hbelow, hm⟩ := hok
      rw [← hmap] at hf1 hf2
      obtain ⟨-, -, hs8, hsw⟩ := normalized_size_bounds n hn
      obtain ⟨ht0, hfr0, hup0⟩ := first_region_tiled h used free mm1 n ht hf1
      have hlen0 : (if h.freep = 0 then [mm1] else free).length ≤ free.length + 1 := by
        split
        · simp
        · omega
      have hw0 : walk (first_region h mm1 n).next fuel (first_region h mm1 n).freep
          = (if h.freep = 0 then [mm1] else free) :=
        walk_of_isList _ fuel _ ht0.1 (by omega)
      rw [hw0] at hf2 hex
      have hsp0 : ∀ c ∈ (if h.freep = 0 then [mm1] else free), InSpace (first_region h mm1 n) c :=
        fun c hc => (ht0.2.2.2.1 c (List.mem_append_right _ hc)).2
      have hmiss : first_fit (first_region h mm1 n).size (normalized_size n)
          (if h.freep = 0 then [mm1] else free) = none → ScanMisses fuel h mm1 n := by
        intro hff
        unfold ScanMisses
        rw [memalloc_scan_first_fit _ _ (by omega) hsw _ fuel 0 _ ht0.1 hsp0 (by omega), hff]
        trivial
      obtain ⟨h', p, free', e1, esub, eframe0, ecases0⟩ :=
        scan_grow_step fuel (first_region h mm1 n) used _ mm2 (normalized_size n) ht0
          (by omega) hsw (by omega) (fun hff => hf2 (hmiss hff)) hex
      rw [← memalloc_eq_first_region] at e1
      rw [hup0] at ecases0
      have ecases := ecases0
      have eframe : ∀ a ∈ used, h'.next a = h.next a ∧ h'.size a = h.size a := by
        intro a ha
        obtain ⟨f1, f2⟩ := eframe0 a ha
        obtain ⟨g1, g2⟩ := hfr0 a ha
        exact ⟨f1.trans g1, f2.trans g2⟩
      rw [e1] at hm
      simp only at hm
      obtain ⟨hslip, hrest⟩ := hm
      have hlen : free'.length ≤ free.length + 2 := by
        rcases esub with hsub | ⟨-, -, heq⟩
        · have := hsub.length_le
          omega
        · rw [heq, List.length_cons]
          omega
      have hasc0 : ordered = true → Ascending (if h.freep = 0 then [mm1] else free) := by
        intro ho
        split
        · exact List.pairwise_singleton _ _
        · exact hasc ho
      have hasc' : ordered = true → Ascending free' := by
        intro ho
        rcases esub with hsub | ⟨hff, hnw, heq⟩
        · exact List.Pairwise.sublist hsub (hasc0 ho)
        · have hb := hbelow ho (hmiss hff) hnw
          rw [hw0] at hb
          rw [heq]
          exact List.pairwise_cons.mpr ⟨hb, hasc0 ho⟩
      have hframe : ∀ a ∈ used, h'.next a = h.next a := fun a ha => (eframe a ha).1
      rcases ecases with ⟨hp0, ht', hup⟩ | ⟨c, hpc, ht', -, hup, hlink, -⟩
      · have hnr : with_recycled_link fuel h mm1 n junk h' p = h' := by
          unfold with_recycled_link
          rw [if_neg]
          intro hr
          exact hr.2.2.1 hp0
        rw [hnr] at hrest
        have hu' : IsSeg h'.next h'.usedp g used := by
          rw [hup]
          exact IsSeg_congr hframe hu
        rw [if_pos hp0] at hrest
        obtain ⟨hf, psf, usedf, freef, gf, r1, r2, r3, r4, r5⟩ :=
          ih h' ps used free' g ⟨ht', hu', hmap, hps⟩ hasc' hg (by omega) hrest
        refine ⟨hf, psf, usedf, freef, gf, ?_, r2, r3, r4, r5⟩
        simp only [run, e1, if_pos hp0, hnr]
        exact r1
      · have hc0 : c ≠ 0 := (ht'.2.2.2.1 c (by simp)).1
        have hcs : InSpace h' c := (ht'.2.2.2.1 c (by simp)).2
        have hcf : c ∉ free' := ht'.2.2.1 c (List.mem_cons_self _ _)
        have hp0 : p ≠ 0 := by
          rw [hpc]
          simp only [header_size]
          omega
        have hhc : header_of p = c := by
          rw [hpc]
          apply header_of_add
          unfold InSpace at hcs
          omega
        rw [if_neg hp0] at hrest
        have hmap' : c :: used = (p :: ps).map header_of := by
          rw [List.map_cons, hhc, hmap]
        have hps' : ∀ q ∈ p :: ps, q = header_of q + header_size := by
          intro q hq
          rcases List.mem_cons.mp hq with rfl | hq
          · rw [hhc]; exact hpc
          · exact hps q hq
        have hstep : ∃ g', Tiled (with_recycled_link fuel h mm1 n junk h' p) (c :: used) free' ∧
            IsSeg (with_recycled_link fuel h mm1 n junk h' p).next
              (with_recycled_link fuel h mm1 n junk h' p).usedp g' (c :: used) ∧
            (linked = true → g' = 0) := by
          by_cases hz : h.usedp = 0
          · rw [hz] at hu
            obtain ⟨hnil, -⟩ := isSeg_of_null hu
            refine ⟨(with_recycled_link fuel h mm1 n junk h' p).next c, ?_, ?_, ?_⟩
            · unfold with_recycled_link
              split
              · rw [hhc]
                exact tiled_setNext h' _ free' c junk ht' hcf
              · exact ht'
            · have hup2 : (with_recycled_link fuel h mm1 n junk h' p).usedp = c := by
                unfold with_recycled_link
                split
                · exact hup
                · exact hup
              rw [hup2, hnil]
              exact ⟨rfl, hc0, rfl⟩
            · intro hl
              have := hslip hl hz hp0
              rw [hhc] at this
              exact this
          · have hnr : with_recycled_link fuel h mm1 n junk h' p = h' := by
              unfold with_recycled_link
              rw [if_neg]
              intro hr
              exact hz hr.1
            rw [hnr]
            refine ⟨g, ht', ?_, hg⟩
            rw [hup]
            refine ⟨rfl, hc0, ?_⟩
            rw [hlink hz]
            exact IsSeg_congr hframe hu
        obtain ⟨g', ht2, hu2, hg2⟩ := hstep
        obtain ⟨hf, psf, usedf, freef, gf, r1, r2, r3, r4, r5⟩ :=
          ih (with_recycled_link fuel h mm1 n junk h' p) (p :: ps) (c :: used) free' g'
            ⟨ht2, hu2, hmap', hps'⟩ hasc' hg2
            (by simp only [List.length_cons]; omega) hrest
        refine ⟨hf, psf, usedf, freef, gf, ?_, r2, r3, r4, r5⟩
        simp only [run, e1, if_neg hp0]
        exact r1
    | free p =>
      simp only [CallsOk] at hok
      obtain ⟨hpm, hm⟩ := hok
      have hpp := hps p hpm
      have hcu : header_of p ∈ used := by
        rw [hmap]
        exact List.mem_map_of_mem _ hpm
      obtain ⟨h', pre, absorbed, post, e1, e2, e2', ht', hu', -, -⟩ :=
        memfree_tiled_seg h (header_of p) g used free fuel ht hu hcu (by omega)
      have hmf : memfree fuel h p = some h' := by
        rw [memfree_eq fuel h p (header_of p) rfl]
        exact e1
      rw [hmf] at hm
      simp only at hm
      have hlen : (pre ++ header_of p :: post).length ≤ free.length + 1 := by
        have h1 := (insert_chunk_mem (header_of p) free).2.1
        rw [e2] at h1
        simp only [List.length_append, List.length_cons] at h1 ⊢
        omega
      have hasc' : ordered = true → Ascending (pre ++ header_of p :: post) := by
        intro ho
        rw [← e2']
        exact List.Pairwise.sublist (coalesce_at_sublist h.size (header_of p) _)
          (insert_chunk_ascending (header_of p) free (hasc ho) (ht.2.2.1 _ hcu))
      have hmap' : used.erase (header_of p) = (ps.erase p).map header_of := by
        rw [hmap, map_header_of_erase p ps hps hpp]
      have hps' : ∀ q ∈ ps.erase p, q = header_of q + header_size :=
        fun q hq => hps q (List.mem_of_mem_erase hq)
      have hlen2 : (used.erase (header_of p)).length ≤ used.length := by
        rw [List.length_erase_of_mem hcu]
        omega
      obtain ⟨hf, psf, usedf, freef, gf, r1, r2, r3, r4, r5⟩ :=
        ih h' (ps.erase p) (used.erase (header_of p)) (pre ++ header_of p :: post) g
          ⟨ht', hu', hmap', hps'⟩ hasc' hg (by omega) hm
      refine ⟨hf, psf, usedf, freef, gf, ?_, r2, r3, r4, r5⟩
      simp only [run, hmf]
      exact r1

theorem first_region_size (h : Heap) (mm1 n : Nat) (hfp : h.freep = 0) :
    (first_region h mm1 n).size mm1 = region_size n := by
  have hfr : first_region h mm1 n = setFreep (create_chunk h mm1 n).1 mm1 := by
    unfold first_region
    rw [if_pos hfp]
    rfl
  rw [hfr]
  show (create_chunk h mm1 n).1.size mm1 = region_size n
  rw [size_create_chunk, if_pos rfl]
  rfl

/-- The link `add_to_used_chunks` leaves unwritten, when `memalloc` is called
with a null `usedp` in a state of a run: the chunk handed out lies in a region
the call reserved, and its link is null; or it is a chunk of the free list,
and its link is the free-list link; or it was split from a chunk `c0` of the
free list as it stood, the one case in which the run takes the link from
`junk`. -/
theorem unwritten_link (fuel : Nat) (h : Heap) (ps used free : List Nat) (g mm1 mm2 n : Nat)
    (hr : Tracked h ps used free g) (hfuel : used.length + free.length + 2 < fuel)
    (hok : AllocOk fuel h ps mm1 mm2 n) (hz : h.usedp = 0) :
    ∃ h1 p, memalloc fuel h mm1 mm2 n = some (h1, p) ∧
      (p = 0 ∨
        ((h.freep = 0 ∨ ScanMisses fuel h mm1 n) ∧ h1.next (header_of p) = 0 ∧
          ¬ ReadsRecycledLink fuel h mm1 n p) ∨
        (header_of p ∈ free ∧ h1.next (header_of p) = h.next (header_of p) ∧
          ¬ ReadsRecycledLink fuel h mm1 n p) ∨
        (ReadsRecycledLink fuel h mm1 n p ∧
          ∃ c0 ∈ free, c0 < header_of p ∧
            header_of p + normalized_size n = c0 + h.size c0)) := by
  obtain ⟨ht, hu, hmap, hps⟩ := hr
  have hw : walk h.next fuel h.freep = free := walk_of_isList free fuel h.freep ht.1 (by omega)
  obtain ⟨hn, hf1, hf2, hex⟩ := hok
  rw [← hmap] at hf1 hf2
  obtain ⟨-, -, hs8, hsw⟩ := normalized_size_bounds n hn
  obtain ⟨ht0, hfr0, hup0⟩ := first_region_tiled h used free mm1 n ht hf1
  have hlen0 : (if h.freep = 0 then [mm1] else free).length ≤ free.length + 1 := by
    split
    · simp
    · omega
  have hw0 : walk (first_region h mm1 n).next fuel (first_region h mm1 n).freep
      = (if h.freep = 0 then [mm1] else free) :=
    walk_of_isList _ fuel _ ht0.1 (by omega)
  rw [hw0] at hf2 hex
  have hsp0 : ∀ c ∈ (if h.freep = 0 then [mm1] else free), InSpace (first_region h mm1 n) c :=
    fun c hc => (ht0.2.2.2.1 c (List.mem_append_right _ hc)).2
  have hscan := memalloc_scan_first_fit (first_region h mm1 n) (normalized_size n) (by omega) hsw
    _ fuel 0 _ ht0.1 hsp0 (by omega)
  have hmiss : first_fit (first_region h mm1 n).size (normalized_size n)
      (if h.freep = 0 then [mm1] else free) = none → ScanMisses fuel h mm1 n := by
    intro hff
    unfold ScanMisses
    rw [hscan, hff]
    trivial
  have hhit : ∀ c0 b, first_fit (first_region h mm1 n).size (normalized_size n)
      (if h.freep = 0 then [mm1] else free) = some (c0, b) → ¬ ScanMisses fuel h mm1 n := by
    intro c0 b hff
    unfold ScanMisses
    rw [hscan, hff]
    cases b <;> exact fun hf => hf
  obtain ⟨h', p, free', e1, -, -, ecases⟩ :=
    scan_grow_step fuel (first_region h mm1 n) used _ mm2 (normalized_size n) ht0
      (by omega) hsw (by omega) (fun hff => hf2 (hmiss hff)) hex
  rw [← memalloc_eq_first_region] at e1
  rw [hup0] at ecases
  refine ⟨h', p, e1, ?_⟩
  rcases ecases with ⟨hp0, -, -⟩ | ⟨c, hpc, ht', -, -, -, hcase⟩
  · exact Or.inl hp0
  · right
    have hcs : InSpace h' c := (ht'.2.2.2.1 c (by simp)).2
    have hp0 : p ≠ 0 := by
      rw [hpc]
      simp only [header_size]
      omega
    have hhc : header_of p = c := by
      rw [hpc]
      apply header_of_add
      unfold InSpace at hcs
      omega
    rw [hhc]
    rcases hcase with ⟨hff, hl⟩ | ⟨hff, hl⟩ | ⟨c0, hff, hc0, hceq, hbig, hl⟩
    · exact Or.inl ⟨Or.inr (hmiss hff), hl hz, fun hr => hr.2.2.2.1 (hmiss hff)⟩
    · have hcm := (first_fit_some _ _ _ _ _ hff).1
      by_cases hfp : h.freep = 0
      · left
        rw [if_pos hfp] at hcm
        have hcmm : c = mm1 := by simpa using hcm
        obtain ⟨-, hwr, -⟩ := hf1 hfp
        refine ⟨Or.inl hfp, ?_, fun hr => hr.2.1 hfp⟩
        rw [hl hz, hcmm]
        exact first_region_zero h mm1 n mm1 hfp hwr (le_refl _) (by simp only [header_size]; omega)
      · right; left
        rw [if_neg hfp] at hcm
        have hh0 : first_region h mm1 n = h := by
          unfold first_region
          rw [if_neg hfp]
        rw [hh0] at hl
        refine ⟨hcm, hl hz, fun hr => hr.2.2.2.2 ?_⟩
        rw [hhc, hw]
        exact hcm
    · by_cases hfp : h.freep = 0
      · left
        rw [if_pos hfp] at hc0
        have hcmm : c0 = mm1 := by simpa using hc0
        obtain ⟨-, hwr, -⟩ := hf1 hfp
        have hsz := first_region_size h mm1 n hfp
        refine ⟨Or.inl hfp, ?_, fun hr => hr.2.1 hfp⟩
        rw [hl hz]
        rw [hcmm, hsz] at hceq hbig
        apply first_region_zero h mm1 n c hfp hwr
        · clear * - hceq hbig
          simp only [header_size] at hbig
          omega
        · clear * - hceq hbig hs8
          simp only [header_size] at hbig ⊢
          omega
      · right; right
        rw [if_neg hfp] at hc0
        have hh0 : first_region h mm1 n = h := by
          unfold first_region
          rw [if_neg hfp]
        rw [hh0] at hceq hbig
        have hlt : c0 < c := by
          clear * - hceq hbig hs8
          simp only [header_size] at hbig
          omega
        refine ⟨⟨hz, hfp, hp0, hhit c0 false hff, ?_⟩, c0, hc0, hlt, ?_⟩
        · rw [hhc, hw]
          intro hcf
          have hap := ht.2.2.2.2 c (List.mem_append_right _ hcf) c0
            (List.mem_append_right _ hc0) (by omega)
          unfold Apart at hap
          clear * - hap hceq hbig hlt
          simp only [header_size] at hbig hap
          omega
        · clear * - hceq hbig
          simp only [header_size] at hbig
          omega

/-! ## C12, C14, C20: the two lists along a run -/

/-- The link `add_to_used_chunks` leaves unwritten, in recycled memory:
`recycled_link_run` meets every assumption of `CallsOk` but the null link, and
ends with `usedp` at the chunk `65612` of its one live pointer, whose link is
`68`, the size field of the stale header: the chain from `usedp` leaves the
chunks. -/
theorem recycled_link_is_followed :
    CallsOk true false 40 init [] recycled_link_run ∧
      ¬ CallsOk true true 40 init [] recycled_link_run ∧
      ∃ h ps, run 40 init [] recycled_link_run = some (h, ps) ∧ ps = [65628] ∧
        h.usedp = 65612 ∧ h.next 65612 = 68 ∧
        walk h.next 40 h.freep = [65536, 65592, 65704] :=
  ⟨by decide, by decide, _, _, rfl, by decide, by decide, by decide, by decide⟩

/-- The link `add_to_used_chunks` leaves unwritten, in a chunk of the free
list handed out whole: `head_taken_run` meets every assumption of `CallsOk` but
the null link, and ends with the chunk `65536` on the used list, still linked
to the free chunk `98236`. -/
theorem head_taken_whole_keeps_free_link :
    CallsOk true false 20 init [] head_taken_run ∧
      ¬ CallsOk true true 20 init [] head_taken_run ∧
      ∃ h ps, run 20 init [] head_taken_run = some (h, ps) ∧ ps = [65552] ∧
        walk h.next 20 h.usedp = [65536, 98236] ∧ walk h.next 20 h.freep = [98236] :=
  ⟨by decide, by decide, _, _, rfl, by decide, by decide, by decide⟩

/-- An exact-size chunk behind the head of the free list is handed out and
stays in the free list (the scan loop sets `prev_free` to the chunk itself),
and its link is set to the used list: in `behind_head_run`, whose first four
calls meet every assumption of `CallsOk`, the free list ends as `65536`,
`65616`, `65592`, `65696`. -/
theorem exact_fit_behind_head_breaks_order :
    CallsOk true true 40 init [] (behind_head_run.take 4) ∧
      ∃ h ps, run 40 init [] behind_head_run = some (h, ps) ∧ ps = [65632, 65608, 65712] ∧
        walk h.next 40 h.freep = [65536, 65616, 65592, 65696] ∧
        ¬ Ascending (walk h.next 40 h.freep) :=
  ⟨by decide, _, _, rfl, by decide, by decide, by decide⟩

/-- A second exact fit of the chunk behind the head of the free list: after
`behind_head_run`, one more `memalloc(60)` stops at the chunk `65616` again,
which heads the used list, and links it to itself; the chunk is still in the
free list. -/
theorem second_exact_fit_behind_head_makes_cycle :
    ∃ h ps, run 40 init [] (behind_head_run ++ [Call.alloc 0 4096 60 0]) = some (h, ps) ∧
      h.usedp = 65616 ∧ h.next 65616 = 65616 ∧ 65616 ∈ walk h.next 40 h.freep :=
  ⟨_, _, rfl, by decide, by decide, by decide⟩

/-- A request that wraps breaks the order of the free list: the first six
calls of `wrapped_order_run` meet every assumption of `CallsOk`; the last
splits the free chunk `65536` with a sum that wraps to `0`, lands on the free
chunk `65860` and links it to the used list, so that the free list ends as
`65536`, `65860`, `97300`, `65980`. -/
theorem wrapped_request_breaks_order :
    CallsOk true true 40 init [] (wrapped_order_run.take 6) ∧
      ∃ h ps, run 40 init [] wrapped_order_run = some (h, ps) ∧
        walk h.next 40 h.freep = [65536, 65860, 97300, 65980] ∧
        ¬ Ascending (walk h.next 40 h.freep) :=
  ⟨by decide, _, _, rfl, by decide, by decide⟩

/-- C12 (amended): a run of `memalloc` and `memfree` calls from the initial
state, in which every request `n` has `n + 20 < 2^64`, the regions `mmap`
answers are fresh, no `memalloc` is served by an exact-size chunk behind the
head of the free list, `memfree` is called on live pointers only, and the link
of every chunk handed out while `usedp` is null, which `add_to_used_chunks`
does not write, is null in memory, returns (with fuel beyond three times its
length) and ends in a state whose used list and free list are finite lists
that share no chunk, the used list being the chunks of the live pointers. -/
theorem lists_stay_disjoint (fuel : Nat) (calls : List Call)
    (hfuel : 3 * calls.length + 1 < fuel) (hok : CallsOk false true fuel init [] calls) :
    ∃ hf ps used free, run fuel init [] calls = some (hf, ps) ∧
      IsList hf.next hf.usedp used ∧ IsList hf.next hf.freep free ∧
      (∀ a ∈ used, a ∉ free) ∧ used = ps.map header_of := by
  obtain ⟨hf, ps, used, free, g, r1, ⟨ht, hu, hmap, -⟩, -, hg, -⟩ :=
    run_inv false true fuel calls init [] [] [] 0 tracked_init (fun e => Bool.noConfusion e)
      (fun _ => rfl) (by simpa using hfuel) hok
  rw [hg rfl] at hu
  exact ⟨hf, ps, used, free, r1, hu, ht.1, ht.2.2.1, hmap⟩

theorem lists_stay_disjoint_witness :
    ∃ hf ps used free, run 20 init []
        [Call.alloc 65536 4096 64 0, Call.free 98252, Call.alloc 0 4096 64 0,
          Call.free 98168, Call.alloc 0 4096 100 0] = some (hf, ps) ∧
      IsList hf.next hf.usedp used ∧ IsList hf.next hf.freep free ∧
      (∀ a ∈ used, a ∉ free) ∧ used = ps.map header_of :=
  lists_stay_disjoint 20 _ (by decide) (by decide)

/-- C12 (counterexample): from the initial state, with the region mapped at
`65536`, `p = memalloc(64)`, `memfree(p)` and `memalloc(2^64 - 20)`: the last
call splits the free chunk `65536` with a sum `size + header_size` that wraps
to `0`, lands on the free chunk `98236` and pushes it on the used list. The
chunk `98236` is then reachable from both `usedp` and `freep`. -/
theorem wrapped_request_takes_free_chunk :
    ∃ h ps, run 8 init []
        [Call.alloc 65536 0 64 0, Call.free 98252,
          Call.alloc 0 0 18446744073709551596 0] = some (h, ps) ∧
      walk h.next 8 h.usedp = [98236] ∧ walk h.next 8 h.freep = [65536, 98236] ∧
      98236 ∈ walk h.next 8 h.usedp ∧ 98236 ∈ walk h.next 8 h.freep :=
  ⟨_, _, rfl, by decide, by decide, by decide, by decide⟩

/-- C20 (amended): a run of `memalloc` and `memfree` calls from the initial
state, in which every request `n` has `n + 20 < 2^64`, the regions `mmap`
answers are fresh, no `memalloc` is served by an exact-size chunk behind the
head of the free list and `memfree` is called on live pointers only, returns
for every fuel beyond three times its length, so the loops of all its calls
terminate. It ends in a state whose free list is a finite null-terminated list
without a repeated chunk, and in which the chain of links from `usedp` visits
the chunks of the live pointers, none twice, and then reaches `g`. When
moreover (`linked`) the link of every chunk handed out while `usedp` is null,
which `add_to_used_chunks` does not write, is null in memory, `g` is null: the
used list is a finite null-terminated list. -/
theorem lists_stay_finite (linked : Bool) (fuel : Nat) (calls : List Call)
    (hfuel : 3 * calls.length + 1 < fuel) (hok : CallsOk false linked fuel init [] calls) :
    ∃ hf ps used free g, run fuel init [] calls = some (hf, ps) ∧
      IsList hf.next hf.freep free ∧ free.Nodup ∧ walk hf.next fuel hf.freep = free ∧
      IsSeg hf.next hf.usedp g used ∧ used.Nodup ∧ used = ps.map header_of ∧
      (linked = true → g = 0 ∧ IsList hf.next hf.usedp used ∧
        walk hf.next fuel hf.usedp = used) := by
  obtain ⟨hf, ps, used, free, g, r1, ⟨ht, hu, hmap, -⟩, -, hg, hlen⟩ :=
    run_inv false linked fuel calls init [] [] [] 0 tracked_init (fun e => Bool.noConfusion e)
      (fun _ => rfl) (by simpa using hfuel) hok
  refine ⟨hf, ps, used, free, g, r1, ht.1, IsList_nodup ht.1,
    walk_of_isList free fuel hf.freep ht.1 (by omega), hu, ht.2.1, hmap, ?_⟩
  intro hl
  have hg0 := hg hl
  rw [hg0] at hu
  exact ⟨hg0, hu, walk_of_isList used fuel hf.usedp hu (by omega)⟩

theorem lists_stay_finite_witness :
    ∃ hf ps used free g, run 30 init []
        [Call.alloc 65536 4096 64 0, Call.free 98252, Call.alloc 0 4096 64 0,
          Call.alloc 0 4096 100 0, Call.free 98168, Call.free 98048,
          Call.alloc 0 4096 200 0] = some (hf, ps) ∧
      IsList hf.next hf.freep free ∧ free.Nodup ∧ walk hf.next 30 hf.freep = free ∧
      IsSeg hf.next hf.usedp g used ∧ used.Nodup ∧ used = ps.map header_of ∧
      (true = true → g = 0 ∧ IsList hf.next hf.usedp used ∧
        walk hf.next 30 hf.usedp = used) :=
  lists_stay_finite true 30 _ (by decide) (by decide)

/-- C20 (counterexample): from the initial state, with the region mapped at
`65536`, `memalloc(64)` and `memalloc(2^64 - 20)` both return `98252`: the
second call lands on the chunk `98236` of the first, which is the head of the
used list, and links it to itself. The used list is then a cycle: no finite
list is reached from `usedp`. -/
theorem wrapped_request_makes_used_list_cyclic :
    ∃ h ps, run 8 init []
        [Call.alloc 65536 0 64 0, Call.alloc 0 0 18446744073709551596 0] = some (h, ps) ∧
      h.usedp = 98236 ∧ h.next 98236 = 98236 ∧ ∀ l, ¬ IsList h.next h.usedp l :=
  ⟨_, _, rfl, rfl, by decide,
    fun l => not_isList_of_self_loop (by decide) l (by decide)⟩

/-- C14 (amended): a run of `memalloc` and `memfree` calls from the initial
state, in which every request `n` has `n + 20 < 2^64`, the regions `mmap`
answers are fresh, no `memalloc` is served by an exact-size chunk behind the
head of the free list, `memfree` is called on live pointers only, and every
region that is reserved when the scan misses and linked into the free list
(it is larger than the normalized size, so it is not handed out whole) lies
below all the free chunks, returns (with fuel beyond three times its length)
and ends in a state whose free list is a finite list with strictly increasing
addresses, whatever the links that `add_to_used_chunks` leaves unwritten
hold. -/
theorem free_list_stays_ascending (fuel : Nat) (calls : List Call)
    (hfuel : 3 * calls.length + 1 < fuel) (hok : CallsOk true false fuel init [] calls) :
    ∃ hf ps free, run fuel init [] calls = some (hf, ps) ∧
      IsList hf.next hf.freep free ∧ Ascending free := by
  obtain ⟨hf, ps, used, free, g, r1, ⟨ht, -, -, -⟩, hasc, -, -⟩ :=
    run_inv true false fuel calls init [] [] [] 0 tracked_init (fun _ => List.Pairwise.nil)
      (fun _ => rfl) (by simpa using hfuel) hok
  exact ⟨hf, ps, free, r1, ht.1, hasc rfl⟩

theorem free_list_stays_ascending_witness :
    ∃ hf ps free, run 40 init []
        (recycled_link_run ++ [Call.alloc 0 131072 40000 0, Call.free 131088]) = some (hf, ps) ∧
      IsList hf.next hf.freep free ∧ Ascending free :=
  free_list_stays_ascending 40 _ (by decide) (by decide)

/-- C14 (counterexample): from the initial state, `memalloc(32000)` with its
region mapped at `65536` and `memalloc(1000)`, which finds no chunk and gets a
new region mapped at `131072` (disjoint from the first); the run meets every
assumption of `CallsOk` but the place of the linked region. The new region is
linked at the head of the free list, which is then `[131072, 65536]`: not
increasing. -/
theorem new_region_is_linked_at_head :
    CallsOk false true 8 init []
        [Call.alloc 65536 200000 32000 0, Call.alloc 200000 131072 1000 0] ∧
      ∃ h ps, run 8 init []
          [Call.alloc 65536 200000 32000 0, Call.alloc 200000 131072 1000 0] = some (h, ps) ∧
        ps.length = 2 ∧ walk h.next 8 h.freep = [131072, 65536] ∧
        ¬ Ascending (walk h.next 8 h.freep) :=
  ⟨by decide, _, _, rfl, by decide, by decide, by decide⟩

end Malloc
